import Mathlib

/-!
# Verification of the `dig` Mapping library

A shallow embedding of `mapping.go` from the `dig` repository.

The Go type `Mapping` is `map[string]any`: a mutable, reference-typed map
whose values may themselves be `Mapping`s, slices, scalars, `nil`, or other
reference values (for example `*Mapping` pointers).  Several specified
properties are about aliasing and in-place mutation (`Dup` independence,
`DigMapping` returning a live handle, `Merge` never aliasing the source),
so the embedding makes the store explicit:

* `Addr` is the identity of a mutable Go container (a map or a slice).
* `Value` is what can sit in a map cell or a slice cell: Go `nil`,
  scalars, a reference to a `Mapping` (`vmap`), a reference to an `[]any`
  slice (`vseq`), or a `*Mapping` pointer (`vptr`, whose `reflect.Kind` is
  `Ptr`, neither `Map` nor `Slice`).
* `Heap` maps addresses to container contents (`Node`).

Go map entries are modelled as association lists; lookup takes the first
matching key and assignment replaces the entry in place (Go's iteration
order is irrelevant to every property proved here).

Recursive functions that in Go recurse through the heap (`deepCopy`,
`Merge`) take an explicit fuel argument and return `none` when the fuel
runs out; every equation proved about them is conditional on a `some`
result, so the fuel is only the standard totality device and never changes
a produced result.

The normalizer (`cleanUpValue` and friends) runs on freshly decoded input
before it becomes part of any `Mapping`, so it is modelled separately at
the pure value level (`GoVal`), where raw `map[string]any` / `map[any]any`
nodes are still distinguishable from the canonical `Mapping` type.
-/

namespace Dig

abbrev Addr := Nat

/-- A Go `any` value stored in a map cell or slice cell. -/
inductive Value where
  | vnull
  | vstr (s : String)
  | vint (n : Int)
  | vbool (b : Bool)
  /-- a `Mapping` value: reference to a map container -/
  | vmap (a : Addr)
  /-- an `[]any` value: reference to a slice container -/
  | vseq (a : Addr)
  /-- a `*Mapping` value: a pointer, `reflect.Kind` `Ptr` -/
  | vptr (a : Addr)
deriving DecidableEq, Repr

/-- The contents of one mutable container. -/
inductive Node where
  | map (es : List (String × Value))
  | seq (vs : List Value)
deriving DecidableEq, Repr

abbrev Heap := List (Addr × Node)

def lookupH : Heap → Addr → Option Node
  | [], _ => none
  | (b, n) :: t, a => if b = a then some n else lookupH t a

/-- In-place mutation of the container at `a`. -/
def updateH (h : Heap) (a : Addr) (n : Node) : Heap :=
  h.map fun p => if p.1 = a then (a, n) else p

def heapMax : Heap → Nat
  | [] => 0
  | (b, _) :: t => max b (heapMax t)

/-- An address strictly larger than every address in the heap. -/
def freshAddr (h : Heap) : Addr := heapMax h + 1

/-- Allocate a new container, returning the extended heap and its address. -/
def allocH (h : Heap) (n : Node) : Heap × Addr :=
  (((freshAddr h), n) :: h, freshAddr h)

/-- First-match association-list lookup: Go `m[k]` with `ok`. -/
def assocFind : List (String × Value) → String → Option Value
  | [], _ => none
  | (k', v) :: t, k => if k' = k then some v else assocFind t k

/-- Go `m[k] = v`: replace the entry in place, or append a new one. -/
def assocSet (es : List (String × Value)) (k : String) (v : Value) :
    List (String × Value) :=
  if (assocFind es k).isSome then
    es.map fun p => if p.1 = k then (k, v) else p
  else
    es ++ [(k, v)]

/-- The value of key `k` of the map container at address `a`. -/
def entryAt (h : Heap) (a : Addr) (k : String) : Option Value :=
  match lookupH h a with
  | some (.map es) => assocFind es k
  | _ => none

/-- `mapping[k] = v` performed through a reference `a` to a map container. -/
def setKey (h : Heap) (a : Addr) (k : String) (v : Value) : Heap :=
  match lookupH h a with
  | some (.map es) => updateH h a (.map (assocSet es k v))
  | _ => h

/-! ## The Go functions, heap level

Each function takes the address of the receiver `Mapping`'s container. -/

/-- `HasKey`: `_, ok := (*m)[key]`. -/
def hasKeyH (h : Heap) (a : Addr) (k : String) : Bool :=
  (entryAt h a k).isSome

/-- `HasMapping`: key exists and its value is a `Mapping`. -/
def hasMappingH (h : Heap) (a : Addr) (k : String) : Bool :=
  match entryAt h a k with
  | some (.vmap _) => true
  | _ => false

/-- `Dig`: read a value from a deeply nested tree structure.  Go returns
`nil` for an empty path, a missing key, and for traversal blocked by a
non-`Mapping` value; all three surface as `.vnull`. -/
def dig (h : Heap) (a : Addr) : List String → Value
  | [] => .vnull
  | k :: rest =>
    match entryAt h a k with
    | none => .vnull
    | some (.vmap b) => if rest = [] then .vmap b else dig h b rest
    | some v => if rest = [] then v else .vnull

/-- `DigMapping`: walk the path, creating or destructively overwriting
non-`Mapping` branches with fresh empty `Mapping`s.  Go indexes `keys[0]`
unconditionally, so an empty path panics: modelled as `none`.  A dangling
receiver address cannot arise from the Go API and is also mapped to
`none`. -/
def digMapping (h : Heap) (a : Addr) : List String → Option (Heap × Addr)
  | [] => none
  | k :: rest =>
    match lookupH h a with
    | some (.map es) =>
      match assocFind es k with
      | some (.vmap b) =>
        if rest = [] then some (h, b) else digMapping h b rest
      | _ =>
        -- n := Mapping{}; (*m)[k] = n
        let n := freshAddr h
        let h₂ := updateH ((n, Node.map []) :: h) a (.map (assocSet es k (.vmap n)))
        if rest = [] then some (h₂, n) else digMapping h₂ n rest
    | _ => none

/-! ### deepCopy, Dup and the normalizer pass they invoke

`deepCopy` switches on the `reflect.Kind` of the value: `Map` (here only
the named `Mapping` type occurs among modelled values), `Slice` (here only
`[]any`), and everything else — including pointers — is returned as-is.

After copying a slice, Go runs `cleanUpInterfaceArray` over the fresh
`[]any` (the `.([]any)` assertion succeeds), which rebuilds the slice and
re-normalizes each element.  After copying a map of the named type
`Mapping`, the `.(map[string]any)` assertion fails (a defined type is not
identical to its underlying type), so no normalization runs there.

On the values modelled here `cleanUpValue` only acts on `[]any` values
(rebuilding the slice): the `map[string]any` and `map[any]any` cases of
its type switch never match a `Mapping`, and raw decoder maps never occur
inside a `Mapping` (they are normalized away before construction; see the
`GoVal` level below).

Every recursive call decreases the fuel. -/

mutual

def deepCopy : Nat → Heap → Value → Option (Heap × Value)
  | 0, _, _ => none
  | _ + 1, h, .vnull => some (h, .vnull)
  | f + 1, h, .vmap a =>
    match lookupH h a with
    | some (.map es) =>
      match copyEntries f h es with
      | some (h₁, es') =>
        -- newMap is a Mapping; the map[string]any assertion fails, no cleanup
        some ((allocH h₁ (.map es')).1, .vmap (allocH h₁ (.map es')).2)
      | none => none
    | _ => none
  | f + 1, h, .vseq a =>
    match lookupH h a with
    | some (.seq vs) =>
      match copyElems f h vs with
      | some (h₁, vs') =>
        -- the []any assertion succeeds: return cleanUpInterfaceArray(newSlice)
        match cleanUpArrH f h₁ vs' with
        | some (h₂, vs'') => some ((allocH h₂ (.seq vs'')).1, .vseq (allocH h₂ (.seq vs'')).2)
        | none => none
      | none => none
    | _ => none
  | _ + 1, h, v => some (h, v)

def copyEntries : Nat → Heap → List (String × Value) →
    Option (Heap × List (String × Value))
  | 0, _, _ => none
  | _ + 1, h, [] => some (h, [])
  | f + 1, h, (k, v) :: es =>
    match deepCopy f h v with
    | some (h₁, v') =>
      match copyEntries f h₁ es with
      | some (h₂, es') => some (h₂, (k, v') :: es')
      | none => none
    | none => none

def copyElems : Nat → Heap → List Value → Option (Heap × List Value)
  | 0, _, _ => none
  | _ + 1, h, [] => some (h, [])
  | f + 1, h, v :: vs =>
    match deepCopy f h v with
    | some (h₁, v') =>
      match copyElems f h₁ vs with
      | some (h₂, vs') => some (h₂, v' :: vs')
      | none => none
    | none => none

/-- `cleanUpValue` restricted to the values that can occur inside a
`Mapping`: only the `[]any` case of the type switch can match. -/
def cleanUpValueH : Nat → Heap → Value → Option (Heap × Value)
  | 0, _, _ => none
  | f + 1, h, .vseq a =>
    match lookupH h a with
    | some (.seq vs) =>
      match cleanUpArrH f h vs with
      | some (h₁, vs') => some ((allocH h₁ (.seq vs')).1, .vseq (allocH h₁ (.seq vs')).2)
      | none => none
    | _ => none
  | _ + 1, h, v => some (h, v)

/-- `cleanUpInterfaceArray`: a fresh slice of cleaned-up elements. -/
def cleanUpArrH : Nat → Heap → List Value → Option (Heap × List Value)
  | 0, _, _ => none
  | _ + 1, h, [] => some (h, [])
  | f + 1, h, v :: vs =>
    match cleanUpValueH f h v with
    | some (h₁, v') =>
      match cleanUpArrH f h₁ vs with
      | some (h₂, vs') => some (h₂, v' :: vs')
      | none => none
    | none => none

end

/-- `Dup`: a fresh `Mapping` whose entries are `deepCopy`s of the
receiver's entries. -/
def dupRoot (f : Nat) (h : Heap) (a : Addr) : Option (Heap × Addr) :=
  match lookupH h a with
  | some (.map es) =>
    match copyEntries f h es with
    | some (h₁, es') => some ((allocH h₁ (.map es')).1, (allocH h₁ (.map es')).2)
    | none => none
  | _ => none

/-! ### Merge

`Merge` folds the source map into the target in place.  The option
closures are already resolved to the two booleans they set.  In the
`Mapping` branch, when the target already holds a `Mapping` at `k`,
`m.DigMapping(k)` is exactly that existing mapping (single existing key,
no mutation), so the recursive call targets its address directly. -/

mutual

def mergeH : Nat → Heap → Addr → Addr → Bool → Bool → Option Heap
  | 0, _, _, _, _, _ => none
  | f + 1, h, tA, sA, ow, ni =>
    match lookupH h sA with
    | some (.map ses) => mergeEntries f h tA ses ow ni
    | _ => none

def mergeEntries : Nat → Heap → Addr → List (String × Value) → Bool → Bool →
    Option Heap
  | 0, _, _, _, _, _ => none
  | _ + 1, h, _, [], _, _ => some h
  | f + 1, h, tA, (k, v) :: rest, ow, ni =>
    match v with
    | .vmap aSrc =>
      match entryAt h tA k with
      | none =>
        -- !m.HasKey(k): m[k] = v.Dup()
        match dupRoot f h aSrc with
        | some (h₁, b) => mergeEntries f (setKey h₁ tA k (.vmap b)) tA rest ow ni
        | none => none
      | some (.vmap aDst) =>
        -- m.HasMapping(k): m.DigMapping(k).Merge(v, opts...)
        match mergeH f h aDst aSrc ow ni with
        | some h₁ => mergeEntries f h₁ tA rest ow ni
        | none => none
      | some _ =>
        -- key held, not a Mapping: overwritten only with the option set
        if ow then
          match dupRoot f h aSrc with
          | some (h₁, b) => mergeEntries f (setKey h₁ tA k (.vmap b)) tA rest ow ni
          | none => none
        else mergeEntries f h tA rest ow ni
    | .vnull =>
      mergeEntries f (if ni then setKey h tA k .vnull else h) tA rest ow ni
    | v =>
      if !hasKeyH h tA k || ow then
        match deepCopy f h v with
        | some (h₁, v') => mergeEntries f (setKey h₁ tA k v') tA rest ow ni
        | none => none
      else mergeEntries f h tA rest ow ni

end

/-! ## Observation: reading a heap value as a pure tree

`readV` dereferences a value to the pure tree it spells.  It is fueled
(the heap may in principle be cyclic) and is undefined on `vptr` values:
a successful read certifies that the value lies inside the canonical data
model of the spec (nested `Mapping`s, sequences, scalars, null).  Two
sides reading the same `Tree` is the embedding's notion of structural
equality. -/

inductive Tree where
  | tnull
  | tstr (s : String)
  | tint (n : Int)
  | tbool (b : Bool)
  | tmap (es : List (String × Tree))
  | tseq (ts : List Tree)

mutual

def readV : Nat → Heap → Value → Option Tree
  | 0, _, _ => none
  | _ + 1, _, .vnull => some .tnull
  | _ + 1, _, .vstr s => some (.tstr s)
  | _ + 1, _, .vint n => some (.tint n)
  | _ + 1, _, .vbool b => some (.tbool b)
  | f + 1, h, .vmap a =>
    match lookupH h a with
    | some (.map es) => (readEntries f h es).map .tmap
    | _ => none
  | f + 1, h, .vseq a =>
    match lookupH h a with
    | some (.seq vs) => (readElems f h vs).map .tseq
    | _ => none
  | _ + 1, _, .vptr _ => none

def readEntries : Nat → Heap → List (String × Value) →
    Option (List (String × Tree))
  | 0, _, _ => none
  | _ + 1, _, [] => some []
  | f + 1, h, (k, v) :: es =>
    match readV f h v with
    | some t =>
      match readEntries f h es with
      | some ts => some ((k, t) :: ts)
      | none => none
    | none => none

def readElems : Nat → Heap → List Value → Option (List Tree)
  | 0, _, _ => none
  | _ + 1, _, [] => some []
  | f + 1, h, v :: vs =>
    match readV f h v with
    | some t =>
      match readElems f h vs with
      | some ts => some (t :: ts)
      | none => none
    | none => none

end

/-- Read the `Mapping` whose container is at `a`. -/
def readN (f : Nat) (h : Heap) (a : Addr) : Option Tree :=
  readV f h (.vmap a)

/-! ## Reachability between containers -/

/-- The container, if any, that a value refers to.  A `*Mapping` pointer
also keeps its pointee reachable. -/
def valAddr : Value → Option Addr
  | .vmap a => some a
  | .vseq a => some a
  | .vptr a => some a
  | _ => none

def nodeValues : Node → List Value
  | .map es => es.map Prod.snd
  | .seq vs => vs

/-- One dereference step between containers. -/
def EdgeH (h : Heap) (a b : Addr) : Prop :=
  ∃ nd, lookupH h a = some nd ∧ ∃ v ∈ nodeValues nd, valAddr v = some b

/-- `b` is a container reachable from the container `a`. -/
def ReachH (h : Heap) : Addr → Addr → Prop :=
  Relation.ReflTransGen (EdgeH h)

/-- One step along a `Mapping`-valued map entry: the only links `Merge`
ever follows when choosing a recursion target. -/
def MEdgeH (h : Heap) (a b : Addr) : Prop :=
  ∃ es k, lookupH h a = some (.map es) ∧ assocFind es k = some (.vmap b)

def MReachH (h : Heap) : Addr → Addr → Prop :=
  Relation.ReflTransGen (MEdgeH h)

/-! ## The normalizer, value level

The normalizer runs on freshly decoded generic values, before any
`Mapping` exists, so it is modelled on pure trees.  `GoVal` distinguishes
the canonical `Mapping` type from the raw decoder map types
`map[string]any` and `map[any]any` — a type switch in Go distinguishes
them (a defined type is not matched by its underlying type's case).
Non-string keys of `map[any]any` are scalar in decoded YAML; `rawKeyStr`
models `fmt.Sprintf("%v", k)` on them. -/

inductive RawKey where
  | ks (s : String)
  | ki (n : Int)
  | kb (b : Bool)
deriving DecidableEq, Repr

/-- `fmt.Sprintf("%v", k)` for a scalar key. -/
def rawKeyStr : RawKey → String
  | .ks s => s
  | .ki n => toString n
  | .kb b => if b then "true" else "false"

/-- A decoded generic Go value, before or after normalization. -/
inductive GoVal where
  | gnull
  | gstr (s : String)
  | gint (n : Int)
  | gbool (b : Bool)
  /-- the canonical `Mapping` type -/
  | gmapping (es : List (String × GoVal))
  /-- a raw `map[string]any` -/
  | grawS (es : List (String × GoVal))
  /-- a raw `map[any]any` -/
  | grawA (es : List (RawKey × GoVal))
  /-- an `[]any` sequence -/
  | garr (vs : List GoVal)

/-- `stringifyKeys`: render each key with `%v`, keeping the values. -/
def stringifyKeys (es : List (RawKey × GoVal)) : List (String × GoVal) :=
  es.map fun p => (rawKeyStr p.1, p.2)

mutual

/-- `cleanUpValue`: recurse into `[]any`, `map[string]any` and
`map[any]any`; everything else (scalars, `nil`, and values already of the
named `Mapping` type) passes through the `default` case unchanged.  The
`map[any]any` case is `cleanUpInterfaceMap(stringifyKeys(v))` in Go; here
the key rendering is fused into the entry loop for structural recursion —
`cleanUpEntriesA_eq` below recovers the source's composition verbatim. -/
def cleanUpValue : GoVal → GoVal
  | .garr vs => .garr (cleanUpInterfaceArray vs)
  | .grawS es => .gmapping (cleanUpEntries es)
  | .grawA es => .gmapping (cleanUpEntriesA es)
  | v => v

/-- `cleanUpInterfaceArray`: a fresh slice of cleaned-up values. -/
def cleanUpInterfaceArray : List GoVal → List GoVal
  | [] => []
  | v :: vs => cleanUpValue v :: cleanUpInterfaceArray vs

/-- the entry loop of `cleanUpInterfaceMap` -/
def cleanUpEntries : List (String × GoVal) → List (String × GoVal)
  | [] => []
  | (k, v) :: es => (k, cleanUpValue v) :: cleanUpEntries es

/-- the entry loop of `cleanUpInterfaceMap` applied after `stringifyKeys` -/
def cleanUpEntriesA : List (RawKey × GoVal) → List (String × GoVal)
  | [] => []
  | (k, v) :: es => (rawKeyStr k, cleanUpValue v) :: cleanUpEntriesA es

end

/-- `cleanUpInterfaceMap`: a `Mapping` with cleaned-up values. -/
def cleanUpInterfaceMap (es : List (String × GoVal)) : GoVal :=
  .gmapping (cleanUpEntries es)

/-- `UnmarshalJSON` after a successful `json.Unmarshal` into
`map[string]any`: `*m = cleanUpInterfaceMap(result)`. -/
def unmarshalJSON (decoded : List (String × GoVal)) : GoVal :=
  cleanUpInterfaceMap decoded

mutual

/-- Every map-shaped value reachable from `v` is of the canonical
`Mapping` type: no raw decoder map survives at any depth. -/
def canonicalV : GoVal → Bool
  | .grawS _ => false
  | .grawA _ => false
  | .gmapping es => canonicalEntries es
  | .garr vs => canonicalList vs
  | _ => true

def canonicalEntries : List (String × GoVal) → Bool
  | [] => true
  | (_, v) :: es => canonicalV v && canonicalEntries es

def canonicalList : List GoVal → Bool
  | [] => true
  | v :: vs => canonicalV v && canonicalList vs

end

mutual

/-- `v` is in the image of a decoder: it contains no value of the named
`Mapping` type (decoders produce raw maps, sequences and scalars). -/
def decoderShaped : GoVal → Bool
  | .gmapping _ => false
  | .grawS es => decoderEntries es
  | .grawA es => decoderEntriesA es
  | .garr vs => decoderList vs
  | _ => true

def decoderEntries : List (String × GoVal) → Bool
  | [] => true
  | (_, v) :: es => decoderShaped v && decoderEntries es

def decoderEntriesA : List (RawKey × GoVal) → Bool
  | [] => true
  | (_, v) :: es => decoderShaped v && decoderEntriesA es

def decoderList : List GoVal → Bool
  | [] => true
  | v :: vs => decoderShaped v && decoderList vs

end

/-- first-match association lookup on `GoVal` entries -/
def assocFindG : List (String × GoVal) → String → Option GoVal
  | [], _ => none
  | (k', v) :: t, k => if k' = k then some v else assocFindG t k

/-- `Dig` on pure values: the same traversal as the heap-level `dig`,
usable on normalizer output (which is a pure value, not yet aliased). -/
def digG (m : GoVal) : List String → GoVal
  | [] => .gnull
  | k :: rest =>
    match m with
    | .gmapping es =>
      match assocFindG es k with
      | none => .gnull
      | some (.gmapping es') =>
        if rest = [] then .gmapping es' else digG (.gmapping es') rest
      | some v => if rest = [] then v else .gnull
    | _ => .gnull

/-- A value-rooted reachability notion: some container `b` is reachable
from the value `v` (through `Mapping` references, slice references and
pointers alike). -/
def ReachVH (h : Heap) (v : Value) (b : Addr) : Prop :=
  ∃ r, valAddr v = some r ∧ ReachH h r b

/-- reachability from any value of an entry list -/
def ReachEs (h : Heap) (es : List (String × Value)) (b : Addr) : Prop :=
  ∃ p ∈ es, ReachVH h p.2 b

/-- reachability from any value of a list -/
def ReachVs (h : Heap) (vs : List Value) (b : Addr) : Prop :=
  ∃ w ∈ vs, ReachVH h w b

/-- The container at `a` spells a tree with fuel `f` (as the root of a
`Mapping` or of a slice). -/
def ReadsAddr (f : Nat) (h : Heap) (a : Addr) : Prop :=
  (∃ t, readV f h (.vmap a) = some t) ∨ (∃ t, readV f h (.vseq a) = some t)

/-- a scalar in the sense of the spec: string, integer or boolean -/
def isScalar : Value → Bool
  | .vstr _ => true
  | .vint _ => true
  | .vbool _ => true
  | _ => false

/-- Every `Mapping`-valued entry of `h` is either an original entry of
`h₀` or points at a container allocated at or above `h₀`'s frontier.
This is the invariant that lets `Merge`'s recursion targets be traced
back to the original target tree. -/
def VmapExt (h₀ h : Heap) : Prop :=
  (∀ x k b, entryAt h x k = some (.vmap b) →
    entryAt h₀ x k = some (.vmap b) ∨ freshAddr h₀ ≤ b) ∧
  freshAddr h₀ ≤ freshAddr h

/-- The frame of a copying operation: containers below the old frontier
are untouched, and every `Mapping`-valued entry of a container at or
above the old frontier points at or above the old frontier. -/
def CopyFrame (h h₁ : Heap) : Prop :=
  (∀ x, x < freshAddr h → lookupH h₁ x = lookupH h x) ∧
  (∀ x k b, freshAddr h ≤ x → entryAt h₁ x k = some (.vmap b) →
    freshAddr h ≤ b) ∧
  freshAddr h ≤ freshAddr h₁

/-- All containers at or above the frontier `F` refer only to containers
at or above `F`. -/
def RegionClosed (F : Nat) (h : Heap) : Prop :=
  ∀ x nd, F ≤ x → lookupH h x = some nd →
    ∀ w ∈ nodeValues nd, ∀ b, valAddr w = some b → F ≤ b

/-- `h₁` extends `h`: every container of `h` is still there unchanged and
no address below the old allocation frontier has been invented. -/
def HExt (h h₁ : Heap) : Prop :=
  freshAddr h ≤ freshAddr h₁ ∧ ∀ x n, lookupH h x = some n → lookupH h₁ x = some n

/-- Every key of every container of `h` is still a key in `h'`. -/
def EntryGrow (h h' : Heap) : Prop :=
  ∀ x k, (entryAt h x k).isSome → (entryAt h' x k).isSome

/-- The decoded form of the JSON document `{"foo": [{"bar": "baz"}]}`:
`json.Unmarshal` produces a `map[string]any` whose `"foo"` entry is an
`[]any` holding a raw `map[string]any`. -/
def jsonFooEntries : List (String × GoVal) :=
  [("foo", .garr [.grawS [("bar", .gstr "baz")]])]

/-! # Lemmas -/

theorem cleanUpEntriesA_eq (es : List (RawKey × GoVal)) :
    cleanUpEntriesA es = cleanUpEntries (stringifyKeys es) := by
  induction es with
  | nil => rfl
  | cons p es ih =>
    cases p
    simp [cleanUpEntriesA, stringifyKeys, cleanUpEntries, ih]

/-! ## Association lists -/

theorem assocReplace_cons (k₁ : String) (v₁ : Value) (t : List (String × Value))
    (k : String) (v : Value) :
    (((k₁, v₁) :: t).map fun p => if p.1 = k then (k, v) else p)
      = (if k₁ = k then (k, v) else (k₁, v₁))
        :: (t.map fun p => if p.1 = k then (k, v) else p) := by
  by_cases hk : k₁ = k <;> simp [hk]

theorem assocFind_replace_self {es : List (String × Value)} {k : String}
    (hs : (assocFind es k).isSome) (v : Value) :
    assocFind (es.map fun p => if p.1 = k then (k, v) else p) k = some v := by
  induction es with
  | nil => simp [assocFind] at hs
  | cons p t ih =>
    obtain ⟨k₁, v₁⟩ := p
    rw [assocReplace_cons]
    by_cases hk : k₁ = k
    · subst hk
      rw [if_pos rfl]
      simp [assocFind]
    · rw [if_neg hk]
      simp only [assocFind, hk, if_false] at hs ⊢
      exact ih hs

theorem assocFind_replace_other (es : List (String × Value)) {k k' : String}
    (hk : k' ≠ k) (v : Value) :
    assocFind (es.map fun p => if p.1 = k then (k, v) else p) k' = assocFind es k' := by
  induction es with
  | nil => rfl
  | cons p t ih =>
    obtain ⟨k₁, v₁⟩ := p
    rw [assocReplace_cons]
    by_cases h1 : k₁ = k
    · subst h1
      rw [if_pos rfl]
      simp only [assocFind, if_neg (fun h : k₁ = k' => hk h.symm)]
      exact ih
    · rw [if_neg h1]
      by_cases h2 : k₁ = k'
      · simp [assocFind, h2]
      · simp only [assocFind, h2, if_false]
        exact ih

theorem assocFind_append_self {es : List (String × Value)} {k : String}
    (hn : assocFind es k = none) (v : Value) :
    assocFind (es ++ [(k, v)]) k = some v := by
  induction es with
  | nil => simp [assocFind]
  | cons p t ih =>
    obtain ⟨k₁, v₁⟩ := p
    by_cases hk : k₁ = k
    · simp [assocFind, hk] at hn
    · simp only [assocFind, hk, if_false] at hn
      simpa [assocFind, hk] using ih hn

theorem assocFind_append_other (es : List (String × Value)) {k k' : String}
    (hk : k' ≠ k) (v : Value) :
    assocFind (es ++ [(k, v)]) k' = assocFind es k' := by
  induction es with
  | nil =>
    simp only [List.nil_append, assocFind]
    rw [if_neg (fun h : k = k' => hk h.symm)]
  | cons p t ih =>
    obtain ⟨k₁, v₁⟩ := p
    by_cases h2 : k₁ = k'
    · simp [assocFind, h2]
    · simpa [assocFind, h2] using ih

theorem assocFind_set_self (es : List (String × Value)) (k : String) (v : Value) :
    assocFind (assocSet es k v) k = some v := by
  unfold assocSet
  rcases hs : assocFind es k with _ | w
  · simpa [hs] using assocFind_append_self hs v
  · simpa [hs] using assocFind_replace_self (by simp [hs]) v

theorem assocFind_set_other (es : List (String × Value)) {k k' : String}
    (hk : k' ≠ k) (v : Value) :
    assocFind (assocSet es k v) k' = assocFind es k' := by
  unfold assocSet
  by_cases hs : (assocFind es k).isSome
  · simpa [hs] using assocFind_replace_other es hk v
  · simpa [hs] using assocFind_append_other es hk v

/-! ## Heap basics -/

theorem lookupH_le_heapMax {h : Heap} {a : Addr} {n : Node}
    (hl : lookupH h a = some n) : a ≤ heapMax h := by
  induction h with
  | nil => simp [lookupH] at hl
  | cons p t ih =>
    obtain ⟨b, m⟩ := p
    simp only [lookupH] at hl
    by_cases hb : b = a
    · subst hb; simp [heapMax]
    · simp [hb] at hl
      exact le_trans (ih hl) (by simp [heapMax])

theorem lookupH_lt_fresh {h : Heap} {a : Addr} {n : Node}
    (hl : lookupH h a = some n) : a < freshAddr h :=
  Nat.lt_succ_of_le (lookupH_le_heapMax hl)

theorem lookupH_cons (h : Heap) (b : Addr) (nd : Node) (x : Addr) :
    lookupH ((b, nd) :: h) x = if b = x then some nd else lookupH h x := rfl

theorem lookupH_alloc_old {h : Heap} {x : Addr} {n : Node} (nd : Node)
    (hl : lookupH h x = some n) :
    lookupH ((freshAddr h, nd) :: h) x = some n := by
  have hx := lookupH_lt_fresh hl
  simp [lookupH_cons, Nat.ne_of_gt hx, hl]

theorem heapMax_cons (b : Addr) (nd : Node) (h : Heap) :
    heapMax ((b, nd) :: h) = max b (heapMax h) := rfl

theorem freshAddr_alloc_mono (h : Heap) (nd : Node) :
    freshAddr h ≤ freshAddr ((freshAddr h, nd) :: h) :=
  le_trans (le_max_left _ (heapMax h)) (Nat.le_succ _)

theorem updateH_cons (b : Addr) (m : Node) (t : Heap) (a : Addr) (n : Node) :
    updateH ((b, m) :: t) a n
      = (if b = a then (a, n) else (b, m)) :: updateH t a n := by
  by_cases hb : b = a <;> simp [updateH, hb]

theorem heapMax_updateH (h : Heap) (a : Addr) (n : Node) :
    heapMax (updateH h a n) = heapMax h := by
  induction h with
  | nil => rfl
  | cons p t ih =>
    obtain ⟨b, m⟩ := p
    rw [updateH_cons]
    by_cases hb : b = a
    · subst hb; simp [heapMax_cons, ih]
    · simp [hb, heapMax_cons, ih]

theorem freshAddr_updateH (h : Heap) (a : Addr) (n : Node) :
    freshAddr (updateH h a n) = freshAddr h := by
  simp [freshAddr, heapMax_updateH]

theorem lookupH_updateH_self {h : Heap} {a : Addr} {m : Node} (n : Node)
    (hl : lookupH h a = some m) :
    lookupH (updateH h a n) a = some n := by
  induction h with
  | nil => simp [lookupH] at hl
  | cons p t ih =>
    obtain ⟨b, m'⟩ := p
    rw [updateH_cons]
    by_cases hb : b = a
    · subst hb; simp [lookupH_cons]
    · rw [if_neg hb, lookupH_cons, if_neg hb]
      rw [lookupH_cons, if_neg hb] at hl
      exact ih hl

theorem lookupH_updateH_other (h : Heap) {x a : Addr} (n : Node)
    (hx : x ≠ a) : lookupH (updateH h a n) x = lookupH h x := by
  induction h with
  | nil => rfl
  | cons p t ih =>
    obtain ⟨b, m⟩ := p
    rw [updateH_cons]
    by_cases hb : b = a
    · subst hb
      rw [if_pos rfl, lookupH_cons, lookupH_cons, if_neg (fun hbx => hx hbx.symm),
        if_neg (fun hbx => hx hbx.symm)]
      exact ih
    · rw [if_neg hb, lookupH_cons, lookupH_cons]
      by_cases hbx : b = x
      · simp [hbx]
      · simp only [if_neg hbx]
        exact ih

/-! ## Heap extension -/

theorem HExt.hext_rfl (h : Heap) : HExt h h := ⟨le_refl _, fun _ _ hl => hl⟩

theorem HExt.hext_trans {h₁ h₂ h₃ : Heap} (a : HExt h₁ h₂) (b : HExt h₂ h₃) :
    HExt h₁ h₃ :=
  ⟨le_trans a.1 b.1, fun x n hl => b.2 x n (a.2 x n hl)⟩

theorem HExt.alloc (h : Heap) (nd : Node) :
    HExt h ((freshAddr h, nd) :: h) :=
  ⟨freshAddr_alloc_mono h nd, fun _ _ hl => lookupH_alloc_old nd hl⟩

theorem HExt.entry {h h₁ : Heap} (e : HExt h h₁) {a : Addr} {k : String}
    {v : Value} (hl : entryAt h a k = some v) : entryAt h₁ a k = some v := by
  unfold entryAt at hl ⊢
  rcases hn : lookupH h a with _ | nd
  · simp [hn] at hl
  · cases nd with
    | map es => rw [e.2 a _ hn]; simpa [hn] using hl
    | seq vs => simp [hn] at hl

/-- `deepCopy` and the functions it invokes only allocate: the old heap is
untouched. -/
theorem copy_ext : ∀ f : Nat,
    (∀ h v r, deepCopy f h v = some r → HExt h r.1) ∧
    (∀ h es r, copyEntries f h es = some r → HExt h r.1) ∧
    (∀ h vs r, copyElems f h vs = some r → HExt h r.1) ∧
    (∀ h v r, cleanUpValueH f h v = some r → HExt h r.1) ∧
    (∀ h vs r, cleanUpArrH f h vs = some r → HExt h r.1) := by
  intro f
  induction f with
  | zero =>
    refine ⟨?_, ?_, ?_, ?_, ?_⟩ <;> intro h x r hr <;> simp [deepCopy,
      copyEntries, copyElems, cleanUpValueH, cleanUpArrH] at hr
  | succ f ih =>
    obtain ⟨ihV, ihE, ihL, ihC, ihA⟩ := ih
    refine ⟨?_, ?_, ?_, ?_, ?_⟩
    · intro h v r hr
      match v with
      | .vnull | .vstr _ | .vint _ | .vbool _ | .vptr _ =>
        simp [deepCopy] at hr
        simp [← hr, HExt.hext_rfl]
      | .vmap a =>
        simp only [deepCopy] at hr
        rcases hn : lookupH h a with _ | nd
        · simp [hn] at hr
        · cases nd with
          | seq vs => simp [hn] at hr
          | map es =>
            simp only [hn] at hr
            rcases hc : copyEntries f h es with _ | ⟨h₁, es'⟩
            · simp [hc] at hr
            · simp [hc] at hr
              exact (ihE h es _ hc).hext_trans (by
                rw [← hr]
                exact HExt.alloc h₁ (.map es'))
      | .vseq a =>
        simp only [deepCopy] at hr
        rcases hn : lookupH h a with _ | nd
        · simp [hn] at hr
        · cases nd with
          | map es => simp [hn] at hr
          | seq vs =>
            simp only [hn] at hr
            rcases hc : copyElems f h vs with _ | ⟨h₁, vs'⟩
            · simp [hc] at hr
            · rcases ha : cleanUpArrH f h₁ vs' with _ | ⟨h₂, vs''⟩
              · simp [hc, ha] at hr
              · simp [hc, ha] at hr
                exact ((ihL h vs _ hc).hext_trans (ihA h₁ vs' _ ha)).hext_trans (by
                  rw [← hr]
                  exact HExt.alloc h₂ (.seq vs''))
    · intro h es r hr
      match es with
      | [] =>
        simp [copyEntries] at hr
        simp [← hr, HExt.hext_rfl]
      | (k, v) :: es =>
        simp only [copyEntries] at hr
        rcases hv : deepCopy f h v with _ | ⟨h₁, v'⟩
        · simp [hv] at hr
        · rcases he : copyEntries f h₁ es with _ | ⟨h₂, es'⟩
          · simp [hv, he] at hr
          · simp [hv, he] at hr
            exact (ihV h v _ hv).hext_trans (by rw [← hr]; exact ihE h₁ es (h₂, es') he)
    · intro h vs r hr
      match vs with
      | [] =>
        simp [copyElems] at hr
        simp [← hr, HExt.hext_rfl]
      | v :: vs =>
        simp only [copyElems] at hr
        rcases hv : deepCopy f h v with _ | ⟨h₁, v'⟩
        · simp [hv] at hr
        · rcases he : copyElems f h₁ vs with _ | ⟨h₂, vs'⟩
          · simp [hv, he] at hr
          · simp [hv, he] at hr
            exact (ihV h v _ hv).hext_trans (by rw [← hr]; exact ihL h₁ vs (h₂, vs') he)
    · intro h v r hr
      match v with
      | .vnull | .vstr _ | .vint _ | .vbool _ | .vptr _ | .vmap _ =>
        simp [cleanUpValueH] at hr
        simp [← hr, HExt.hext_rfl]
      | .vseq a =>
        simp only [cleanUpValueH] at hr
        rcases hn : lookupH h a with _ | nd
        · simp [hn] at hr
        · cases nd with
          | map es => simp [hn] at hr
          | seq vs =>
            simp only [hn] at hr
            rcases hc : cleanUpArrH f h vs with _ | ⟨h₁, vs'⟩
            · simp [hc] at hr
            · simp [hc] at hr
              exact (ihA h vs _ hc).hext_trans (by
                rw [← hr]
                exact HExt.alloc h₁ (.seq vs'))
    · intro h vs r hr
      match vs with
      | [] =>
        simp [cleanUpArrH] at hr
        simp [← hr, HExt.hext_rfl]
      | v :: vs =>
        simp only [cleanUpArrH] at hr
        rcases hv : cleanUpValueH f h v with _ | ⟨h₁, v'⟩
        · simp [hv] at hr
        · rcases he : cleanUpArrH f h₁ vs with _ | ⟨h₂, vs'⟩
          · simp [hv, he] at hr
          · simp [hv, he] at hr
            exact (ihC h v _ hv).hext_trans (by rw [← hr]; exact ihA h₁ vs (h₂, vs') he)

theorem deepCopy_ext {f : Nat} {h : Heap} {v : Value} {h₁ : Heap} {v' : Value}
    (hc : deepCopy f h v = some (h₁, v')) : HExt h h₁ :=
  (copy_ext f).1 h v _ hc

theorem copyEntries_ext {f : Nat} {h : Heap} {es : List (String × Value)}
    {h₁ : Heap} {es' : List (String × Value)}
    (hc : copyEntries f h es = some (h₁, es')) : HExt h h₁ :=
  (copy_ext f).2.1 h es _ hc

theorem dupRoot_ext {f : Nat} {h : Heap} {a : Addr} {h₁ : Heap} {a' : Addr}
    (hd : dupRoot f h a = some (h₁, a')) : HExt h h₁ := by
  unfold dupRoot at hd
  rcases hn : lookupH h a with _ | nd
  · simp [hn] at hd
  · cases nd with
    | seq vs => simp [hn] at hd
    | map es =>
      simp only [hn] at hd
      rcases hc : copyEntries f h es with _ | ⟨h₂, es'⟩
      · simp [hc] at hd
      · simp only [hc, allocH, Option.some.injEq, Prod.mk.injEq] at hd
        obtain ⟨h1, _⟩ := hd
        exact (copyEntries_ext hc).hext_trans (h1 ▸ HExt.alloc h₂ (.map es'))

/-! ## setKey -/

theorem freshAddr_setKey (h : Heap) (a : Addr) (k : String) (v : Value) :
    freshAddr (setKey h a k v) = freshAddr h := by
  unfold setKey
  rcases hn : lookupH h a with _ | nd
  · rfl
  · cases nd with
    | map es => exact freshAddr_updateH h a _
    | seq vs => rfl

theorem lookupH_setKey_other (h : Heap) {x a : Addr} (k : String) (v : Value)
    (hx : x ≠ a) : lookupH (setKey h a k v) x = lookupH h x := by
  unfold setKey
  rcases hn : lookupH h a with _ | nd
  · rfl
  · cases nd with
    | map es => exact lookupH_updateH_other h _ hx
    | seq vs => rfl

theorem entryAt_setKey_self {h : Heap} {a : Addr} {es : List (String × Value)}
    (hl : lookupH h a = some (.map es)) (k : String) (v : Value) :
    entryAt (setKey h a k v) a k = some v := by
  unfold setKey
  rw [hl]
  unfold entryAt
  rw [lookupH_updateH_self _ hl]
  exact assocFind_set_self es k v

theorem entryAt_setKey_other {h : Heap} {x a : Addr} {k k' : String}
    (v : Value) (hne : x ≠ a ∨ k' ≠ k) :
    entryAt (setKey h a k v) x k' = entryAt h x k' := by
  by_cases hx : x = a
  · subst hx
    rcases hne with hne | hne
    · exact absurd rfl hne
    · unfold setKey
      rcases hn : lookupH h x with _ | nd
      · rfl
      · cases nd with
        | map es =>
          unfold entryAt
          rw [lookupH_updateH_self _ hn, hn]
          exact assocFind_set_other es hne v
        | seq vs => rfl
  · unfold entryAt
    rw [lookupH_setKey_other h k v hx]

/-! ## Entry growth: no operation ever removes a key -/

theorem EntryGrow.grow_rfl (h : Heap) : EntryGrow h h := fun _ _ hs => hs

theorem EntryGrow.grow_trans {h₁ h₂ h₃ : Heap} (a : EntryGrow h₁ h₂)
    (b : EntryGrow h₂ h₃) : EntryGrow h₁ h₃ :=
  fun x k hs => b x k (a x k hs)

theorem EntryGrow.of_hext {h h' : Heap} (e : HExt h h') : EntryGrow h h' := by
  intro x k hs
  rcases hv : entryAt h x k with _ | v
  · rw [hv] at hs; exact absurd hs (by simp)
  · rw [e.entry hv]; simp

theorem EntryGrow.setKey (h : Heap) (a : Addr) (k : String) (v : Value) :
    EntryGrow h (setKey h a k v) := by
  intro x k' hs
  by_cases hx : x = a
  · subst hx
    by_cases hk : k' = k
    · subst hk
      rcases hn : lookupH h x with _ | nd
      · rw [entryAt, hn] at hs; exact absurd hs (by simp)
      · cases nd with
        | map es => rw [entryAt_setKey_self hn]; simp
        | seq vs => rw [entryAt, hn] at hs; exact absurd hs (by simp)
    · rwa [entryAt_setKey_other v (Or.inr hk)]
  · rwa [entryAt_setKey_other v (Or.inl hx)]

/-- `Merge` only ever inserts or replaces entries and allocates fresh
containers: no key of any container is ever deleted. -/
theorem merge_grow : ∀ f : Nat,
    (∀ h tA sA ow ni h', mergeH f h tA sA ow ni = some h' → EntryGrow h h') ∧
    (∀ h tA es ow ni h', mergeEntries f h tA es ow ni = some h' → EntryGrow h h') := by
  intro f
  induction f with
  | zero =>
    constructor <;> intro h tA x ow ni h' hm <;> simp [mergeH, mergeEntries] at hm
  | succ f ih =>
    obtain ⟨ihM, ihE⟩ := ih
    constructor
    · intro h tA sA ow ni h' hm
      simp only [mergeH] at hm
      rcases hn : lookupH h sA with _ | nd
      · simp [hn] at hm
      · cases nd with
        | seq vs => simp [hn] at hm
        | map ses =>
          simp only [hn] at hm
          exact ihE h tA ses ow ni h' hm
    · intro h tA es ow ni h' hm
      match es with
      | [] =>
        simp only [mergeEntries, Option.some.injEq] at hm
        exact hm ▸ EntryGrow.grow_rfl h
      | (k, v) :: rest =>
        simp only [mergeEntries] at hm
        match v with
        | .vmap aSrc =>
          rcases he : entryAt h tA k with _ | w
          · simp only [he] at hm
            rcases hd : dupRoot (f) h aSrc with _ | ⟨h₁, b⟩
            · simp [hd] at hm
            · simp only [hd] at hm
              exact ((EntryGrow.of_hext (dupRoot_ext hd)).grow_trans
                (EntryGrow.setKey h₁ tA k (.vmap b))).grow_trans
                (ihE _ tA rest ow ni h' hm)
          · match w with
            | .vmap aDst =>
              simp only [he] at hm
              rcases hr : mergeH f h aDst aSrc ow ni with _ | h₁
              · simp [hr] at hm
              · simp only [hr] at hm
                exact (ihM h aDst aSrc ow ni h₁ hr).grow_trans
                  (ihE h₁ tA rest ow ni h' hm)
            | .vnull | .vstr _ | .vint _ | .vbool _ | .vseq _ | .vptr _ =>
              simp only [he] at hm
              cases ow with
              | true =>
                rw [if_pos rfl] at hm
                rcases hd : dupRoot (f) h aSrc with _ | ⟨h₁, b⟩
                · simp [hd] at hm
                · simp only [hd] at hm
                  exact ((EntryGrow.of_hext (dupRoot_ext hd)).grow_trans
                    (EntryGrow.setKey h₁ tA k (.vmap b))).grow_trans
                    (ihE _ tA rest true ni h' hm)
              | false =>
                rw [if_neg (by simp)] at hm
                exact ihE h tA rest false ni h' hm
        | .vnull =>
          cases ni with
          | true =>
            rw [if_pos rfl] at hm
            exact (EntryGrow.setKey h tA k .vnull).grow_trans
              (ihE _ tA rest ow true h' hm)
          | false =>
            rw [if_neg (by simp)] at hm
            exact ihE h tA rest ow false h' hm
        | .vstr s =>
          by_cases hc : (!hasKeyH h tA k || ow) = true
          · simp only [hc, if_true] at hm
            rcases hd : deepCopy f h (.vstr s) with _ | ⟨h₁, v'⟩
            · simp [hd] at hm
            · simp only [hd] at hm
              exact ((EntryGrow.of_hext (deepCopy_ext hd)).grow_trans
                (EntryGrow.setKey h₁ tA k v')).grow_trans (ihE _ tA rest ow ni h' hm)
          · simp only [hc, if_false] at hm
            exact ihE h tA rest ow ni h' hm
        | .vint n =>
          by_cases hc : (!hasKeyH h tA k || ow) = true
          · simp only [hc, if_true] at hm
            rcases hd : deepCopy f h (.vint n) with _ | ⟨h₁, v'⟩
            · simp [hd] at hm
            · simp only [hd] at hm
              exact ((EntryGrow.of_hext (deepCopy_ext hd)).grow_trans
                (EntryGrow.setKey h₁ tA k v')).grow_trans (ihE _ tA rest ow ni h' hm)
          · simp only [hc, if_false] at hm
            exact ihE h tA rest ow ni h' hm
        | .vbool b =>
          by_cases hc : (!hasKeyH h tA k || ow) = true
          · simp only [hc, if_true] at hm
            rcases hd : deepCopy f h (.vbool b) with _ | ⟨h₁, v'⟩
            · simp [hd] at hm
            · simp only [hd] at hm
              exact ((EntryGrow.of_hext (deepCopy_ext hd)).grow_trans
                (EntryGrow.setKey h₁ tA k v')).grow_trans (ihE _ tA rest ow ni h' hm)
          · simp only [hc, if_false] at hm
            exact ihE h tA rest ow ni h' hm
        | .vseq a =>
          by_cases hc : (!hasKeyH h tA k || ow) = true
          · simp only [hc, if_true] at hm
            rcases hd : deepCopy f h (.vseq a) with _ | ⟨h₁, v'⟩
            · simp [hd] at hm
            · simp only [hd] at hm
              exact ((EntryGrow.of_hext (deepCopy_ext hd)).grow_trans
                (EntryGrow.setKey h₁ tA k v')).grow_trans (ihE _ tA rest ow ni h' hm)
          · simp only [hc, if_false] at hm
            exact ihE h tA rest ow ni h' hm
        | .vptr p =>
          by_cases hc : (!hasKeyH h tA k || ow) = true
          · simp only [hc, if_true] at hm
            rcases hd : deepCopy f h (.vptr p) with _ | ⟨h₁, v'⟩
            · simp [hd] at hm
            · simp only [hd] at hm
              exact ((EntryGrow.of_hext (deepCopy_ext hd)).grow_trans
                (EntryGrow.setKey h₁ tA k v')).grow_trans (ihE _ tA rest ow ni h' hm)
          · simp only [hc, if_false] at hm
            exact ihE h tA rest ow ni h' hm

/-! ## Tracking entries through a copy -/

theorem copyEntries_find_ptr {es : List (String × Value)} :
    ∀ {f : Nat} {h h₂ : Heap} {es' : List (String × Value)} {k : String} {p : Addr},
    copyEntries f h es = some (h₂, es') → assocFind es k = some (.vptr p) →
    assocFind es' k = some (.vptr p) := by
  induction es with
  | nil => intro f h h₂ es' k p _ hf; simp [assocFind] at hf
  | cons q t ih =>
    intro f h h₂ es' k p hc hf
    obtain ⟨k₁, v₁⟩ := q
    match f with
    | 0 => simp [copyEntries] at hc
    | f + 1 =>
      simp only [copyEntries] at hc
      rcases hv : deepCopy f h v₁ with _ | ⟨h₁, v₁'⟩
      · simp [hv] at hc
      · rcases he : copyEntries f h₁ t with _ | ⟨h₃, t'⟩
        · simp [hv, he] at hc
        · simp only [hv, he, Option.some.injEq, Prod.mk.injEq] at hc
          obtain ⟨rfl, rfl⟩ := hc
          by_cases hk : k₁ = k
          · subst hk
            simp only [assocFind, if_pos rfl] at hf ⊢
            obtain rfl : v₁ = .vptr p := by injection hf
            match f with
            | 0 => simp [deepCopy] at hv
            | f + 1 =>
              simp only [deepCopy, Option.some.injEq, Prod.mk.injEq] at hv
              exact congrArg some hv.2.symm
          · simp only [assocFind, hk, if_false] at hf ⊢
            exact ih he hf

theorem dig_single {h : Heap} {a : Addr} {k : String} {p : Addr}
    (he : entryAt h a k = some (.vptr p)) : dig h a [k] = .vptr p := by
  simp [dig, he]

/-! ## The normalizer produces canonical values -/

mutual

theorem cleanUp_canonical : ∀ v : GoVal,
    decoderShaped v = true → canonicalV (cleanUpValue v) = true
  | .gnull, _ => rfl
  | .gstr _, _ => rfl
  | .gint _, _ => rfl
  | .gbool _, _ => rfl
  | .gmapping _, hd => by simp [decoderShaped] at hd
  | .grawS es, hd => cleanUp_canonicalEntries es (by simpa [decoderShaped] using hd)
  | .grawA es, hd => cleanUp_canonicalEntriesA es (by simpa [decoderShaped] using hd)
  | .garr vs, hd => cleanUp_canonicalList vs (by simpa [decoderShaped] using hd)

theorem cleanUp_canonicalEntries : ∀ es : List (String × GoVal),
    decoderEntries es = true → canonicalV (cleanUpValue (.grawS es)) = true
  | [], _ => rfl
  | (k, v) :: es, hd => by
    have h1 : decoderShaped v = true ∧ decoderEntries es = true := by
      simpa [decoderEntries, Bool.and_eq_true] using hd
    have h2 := cleanUp_canonical v h1.1
    have h3 := cleanUp_canonicalEntries es h1.2
    simp only [cleanUpValue, canonicalV, cleanUpEntries, canonicalEntries,
      Bool.and_eq_true] at h3 ⊢
    exact ⟨h2, h3⟩

theorem cleanUp_canonicalEntriesA : ∀ es : List (RawKey × GoVal),
    decoderEntriesA es = true → canonicalV (cleanUpValue (.grawA es)) = true
  | [], _ => rfl
  | (k, v) :: es, hd => by
    have h1 : decoderShaped v = true ∧ decoderEntriesA es = true := by
      simpa [decoderEntriesA, Bool.and_eq_true] using hd
    have h2 := cleanUp_canonical v h1.1
    have h3 := cleanUp_canonicalEntriesA es h1.2
    simp only [cleanUpValue, canonicalV, cleanUpEntriesA, canonicalEntries,
      Bool.and_eq_true] at h3 ⊢
    exact ⟨h2, h3⟩

theorem cleanUp_canonicalList : ∀ vs : List GoVal,
    decoderList vs = true → canonicalV (cleanUpValue (.garr vs)) = true
  | [], _ => rfl
  | v :: vs, hd => by
    have h1 : decoderShaped v = true ∧ decoderList vs = true := by
      simpa [decoderList, Bool.and_eq_true] using hd
    have h2 := cleanUp_canonical v h1.1
    have h3 := cleanUp_canonicalList vs h1.2
    simp only [cleanUpValue, canonicalV, cleanUpInterfaceArray, canonicalList,
      Bool.and_eq_true] at h3 ⊢
    exact ⟨h2, h3⟩

end

/-! ## Reachability basics -/

theorem reachVH_self {v : Value} {r : Addr} (hv : valAddr v = some r) (h : Heap) :
    ReachVH h v r := ⟨r, hv, Relation.ReflTransGen.refl⟩

theorem reachVH_map_step {h : Heap} {a : Addr} {es : List (String × Value)}
    (hl : lookupH h a = some (.map es)) {b : Addr} (hr : ReachEs h es b) :
    ReachVH h (.vmap a) b := by
  obtain ⟨p, hp, r, hvr, hrb⟩ := hr
  refine ⟨a, rfl, Relation.ReflTransGen.head ⟨_, hl, p.2, ?_, hvr⟩ hrb⟩
  simp only [nodeValues]
  exact List.mem_map_of_mem Prod.snd hp

theorem reachVH_seq_step {h : Heap} {a : Addr} {vs : List Value}
    (hl : lookupH h a = some (.seq vs)) {b : Addr} (hr : ReachVs h vs b) :
    ReachVH h (.vseq a) b := by
  obtain ⟨w, hw, r, hvr, hrb⟩ := hr
  exact ⟨a, rfl, Relation.ReflTransGen.head ⟨_, hl, w, hw, hvr⟩ hrb⟩

theorem reachEs_head {h : Heap} {k : String} {w : Value}
    {es : List (String × Value)} {b : Addr} (hr : ReachVH h w b) :
    ReachEs h ((k, w) :: es) b := ⟨(k, w), List.mem_cons_self _ _, hr⟩

theorem reachEs_tail {h : Heap} {p : String × Value}
    {es : List (String × Value)} {b : Addr} (hr : ReachEs h es b) :
    ReachEs h (p :: es) b := by
  obtain ⟨q, hq, hqr⟩ := hr
  exact ⟨q, List.mem_cons_of_mem p hq, hqr⟩

theorem reachVs_head {h : Heap} {w : Value} {vs : List Value} {b : Addr}
    (hr : ReachVH h w b) : ReachVs h (w :: vs) b :=
  ⟨w, List.mem_cons_self _ _, hr⟩

theorem reachVs_tail {h : Heap} {w : Value} {vs : List Value} {b : Addr}
    (hr : ReachVs h vs b) : ReachVs h (w :: vs) b := by
  obtain ⟨q, hq, hqr⟩ := hr
  exact ⟨q, List.mem_cons_of_mem w hq, hqr⟩

/-! ## Reading: fuel monotonicity -/

theorem read_mono_all : ∀ f : Nat,
    (∀ g h v t, f ≤ g → readV f h v = some t → readV g h v = some t) ∧
    (∀ g h es ts, f ≤ g → readEntries f h es = some ts → readEntries g h es = some ts) ∧
    (∀ g h vs ts, f ≤ g → readElems f h vs = some ts → readElems g h vs = some ts) := by
  intro f
  induction f with
  | zero =>
    refine ⟨?_, ?_, ?_⟩ <;> intro g h x t _ hr <;>
      simp [readV, readEntries, readElems] at hr
  | succ f ih =>
    obtain ⟨ihV, ihE, ihL⟩ := ih
    refine ⟨?_, ?_, ?_⟩
    · intro g h v t hg hr
      obtain ⟨g₁, rfl⟩ : ∃ g₁, g = g₁ + 1 :=
        ⟨g - 1, by omega⟩
      have hg₁ : f ≤ g₁ := by omega
      match v with
      | .vnull | .vstr _ | .vint _ | .vbool _ =>
        simpa [readV] using hr
      | .vptr _ => simp [readV] at hr
      | .vmap a =>
        simp only [readV] at hr ⊢
        rcases hn : lookupH h a with _ | nd
        · simp [hn] at hr
        · cases nd with
          | seq vs => simp [hn] at hr
          | map es =>
            simp only [hn] at hr
            rcases he : readEntries f h es with _ | ts
            · simp [he] at hr
            · show Option.map Tree.tmap (readEntries g₁ h es) = some t
              rw [ihE g₁ h es ts hg₁ he]
              simpa [he] using hr
      | .vseq a =>
        simp only [readV] at hr ⊢
        rcases hn : lookupH h a with _ | nd
        · simp [hn] at hr
        · cases nd with
          | map es => simp [hn] at hr
          | seq vs =>
            simp only [hn] at hr
            rcases he : readElems f h vs with _ | ts
            · simp [he] at hr
            · show Option.map Tree.tseq (readElems g₁ h vs) = some t
              rw [ihL g₁ h vs ts hg₁ he]
              simpa [he] using hr
    · intro g h es ts hg hr
      obtain ⟨g₁, rfl⟩ : ∃ g₁, g = g₁ + 1 := ⟨g - 1, by omega⟩
      have hg₁ : f ≤ g₁ := by omega
      match es with
      | [] => simpa [readEntries] using hr
      | (k, w) :: es =>
        simp only [readEntries] at hr ⊢
        rcases hv : readV f h w with _ | tv
        · simp [hv] at hr
        · rcases he : readEntries f h es with _ | ts'
          · simp [hv, he] at hr
          · rw [ihV g₁ h w tv hg₁ hv, ihE g₁ h es ts' hg₁ he]
            simpa [hv, he] using hr
    · intro g h vs ts hg hr
      obtain ⟨g₁, rfl⟩ : ∃ g₁, g = g₁ + 1 := ⟨g - 1, by omega⟩
      have hg₁ : f ≤ g₁ := by omega
      match vs with
      | [] => simpa [readElems] using hr
      | w :: vs =>
        simp only [readElems] at hr ⊢
        rcases hv : readV f h w with _ | tv
        · simp [hv] at hr
        · rcases he : readElems f h vs with _ | ts'
          · simp [hv, he] at hr
          · rw [ihV g₁ h w tv hg₁ hv, ihL g₁ h vs ts' hg₁ he]
            simpa [hv, he] using hr

theorem readV_mono {f g : Nat} {h : Heap} {v : Value} {t : Tree}
    (hg : f ≤ g) (hr : readV f h v = some t) : readV g h v = some t :=
  (read_mono_all f).1 g h v t hg hr

/-! ## Reading gives trees to every member -/

theorem readEntries_mem {f : Nat} {h : Heap} {es : List (String × Value)}
    {ts : List (String × Tree)} {p : String × Value}
    (hr : readEntries f h es = some ts) (hp : p ∈ es) :
    ∃ t, readV f h p.2 = some t := by
  induction es generalizing f ts with
  | nil => simp at hp
  | cons q es ih =>
    match f with
    | 0 => simp [readEntries] at hr
    | f + 1 =>
      obtain ⟨k, w⟩ := q
      simp only [readEntries] at hr
      rcases hv : readV f h w with _ | tv
      · simp [hv] at hr
      · rcases he : readEntries f h es with _ | ts'
        · simp [hv, he] at hr
        · rcases List.mem_cons.1 hp with rfl | hp'
          · exact ⟨tv, readV_mono (Nat.le_succ f) hv⟩
          · obtain ⟨tw, htw⟩ := ih he hp'
            exact ⟨tw, readV_mono (Nat.le_succ f) htw⟩

theorem readElems_mem {f : Nat} {h : Heap} {vs : List Value}
    {ts : List Tree} {w : Value}
    (hr : readElems f h vs = some ts) (hw : w ∈ vs) :
    ∃ t, readV f h w = some t := by
  induction vs generalizing f ts with
  | nil => simp at hw
  | cons v vs ih =>
    match f with
    | 0 => simp [readElems] at hr
    | f + 1 =>
      simp only [readElems] at hr
      rcases hv : readV f h v with _ | tv
      · simp [hv] at hr
      · rcases he : readElems f h vs with _ | ts'
        · simp [hv, he] at hr
        · rcases List.mem_cons.1 hw with rfl | hw'
          · exact ⟨tv, readV_mono (Nat.le_succ f) hv⟩
          · obtain ⟨tw, htw⟩ := ih he hw'
            exact ⟨tw, readV_mono (Nat.le_succ f) htw⟩

/-! ## Readable regions are acyclic -/

theorem readsAddr_lookup {f : Nat} {h : Heap} {a : Addr}
    (hr : ReadsAddr f h a) : ∃ nd, lookupH h a = some nd := by
  match f with
  | 0 => rcases hr with ⟨t, ht⟩ | ⟨t, ht⟩ <;> simp [readV] at ht
  | f + 1 =>
    rcases hr with ⟨t, ht⟩ | ⟨t, ht⟩ <;> simp only [readV] at ht <;>
      rcases hn : lookupH h a with _ | nd <;> simp [hn] at ht <;> exact ⟨_, rfl⟩

theorem readsAddr_step {f : Nat} {h : Heap} {a b : Addr}
    (hr : ReadsAddr f h a) (he : EdgeH h a b) : ∃ f' < f, ReadsAddr f' h b := by
  match f with
  | 0 => rcases hr with ⟨t, ht⟩ | ⟨t, ht⟩ <;> simp [readV] at ht
  | f + 1 =>
    obtain ⟨nd, hl, w, hw, hvw⟩ := he
    have hwread : ∃ t, readV f h w = some t := by
      rcases hr with ⟨t, ht⟩ | ⟨t, ht⟩
      · simp only [readV] at ht
        rcases hn : lookupH h a with _ | nd'
        · simp [hn] at ht
        · cases nd' with
          | seq vs => simp [hn] at ht
          | map es =>
            simp only [hn] at ht
            rcases he' : readEntries f h es with _ | ts
            · simp [he'] at ht
            · obtain rfl : nd = .map es := by rw [hl] at hn; injection hn
              simp only [nodeValues, List.mem_map] at hw
              obtain ⟨p, hp, rfl⟩ := hw
              exact readEntries_mem he' hp
      · simp only [readV] at ht
        rcases hn : lookupH h a with _ | nd'
        · simp [hn] at ht
        · cases nd' with
          | map es => simp [hn] at ht
          | seq vs =>
            simp only [hn] at ht
            rcases he' : readElems f h vs with _ | ts
            · simp [he'] at ht
            · obtain rfl : nd = .seq vs := by rw [hl] at hn; injection hn
              simp only [nodeValues] at hw
              exact readElems_mem he' hw
    obtain ⟨t, ht⟩ := hwread
    refine ⟨f, Nat.lt_succ_self f, ?_⟩
    cases w with
    | vnull => simp [valAddr] at hvw
    | vstr s => simp [valAddr] at hvw
    | vint n => simp [valAddr] at hvw
    | vbool b2 => simp [valAddr] at hvw
    | vmap c =>
      obtain rfl : c = b := by simpa [valAddr] using hvw
      exact Or.inl ⟨t, ht⟩
    | vseq c =>
      obtain rfl : c = b := by simpa [valAddr] using hvw
      exact Or.inr ⟨t, ht⟩
    | vptr c =>
      exfalso
      match f, ht with
      | 0, ht => simp [readV] at ht
      | f + 1, ht => simp [readV] at ht

/-- A container that spells a tree is on no reference cycle. -/
theorem readable_no_cycle {h : Heap} :
    ∀ f a, ReadsAddr f h a → ¬ Relation.TransGen (EdgeH h) a a := by
  intro f
  induction f using Nat.strong_induction_on with
  | _ f ih =>
    intro a hr hcyc
    obtain ⟨c, hac, hca⟩ := Relation.TransGen.head'_iff.1 hcyc
    obtain ⟨f', hf', hrc⟩ := readsAddr_step hr hac
    exact ih f' hf' c hrc (Relation.TransGen.tail' hca hac)

theorem readsAddr_reach {h : Heap} {a b : Addr} (hab : ReachH h a b) :
    ∀ f, ReadsAddr f h a → ∃ f' ≤ f, ReadsAddr f' h b := by
  induction hab using Relation.ReflTransGen.head_induction_on with
  | refl => exact fun f hr => ⟨f, le_refl f, hr⟩
  | head hac hcb ih =>
    intro f hr
    obtain ⟨f₁, hf₁, hrc⟩ := readsAddr_step hr hac
    obtain ⟨f', hf', hrb⟩ := ih f₁ hrc
    exact ⟨f', le_trans hf' (le_of_lt hf₁), hrb⟩

theorem readsAddr_reach_lookup {h : Heap} {f : Nat} {a b : Addr}
    (hr : ReadsAddr f h a) (hab : ReachH h a b) :
    ∃ nd, lookupH h b = some nd := by
  obtain ⟨f', _, hrb⟩ := readsAddr_reach hab f hr
  exact readsAddr_lookup hrb

theorem readV_reach_lookup {f : Nat} {h : Heap} {v : Value} {t : Tree}
    (hr : readV f h v = some t) {b : Addr} (hb : ReachVH h v b) :
    ∃ nd, lookupH h b = some nd := by
  obtain ⟨r, hvr, hreach⟩ := hb
  cases v with
  | vnull => simp [valAddr] at hvr
  | vstr s => simp [valAddr] at hvr
  | vint n => simp [valAddr] at hvr
  | vbool b2 => simp [valAddr] at hvr
  | vptr p => match f, hr with
    | 0, hr => simp [readV] at hr
    | f + 1, hr => simp [readV] at hr
  | vmap a =>
    obtain rfl : a = r := by simpa [valAddr] using hvr
    exact readsAddr_reach_lookup (Or.inl ⟨t, hr⟩) hreach
  | vseq a =>
    obtain rfl : a = r := by simpa [valAddr] using hvr
    exact readsAddr_reach_lookup (Or.inr ⟨t, hr⟩) hreach

/-- A readable map container reaches itself only trivially. -/
theorem readable_reach_self {h : Heap} {f : Nat} {a b : Addr}
    (hr : ReadsAddr f h a) (hab : ReachH h a b) (hba : ReachH h b a) :
    b = a := by
  rcases (Relation.reflTransGen_iff_eq_or_transGen.1 hab) with rfl | hab'
  · rfl
  · rcases (Relation.reflTransGen_iff_eq_or_transGen.1 hba) with rfl | hba'
    · rfl
    · exact absurd (hab'.trans hba') (readable_no_cycle f a hr)

/-! ## Reading only depends on reachable containers -/

theorem read_frame_all : ∀ f : Nat,
    (∀ h h' v t, readV f h v = some t →
      (∀ b, ReachVH h v b → lookupH h' b = lookupH h b) →
      readV f h' v = some t) ∧
    (∀ h h' es ts, readEntries f h es = some ts →
      (∀ b, ReachEs h es b → lookupH h' b = lookupH h b) →
      readEntries f h' es = some ts) ∧
    (∀ h h' vs ts, readElems f h vs = some ts →
      (∀ b, ReachVs h vs b → lookupH h' b = lookupH h b) →
      readElems f h' vs = some ts) := by
  intro f
  induction f with
  | zero =>
    refine ⟨?_, ?_, ?_⟩ <;> intro h h' x t hr _ <;>
      simp [readV, readEntries, readElems] at hr
  | succ f ih =>
    obtain ⟨ihV, ihE, ihL⟩ := ih
    refine ⟨?_, ?_, ?_⟩
    · intro h h' v t hr hpres
      match v with
      | .vnull | .vstr _ | .vint _ | .vbool _ => simpa [readV] using hr
      | .vptr _ => simp [readV] at hr
      | .vmap a =>
        have hla : lookupH h' a = lookupH h a :=
          hpres a (@reachVH_self (.vmap a) a rfl h)
        simp only [readV] at hr ⊢
        rw [hla]
        rcases hn : lookupH h a with _ | nd
        · simp [hn] at hr
        · cases nd with
          | seq vs => simp [hn] at hr
          | map es =>
            simp only [hn] at hr
            rcases he : readEntries f h es with _ | ts
            · simp [he] at hr
            · show Option.map Tree.tmap (readEntries f h' es) = some t
              rw [ihE h h' es ts he (fun b hb => hpres b (reachVH_map_step hn hb))]
              simpa [he] using hr
      | .vseq a =>
        have hla : lookupH h' a = lookupH h a :=
          hpres a (@reachVH_self (.vseq a) a rfl h)
        simp only [readV] at hr ⊢
        rw [hla]
        rcases hn : lookupH h a with _ | nd
        · simp [hn] at hr
        · cases nd with
          | map es => simp [hn] at hr
          | seq vs =>
            simp only [hn] at hr
            rcases he : readElems f h vs with _ | ts
            · simp [he] at hr
            · show Option.map Tree.tseq (readElems f h' vs) = some t
              rw [ihL h h' vs ts he (fun b hb => hpres b (reachVH_seq_step hn hb))]
              simpa [he] using hr
    · intro h h' es ts hr hpres
      match es with
      | [] => simpa [readEntries] using hr
      | (k, w) :: es =>
        simp only [readEntries] at hr ⊢
        rcases hv : readV f h w with _ | tv
        · simp [hv] at hr
        · rcases he : readEntries f h es with _ | ts'
          · simp [hv, he] at hr
          · rw [ihV h h' w tv hv (fun b hb => hpres b (reachEs_head hb)),
              ihE h h' es ts' he (fun b hb => hpres b (reachEs_tail hb))]
            simpa [hv, he] using hr
    · intro h h' vs ts hr hpres
      match vs with
      | [] => simpa [readElems] using hr
      | w :: vs =>
        simp only [readElems] at hr ⊢
        rcases hv : readV f h w with _ | tv
        · simp [hv] at hr
        · rcases he : readElems f h vs with _ | ts'
          · simp [hv, he] at hr
          · rw [ihV h h' w tv hv (fun b hb => hpres b (reachVs_head hb)),
              ihL h h' vs ts' he (fun b hb => hpres b (reachVs_tail hb))]
            simpa [hv, he] using hr

theorem readV_frame {f : Nat} {h h' : Heap} {v : Value} {t : Tree}
    (hr : readV f h v = some t)
    (hpres : ∀ b, ReachVH h v b → lookupH h' b = lookupH h b) :
    readV f h' v = some t :=
  (read_frame_all f).1 h h' v t hr hpres

/-- Reading survives a heap extension (only fresh containers are added,
old containers untouched). -/
theorem readV_hext {f : Nat} {h h' : Heap} {v : Value} {t : Tree}
    (hr : readV f h v = some t) (he : HExt h h') : readV f h' v = some t := by
  refine readV_frame hr (fun b hb => ?_)
  obtain ⟨nd, hnd⟩ := readV_reach_lookup hr hb
  rw [hnd, he.2 b nd hnd]

/-- Reading survives mutation of any unreachable container. -/
theorem readV_update_unreachable {f : Nat} {h : Heap} {v : Value} {t : Tree}
    (hr : readV f h v = some t) {b : Addr} (hb : ¬ ReachVH h v b) (nd : Node) :
    readV f (updateH h b nd) v = some t := by
  refine readV_frame hr (fun x hx => ?_)
  have hxb : x ≠ b := fun hxb => hb (hxb ▸ hx)
  exact lookupH_updateH_other h nd hxb

/-! ## Reachability only depends on reachable containers -/

theorem reach_frame_fwd {h hB : Heap} {r b : Addr}
    (hpres : ∀ x, ReachH h r x → lookupH hB x = lookupH h x)
    (hrb : ReachH h r b) : ReachH hB r b := by
  have main : ∀ c, ReachH h c b → ReachH h r c → ReachH hB c b := by
    intro c hcb
    induction hcb using Relation.ReflTransGen.head_induction_on with
    | refl => exact fun _ => Relation.ReflTransGen.refl
    | head hcd hdb ih =>
      intro hrc
      obtain ⟨nd, hnd, w, hw, hvw⟩ := hcd
      refine Relation.ReflTransGen.head ⟨nd, ?_, w, hw, hvw⟩
        (ih (hrc.tail ⟨nd, hnd, w, hw, hvw⟩))
      rw [hpres _ hrc]
      exact hnd
  exact main r hrb Relation.ReflTransGen.refl

theorem reach_frame_bwd {h hB : Heap} {r b : Addr}
    (hpres : ∀ x, ReachH h r x → lookupH hB x = lookupH h x)
    (hrb : ReachH hB r b) : ReachH h r b := by
  have main : ∀ c, ReachH hB c b → ReachH h r c → ReachH h c b := by
    intro c hcb
    induction hcb using Relation.ReflTransGen.head_induction_on with
    | refl => exact fun _ => Relation.ReflTransGen.refl
    | head hcd hdb ih =>
      intro hrc
      obtain ⟨nd, hnd, w, hw, hvw⟩ := hcd
      rw [hpres _ hrc] at hnd
      exact Relation.ReflTransGen.head ⟨nd, hnd, w, hw, hvw⟩
        (ih (hrc.tail ⟨nd, hnd, w, hw, hvw⟩))
  exact main r hrb Relation.ReflTransGen.refl

theorem not_reachVH_of_valAddr_none {h : Heap} {v : Value}
    (hv : valAddr v = none) (b : Addr) : ¬ ReachVH h v b := by
  rintro ⟨r, hvr, _⟩
  rw [hv] at hvr
  exact Option.noConfusion hvr

theorem reachVH_hext_iff {g : Nat} {h h₁ : Heap} {v : Value} {t : Tree}
    (hr : readV g h v = some t) (he : HExt h h₁) (b : Addr) :
    ReachVH h₁ v b ↔ ReachVH h v b := by
  rcases hv : valAddr v with _ | r
  · constructor <;> intro hx <;> exact absurd hx (not_reachVH_of_valAddr_none hv b)
  · have hpres : ∀ x, ReachH h r x → lookupH h₁ x = lookupH h x := by
      intro x hx
      obtain ⟨nd, hnd⟩ := readV_reach_lookup hr ⟨r, hv, hx⟩
      rw [hnd, he.2 x nd hnd]
    constructor
    · rintro ⟨r', hvr', hx⟩
      have heq : r' = r := by
        rw [hv] at hvr'
        exact (Option.some.inj hvr').symm
      rw [heq] at hx
      exact ⟨r, hv, reach_frame_bwd hpres hx⟩
    · rintro ⟨r', hvr', hx⟩
      have heq : r' = r := by
        rw [hv] at hvr'
        exact (Option.some.inj hvr').symm
      rw [heq] at hx
      exact ⟨r, hv, reach_frame_fwd hpres hx⟩

theorem reachEs_hext_down {g : Nat} {h h₁ : Heap} {es : List (String × Value)}
    {ts : List (String × Tree)} (hr : readEntries g h es = some ts)
    (he : HExt h h₁) {b : Addr} (hb : ReachEs h₁ es b) : ReachEs h es b := by
  obtain ⟨p, hp, hvh⟩ := hb
  obtain ⟨t, ht⟩ := readEntries_mem hr hp
  exact ⟨p, hp, (reachVH_hext_iff ht he b).1 hvh⟩

theorem reachVs_hext_down {g : Nat} {h h₁ : Heap} {vs : List Value}
    {ts : List Tree} (hr : readElems g h vs = some ts)
    (he : HExt h h₁) {b : Addr} (hb : ReachVs h₁ vs b) : ReachVs h vs b := by
  obtain ⟨w, hw, hvh⟩ := hb
  obtain ⟨t, ht⟩ := readElems_mem hr hw
  exact ⟨w, hw, (reachVH_hext_iff ht he b).1 hvh⟩

/-! ## Read inversion and introduction -/

theorem readV_map_inv {g : Nat} {h : Heap} {a : Addr} {t : Tree}
    (hr : readV g h (.vmap a) = some t) :
    ∃ g₁ es ts, g = g₁ + 1 ∧ lookupH h a = some (.map es) ∧
      readEntries g₁ h es = some ts ∧ t = .tmap ts := by
  match g with
  | 0 => simp [readV] at hr
  | g₁ + 1 =>
    simp only [readV] at hr
    rcases hn : lookupH h a with _ | nd
    · simp [hn] at hr
    · cases nd with
      | seq vs => simp [hn] at hr
      | map es =>
        simp only [hn] at hr
        rcases he : readEntries g₁ h es with _ | ts
        · simp [he] at hr
        · refine ⟨g₁, es, ts, rfl, rfl, he, ?_⟩
          simp [he] at hr
          exact hr.symm

theorem readV_seq_inv {g : Nat} {h : Heap} {a : Addr} {t : Tree}
    (hr : readV g h (.vseq a) = some t) :
    ∃ g₁ vs ts, g = g₁ + 1 ∧ lookupH h a = some (.seq vs) ∧
      readElems g₁ h vs = some ts ∧ t = .tseq ts := by
  match g with
  | 0 => simp [readV] at hr
  | g₁ + 1 =>
    simp only [readV] at hr
    rcases hn : lookupH h a with _ | nd
    · simp [hn] at hr
    · cases nd with
      | map es => simp [hn] at hr
      | seq vs =>
        simp only [hn] at hr
        rcases he : readElems g₁ h vs with _ | ts
        · simp [he] at hr
        · refine ⟨g₁, vs, ts, rfl, rfl, he, ?_⟩
          simp [he] at hr
          exact hr.symm

theorem readV_map_mk {g₁ : Nat} {h : Heap} {a : Addr}
    {es : List (String × Value)} {ts : List (String × Tree)}
    (hl : lookupH h a = some (.map es)) (he : readEntries g₁ h es = some ts) :
    readV (g₁ + 1) h (.vmap a) = some (.tmap ts) := by
  simp [readV, hl, he]

theorem readV_seq_mk {g₁ : Nat} {h : Heap} {a : Addr}
    {vs : List Value} {ts : List Tree}
    (hl : lookupH h a = some (.seq vs)) (he : readElems g₁ h vs = some ts) :
    readV (g₁ + 1) h (.vseq a) = some (.tseq ts) := by
  simp [readV, hl, he]

theorem readEntries_cons_inv {g : Nat} {h : Heap} {k : String} {v : Value}
    {es : List (String × Value)} {ts : List (String × Tree)}
    (hr : readEntries g h ((k, v) :: es) = some ts) :
    ∃ g₁ tv ts', g = g₁ + 1 ∧ readV g₁ h v = some tv ∧
      readEntries g₁ h es = some ts' ∧ ts = (k, tv) :: ts' := by
  match g with
  | 0 => simp [readEntries] at hr
  | g₁ + 1 =>
    simp only [readEntries] at hr
    rcases hv : readV g₁ h v with _ | tv
    · simp [hv] at hr
    · rcases he : readEntries g₁ h es with _ | ts'
      · simp [hv, he] at hr
      · refine ⟨g₁, tv, ts', rfl, hv, he, ?_⟩
        simp [hv, he] at hr
        exact hr.symm

theorem readElems_cons_inv {g : Nat} {h : Heap} {v : Value}
    {vs : List Value} {ts : List Tree}
    (hr : readElems g h (v :: vs) = some ts) :
    ∃ g₁ tv ts', g = g₁ + 1 ∧ readV g₁ h v = some tv ∧
      readElems g₁ h vs = some ts' ∧ ts = tv :: ts' := by
  match g with
  | 0 => simp [readElems] at hr
  | g₁ + 1 =>
    simp only [readElems] at hr
    rcases hv : readV g₁ h v with _ | tv
    · simp [hv] at hr
    · rcases he : readElems g₁ h vs with _ | ts'
      · simp [hv, he] at hr
      · refine ⟨g₁, tv, ts', rfl, hv, he, ?_⟩
        simp [hv, he] at hr
        exact hr.symm

theorem readEntries_cons_mk {g₁ : Nat} {h : Heap} {k : String} {v : Value}
    {es : List (String × Value)} {tv : Tree} {ts' : List (String × Tree)}
    (hv : readV g₁ h v = some tv) (he : readEntries g₁ h es = some ts') :
    readEntries (g₁ + 1) h ((k, v) :: es) = some ((k, tv) :: ts') := by
  simp [readEntries, hv, he]

theorem readElems_cons_mk {g₁ : Nat} {h : Heap} {v : Value}
    {vs : List Value} {tv : Tree} {ts' : List Tree}
    (hv : readV g₁ h v = some tv) (he : readElems g₁ h vs = some ts') :
    readElems (g₁ + 1) h (v :: vs) = some (tv :: ts') := by
  simp [readElems, hv, he]

theorem readEntries_hext {g : Nat} {h h₁ : Heap} {es : List (String × Value)}
    {ts : List (String × Tree)} (hr : readEntries g h es = some ts)
    (he : HExt h h₁) : readEntries g h₁ es = some ts := by
  refine (read_frame_all g).2.1 h h₁ es ts hr (fun b hb => ?_)
  obtain ⟨p, hp, hvh⟩ := hb
  obtain ⟨t, ht⟩ := readEntries_mem hr hp
  obtain ⟨nd, hnd⟩ := readV_reach_lookup ht hvh
  rw [hnd, he.2 b nd hnd]

theorem readElems_hext {g : Nat} {h h₁ : Heap} {vs : List Value}
    {ts : List Tree} (hr : readElems g h vs = some ts)
    (he : HExt h h₁) : readElems g h₁ vs = some ts := by
  refine (read_frame_all g).2.2 h h₁ vs ts hr (fun b hb => ?_)
  obtain ⟨w, hw, hvh⟩ := hb
  obtain ⟨t, ht⟩ := readElems_mem hr hw
  obtain ⟨nd, hnd⟩ := readV_reach_lookup ht hvh
  rw [hnd, he.2 b nd hnd]

/-! ## Copy correctness: same tree, entirely fresh containers -/

theorem copyElems_ext {f : Nat} {h : Heap} {vs : List Value} {h₁ : Heap}
    {vs' : List Value} (hc : copyElems f h vs = some (h₁, vs')) : HExt h h₁ :=
  (copy_ext f).2.2.1 h vs _ hc

theorem cleanUpValueH_ext {f : Nat} {h : Heap} {v : Value} {h₁ : Heap}
    {v' : Value} (hc : cleanUpValueH f h v = some (h₁, v')) : HExt h h₁ :=
  (copy_ext f).2.2.2.1 h v _ hc

theorem cleanUpArrH_ext {f : Nat} {h : Heap} {vs : List Value} {h₁ : Heap}
    {vs' : List Value} (hc : cleanUpArrH f h vs = some (h₁, vs')) : HExt h h₁ :=
  (copy_ext f).2.2.2.2 h vs _ hc

/-- The copy spells the same tree as the original, and every container
reachable from the copy was freshly allocated (provided the original is
readable, which rules out shared `vptr` pointees).  For the normalizer
pass the reachable containers are either fresh or were already reachable
from the input value. -/
theorem copy_correct_all : ∀ f : Nat,
    (∀ g h v t h₁ v', readV g h v = some t → deepCopy f h v = some (h₁, v') →
      readV g h₁ v' = some t ∧ ∀ b, ReachVH h₁ v' b → freshAddr h ≤ b) ∧
    (∀ g h es ts h₁ es', readEntries g h es = some ts →
      copyEntries f h es = some (h₁, es') →
      readEntries g h₁ es' = some ts ∧ ∀ b, ReachEs h₁ es' b → freshAddr h ≤ b) ∧
    (∀ g h vs ts h₁ vs', readElems g h vs = some ts →
      copyElems f h vs = some (h₁, vs') →
      readElems g h₁ vs' = some ts ∧ ∀ b, ReachVs h₁ vs' b → freshAddr h ≤ b) ∧
    (∀ g h v t h₁ v', readV g h v = some t → cleanUpValueH f h v = some (h₁, v') →
      readV g h₁ v' = some t ∧
        ∀ b, ReachVH h₁ v' b → ReachVH h v b ∨ freshAddr h ≤ b) ∧
    (∀ g h vs ts h₁ vs', readElems g h vs = some ts →
      cleanUpArrH f h vs = some (h₁, vs') →
      readElems g h₁ vs' = some ts ∧
        ∀ b, ReachVs h₁ vs' b → ReachVs h vs b ∨ freshAddr h ≤ b) := by
  intro f
  induction f with
  | zero =>
    refine ⟨?_, ?_, ?_, ?_, ?_⟩ <;> intro g h x t h₁ x' _ hc <;>
      simp [deepCopy, copyEntries, copyElems, cleanUpValueH, cleanUpArrH] at hc
  | succ f ih =>
    obtain ⟨ihV, ihE, ihL, ihC, ihA⟩ := ih
    refine ⟨?_, ?_, ?_, ?_, ?_⟩
    · -- deepCopy
      intro g h v t h₁ v' hr hc
      match v with
      | .vnull =>
        simp only [deepCopy, Option.some.injEq, Prod.mk.injEq] at hc
        obtain ⟨h1, h2⟩ := hc
        subst h1; subst h2
        refine ⟨hr, fun b hb => ?_⟩
        obtain ⟨r, hvr, _⟩ := hb
        simp [valAddr] at hvr
      | .vstr s =>
        simp only [deepCopy, Option.some.injEq, Prod.mk.injEq] at hc
        obtain ⟨h1, h2⟩ := hc
        subst h1; subst h2
        refine ⟨hr, fun b hb => ?_⟩
        obtain ⟨r, hvr, _⟩ := hb
        simp [valAddr] at hvr
      | .vint n =>
        simp only [deepCopy, Option.some.injEq, Prod.mk.injEq] at hc
        obtain ⟨h1, h2⟩ := hc
        subst h1; subst h2
        refine ⟨hr, fun b hb => ?_⟩
        obtain ⟨r, hvr, _⟩ := hb
        simp [valAddr] at hvr
      | .vbool b0 =>
        simp only [deepCopy, Option.some.injEq, Prod.mk.injEq] at hc
        obtain ⟨h1, h2⟩ := hc
        subst h1; subst h2
        refine ⟨hr, fun b hb => ?_⟩
        obtain ⟨r, hvr, _⟩ := hb
        simp [valAddr] at hvr
      | .vptr p =>
        match g, hr with
        | 0, hr => simp [readV] at hr
        | g + 1, hr => simp [readV] at hr
      | .vmap a =>
        obtain ⟨g₁, es, ts, rfl, hn, hes, rfl⟩ := readV_map_inv hr
        simp only [deepCopy, hn] at hc
        rcases hce : copyEntries f h es with _ | ⟨h₂, es'⟩
        · simp [hce] at hc
        · simp only [hce, allocH, Option.some.injEq, Prod.mk.injEq] at hc
          obtain ⟨h1, h2⟩ := hc
          subst h1; subst h2
          have hEs2 := ihE g₁ h es ts h₂ es' hes hce
          have hAll : HExt h₂ ((freshAddr h₂, Node.map es') :: h₂) :=
            HExt.alloc h₂ (.map es')
          have hEs1 : readEntries g₁ ((freshAddr h₂, Node.map es') :: h₂) es'
              = some ts := readEntries_hext hEs2.1 hAll
          refine ⟨readV_map_mk (by rw [lookupH_cons, if_pos rfl]) hEs1, ?_⟩
          rintro b ⟨r, hvr, hreach⟩
          simp only [valAddr, Option.some.injEq] at hvr
          subst hvr
          rcases Relation.ReflTransGen.cases_head hreach with heq | ⟨c, hedge, hcb⟩
          · rw [← heq]
            exact (copyEntries_ext hce).1
          · obtain ⟨nd, hnd, w, hw, hvw⟩ := hedge
            rw [lookupH_cons, if_pos rfl] at hnd
            obtain rfl := Option.some.inj hnd
            simp only [nodeValues, List.mem_map] at hw
            obtain ⟨p, hp, rfl⟩ := hw
            have hre : ReachEs ((freshAddr h₂, Node.map es') :: h₂) es' b :=
              ⟨p, hp, ⟨c, hvw, hcb⟩⟩
            exact hEs2.2 b (reachEs_hext_down hEs2.1 hAll hre)
      | .vseq a =>
        obtain ⟨g₁, vs, ts, rfl, hn, hvs, rfl⟩ := readV_seq_inv hr
        simp only [deepCopy, hn] at hc
        rcases hcl : copyElems f h vs with _ | ⟨h₂, vs'⟩
        · simp [hcl] at hc
        · rcases hca : cleanUpArrH f h₂ vs' with _ | ⟨h₃, vs''⟩
          · simp [hcl, hca] at hc
          · simp only [hcl, hca, allocH, Option.some.injEq, Prod.mk.injEq] at hc
            obtain ⟨h1, h2⟩ := hc
            subst h1; subst h2
            have hL2 := ihL g₁ h vs ts h₂ vs' hvs hcl
            have hA3 := ihA g₁ h₂ vs' ts h₃ vs'' hL2.1 hca
            have hAll : HExt h₃ ((freshAddr h₃, Node.seq vs'') :: h₃) :=
              HExt.alloc h₃ (.seq vs'')
            refine ⟨readV_seq_mk (by rw [lookupH_cons, if_pos rfl])
              (readElems_hext hA3.1 hAll), ?_⟩
            rintro b ⟨r, hvr, hreach⟩
            simp only [valAddr, Option.some.injEq] at hvr
            subst hvr
            have hfr12 : freshAddr h ≤ freshAddr h₂ := (copyElems_ext hcl).1
            have hfr23 : freshAddr h₂ ≤ freshAddr h₃ := (cleanUpArrH_ext hca).1
            rcases Relation.ReflTransGen.cases_head hreach with heq | ⟨c, hedge, hcb⟩
            · rw [← heq]
              exact le_trans hfr12 hfr23
            · obtain ⟨nd, hnd, w, hw, hvw⟩ := hedge
              rw [lookupH_cons, if_pos rfl] at hnd
              obtain rfl := Option.some.inj hnd
              simp only [nodeValues] at hw
              have hre : ReachVs ((freshAddr h₃, Node.seq vs'') :: h₃) vs'' b :=
                ⟨w, hw, ⟨c, hvw, hcb⟩⟩
              rcases hA3.2 b (reachVs_hext_down hA3.1 hAll hre) with hleft | hright
              · exact hL2.2 b hleft
              · exact le_trans hfr12 hright
    · -- copyEntries
      intro g h es ts h₁ es' hr hc
      match es with
      | [] =>
        simp only [copyEntries, Option.some.injEq, Prod.mk.injEq] at hc
        obtain ⟨h1, h2⟩ := hc
        subst h1; subst h2
        refine ⟨hr, fun b hb => ?_⟩
        obtain ⟨p, hp, _⟩ := hb
        simp at hp
      | (k, v) :: es =>
        obtain ⟨g₁, tv, ts', rfl, hv, hes, rfl⟩ := readEntries_cons_inv hr
        simp only [copyEntries] at hc
        rcases hdv : deepCopy f h v with _ | ⟨h₂, v₂⟩
        · simp [hdv] at hc
        · rcases hce : copyEntries f h₂ es with _ | ⟨h₃, es₃⟩
          · simp [hdv, hce] at hc
          · simp only [hdv, hce, Option.some.injEq, Prod.mk.injEq] at hc
            obtain ⟨h1, h2⟩ := hc
            subst h1; subst h2
            have hV := ihV g₁ h v tv h₂ v₂ hv hdv
            have hes₂ : readEntries g₁ h₂ es = some ts' :=
              readEntries_hext hes (deepCopy_ext hdv)
            have hE := ihE g₁ h₂ es ts' h₃ es₃ hes₂ hce
            have hv₃ : readV g₁ h₃ v₂ = some tv :=
              readV_hext hV.1 (copyEntries_ext hce)
            refine ⟨readEntries_cons_mk hv₃ hE.1, ?_⟩
            rintro b ⟨p, hp, hvh⟩
            rcases List.mem_cons.1 hp with rfl | hp'
            · exact hV.2 b ((reachVH_hext_iff hV.1 (copyEntries_ext hce) b).1 hvh)
            · exact le_trans (deepCopy_ext hdv).1 (hE.2 b ⟨p, hp', hvh⟩)
    · -- copyElems
      intro g h vs ts h₁ vs' hr hc
      match vs with
      | [] =>
        simp only [copyElems, Option.some.injEq, Prod.mk.injEq] at hc
        obtain ⟨h1, h2⟩ := hc
        subst h1; subst h2
        refine ⟨hr, fun b hb => ?_⟩
        obtain ⟨w, hw, _⟩ := hb
        simp at hw
      | v :: vs =>
        obtain ⟨g₁, tv, ts', rfl, hv, hvs, rfl⟩ := readElems_cons_inv hr
        simp only [copyElems] at hc
        rcases hdv : deepCopy f h v with _ | ⟨h₂, v₂⟩
        · simp [hdv] at hc
        · rcases hce : copyElems f h₂ vs with _ | ⟨h₃, vs₃⟩
          · simp [hdv, hce] at hc
          · simp only [hdv, hce, Option.some.injEq, Prod.mk.injEq] at hc
            obtain ⟨h1, h2⟩ := hc
            subst h1; subst h2
            have hV := ihV g₁ h v tv h₂ v₂ hv hdv
            have hvs₂ : readElems g₁ h₂ vs = some ts' :=
              readElems_hext hvs (deepCopy_ext hdv)
            have hL := ihL g₁ h₂ vs ts' h₃ vs₃ hvs₂ hce
            have hv₃ : readV g₁ h₃ v₂ = some tv :=
              readV_hext hV.1 (copyElems_ext hce)
            refine ⟨readElems_cons_mk hv₃ hL.1, ?_⟩
            rintro b ⟨w, hw, hvh⟩
            rcases List.mem_cons.1 hw with rfl | hw'
            · exact hV.2 b ((reachVH_hext_iff hV.1 (copyElems_ext hce) b).1 hvh)
            · exact le_trans (deepCopy_ext hdv).1 (hL.2 b ⟨w, hw', hvh⟩)
    · -- cleanUpValueH
      intro g h v t h₁ v' hr hc
      match v with
      | .vnull | .vstr _ | .vint _ | .vbool _ | .vmap _ =>
        simp only [cleanUpValueH, Option.some.injEq, Prod.mk.injEq] at hc
        obtain ⟨h1, h2⟩ := hc
        subst h1; subst h2
        exact ⟨hr, fun b hb => Or.inl hb⟩
      | .vptr p =>
        match g, hr with
        | 0, hr => simp [readV] at hr
        | g + 1, hr => simp [readV] at hr
      | .vseq a =>
        obtain ⟨g₁, vs, ts, rfl, hn, hvs, rfl⟩ := readV_seq_inv hr
        simp only [cleanUpValueH, hn] at hc
        rcases hca : cleanUpArrH f h vs with _ | ⟨h₂, vs'⟩
        · simp [hca] at hc
        · simp only [hca, allocH, Option.some.injEq, Prod.mk.injEq] at hc
          obtain ⟨h1, h2⟩ := hc
          subst h1; subst h2
          have hA := ihA g₁ h vs ts h₂ vs' hvs hca
          have hAll : HExt h₂ ((freshAddr h₂, Node.seq vs') :: h₂) :=
            HExt.alloc h₂ (.seq vs')
          refine ⟨readV_seq_mk (by rw [lookupH_cons, if_pos rfl])
            (readElems_hext hA.1 hAll), ?_⟩
          rintro b ⟨r, hvr, hreach⟩
          simp only [valAddr, Option.some.injEq] at hvr
          subst hvr
          rcases Relation.ReflTransGen.cases_head hreach with heq | ⟨c, hedge, hcb⟩
          · rw [← heq]
            exact Or.inr (cleanUpArrH_ext hca).1
          · obtain ⟨nd, hnd, w, hw, hvw⟩ := hedge
            rw [lookupH_cons, if_pos rfl] at hnd
            obtain rfl := Option.some.inj hnd
            simp only [nodeValues] at hw
            have hre : ReachVs ((freshAddr h₂, Node.seq vs') :: h₂) vs' b :=
              ⟨w, hw, ⟨c, hvw, hcb⟩⟩
            rcases hA.2 b (reachVs_hext_down hA.1 hAll hre) with hleft | hright
            · exact Or.inl (reachVH_seq_step hn hleft)
            · exact Or.inr hright
    · -- cleanUpArrH
      intro g h vs ts h₁ vs' hr hc
      match vs with
      | [] =>
        simp only [cleanUpArrH, Option.some.injEq, Prod.mk.injEq] at hc
        obtain ⟨h1, h2⟩ := hc
        subst h1; subst h2
        refine ⟨hr, fun b hb => ?_⟩
        obtain ⟨w, hw, _⟩ := hb
        simp at hw
      | v :: vs =>
        obtain ⟨g₁, tv, ts', rfl, hv, hvs, rfl⟩ := readElems_cons_inv hr
        simp only [cleanUpArrH] at hc
        rcases hdv : cleanUpValueH f h v with _ | ⟨h₂, v₂⟩
        · simp [hdv] at hc
        · rcases hce : cleanUpArrH f h₂ vs with _ | ⟨h₃, vs₃⟩
          · simp [hdv, hce] at hc
          · simp only [hdv, hce, Option.some.injEq, Prod.mk.injEq] at hc
            obtain ⟨h1, h2⟩ := hc
            subst h1; subst h2
            have hC := ihC g₁ h v tv h₂ v₂ hv hdv
            have hvs₂ : readElems g₁ h₂ vs = some ts' :=
              readElems_hext hvs (cleanUpValueH_ext hdv)
            have hA := ihA g₁ h₂ vs ts' h₃ vs₃ hvs₂ hce
            have hv₃ : readV g₁ h₃ v₂ = some tv :=
              readV_hext hC.1 (cleanUpArrH_ext hce)
            refine ⟨readElems_cons_mk hv₃ hA.1, ?_⟩
            rintro b ⟨w, hw, hvh⟩
            rcases List.mem_cons.1 hw with rfl | hw'
            · rcases hC.2 b ((reachVH_hext_iff hC.1 (cleanUpArrH_ext hce) b).1 hvh)
                with hleft | hright
              · exact Or.inl (reachVs_head hleft)
              · exact Or.inr hright
            · rcases hA.2 b ⟨w, hw', hvh⟩ with hleft | hright
              · exact Or.inl (reachVs_tail
                  (reachVs_hext_down hvs (cleanUpValueH_ext hdv) hleft))
              · exact Or.inr (le_trans (cleanUpValueH_ext hdv).1 hright)

/-! ## DigMapping: helper facts -/

theorem assocFind_mem_pair {es : List (String × Value)} {k : String} {v : Value}
    (hf : assocFind es k = some v) : (k, v) ∈ es := by
  induction es with
  | nil => simp [assocFind] at hf
  | cons p t ih =>
    obtain ⟨k₁, v₁⟩ := p
    by_cases hk : k₁ = k
    · subst hk
      rw [show assocFind ((k₁, v₁) :: t) k₁ = some v₁ from by simp [assocFind]] at hf
      obtain rfl := Option.some.inj hf
      exact List.mem_cons_self _ _
    · simp only [assocFind, hk, if_false] at hf
      exact List.mem_cons_of_mem _ (ih hf)

theorem dig_entry_single {h : Heap} {x : Addr} {c : String} {v : Value}
    (he : entryAt h x c = some v) : dig h x [c] = v := by
  cases v <;> simp [dig, he]

theorem dig_cons_map {h : Heap} {a b : Addr} {k : String}
    (he : entryAt h a k = some (.vmap b)) {rest : List String}
    (hrest : rest ≠ []) : dig h a (k :: rest) = dig h b rest := by
  simp [dig, he, hrest]

theorem reach_from_empty {h : Heap} {n r : Addr}
    (hn : lookupH h n = some (.map [])) (hr : ReachH h n r) : r = n := by
  rcases Relation.ReflTransGen.cases_head hr with heq | ⟨c, hedge, _⟩
  · exact heq.symm
  · obtain ⟨nd, hnd, w, hw, _⟩ := hedge
    rw [hn] at hnd
    obtain rfl := Option.some.inj hnd
    simp [nodeValues] at hw

/-- The entry `(a, k) ↦ vmap b` gives a reference edge. -/
theorem edge_of_map_entry {h : Heap} {a b : Addr} {k : String}
    (he : entryAt h a k = some (.vmap b)) : EdgeH h a b := by
  unfold entryAt at he
  rcases hn : lookupH h a with _ | nd
  · rw [hn] at he; exact absurd he (by simp)
  · cases nd with
    | seq vs => rw [hn] at he; exact absurd he (by simp)
    | map es =>
      rw [hn] at he
      refine ⟨.map es, hn, .vmap b, ?_, rfl⟩
      simp only [nodeValues]
      exact List.mem_map_of_mem Prod.snd (assocFind_mem_pair he)

/-! ### The overwrite step of DigMapping

When the current value at `(a, k)` is not a `Mapping`, `DigMapping`
allocates a fresh empty `Mapping` `n` and assigns `(*m)[k] = n`.  These
are the elementary facts about the resulting heap. -/

theorem ow_lookup_a {h : Heap} {a : Addr} {es : List (String × Value)}
    (hn : lookupH h a = some (.map es)) (k : String) :
    lookupH (updateH ((freshAddr h, Node.map []) :: h) a
        (.map (assocSet es k (.vmap (freshAddr h))))) a
      = some (.map (assocSet es k (.vmap (freshAddr h)))) := by
  have hna : freshAddr h ≠ a := Ne.symm (Nat.ne_of_lt (lookupH_lt_fresh hn))
  have h1 : lookupH ((freshAddr h, Node.map []) :: h) a = some (.map es) := by
    rw [lookupH_cons, if_neg hna]
    exact hn
  exact lookupH_updateH_self _ h1

theorem ow_lookup_n {h : Heap} {a : Addr} {es : List (String × Value)}
    (hn : lookupH h a = some (.map es)) (k : String) :
    lookupH (updateH ((freshAddr h, Node.map []) :: h) a
        (.map (assocSet es k (.vmap (freshAddr h))))) (freshAddr h)
      = some (.map []) := by
  have hna : freshAddr h ≠ a := Ne.symm (Nat.ne_of_lt (lookupH_lt_fresh hn))
  rw [lookupH_updateH_other _ _ hna, lookupH_cons, if_pos rfl]

theorem ow_lookup_other {h : Heap} {a : Addr} {es : List (String × Value)}
    (hn : lookupH h a = some (.map es)) (k : String) {x : Addr}
    (hxa : x ≠ a) (hxn : x ≠ freshAddr h) :
    lookupH (updateH ((freshAddr h, Node.map []) :: h) a
        (.map (assocSet es k (.vmap (freshAddr h))))) x = lookupH h x := by
  rw [lookupH_updateH_other _ _ hxa, lookupH_cons,
    if_neg (fun hh => hxn hh.symm)]

theorem ow_fresh {h : Heap} {a : Addr} {es : List (String × Value)}
    (hn : lookupH h a = some (.map es)) (k : String) :
    freshAddr (updateH ((freshAddr h, Node.map []) :: h) a
        (.map (assocSet es k (.vmap (freshAddr h)))))
      = freshAddr h + 1 := by
  rw [freshAddr_updateH]
  show max (freshAddr h) (heapMax h) + 1 = freshAddr h + 1
  have hle : heapMax h ≤ freshAddr h := Nat.le_succ _
  rw [Nat.max_eq_left hle]

theorem ow_entry {h : Heap} {a : Addr} {es : List (String × Value)}
    (hn : lookupH h a = some (.map es)) (k : String) :
    entryAt (updateH ((freshAddr h, Node.map []) :: h) a
        (.map (assocSet es k (.vmap (freshAddr h))))) a k
      = some (.vmap (freshAddr h)) := by
  rw [entryAt, ow_lookup_a hn k]
  exact assocFind_set_self es k _

/-- `DigMapping` never writes over an entry that holds a `Mapping`: every
assignment it performs happens at an entry whose current value is not a
`Mapping`.  Hence any entry holding a `Mapping` reference anywhere in the
heap survives a `DigMapping` call unchanged. -/
theorem digMapping_preserves_map_entry :
    ∀ (keys : List String) {h : Heap} {a : Addr} {h₁ : Heap} {r : Addr},
    digMapping h a keys = some (h₁, r) →
    ∀ x k b, entryAt h x k = some (.vmap b) → entryAt h₁ x k = some (.vmap b) := by
  intro keys
  induction keys with
  | nil => intro h a h₁ r hd; simp [digMapping] at hd
  | cons k rest ih =>
    intro h a h₁ r hd x k' b hx
    simp only [digMapping] at hd
    rcases hn : lookupH h a with _ | nd
    · simp [hn] at hd
    · cases nd with
      | seq vs => simp [hn] at hd
      | map es =>
        simp only [hn] at hd
        have hstep : (∀ b₀, assocFind es k ≠ some (.vmap b₀)) →
            entryAt (updateH ((freshAddr h, Node.map []) :: h) a
              (.map (assocSet es k (.vmap (freshAddr h))))) x k'
              = some (.vmap b) := by
          intro hne
          by_cases hxa : x = a
          · subst hxa
            have hesx : assocFind es k' = some (.vmap b) := by
              unfold entryAt at hx
              rw [hn] at hx
              exact hx
            unfold entryAt
            rw [ow_lookup_a hn k]
            show assocFind (assocSet es k (.vmap (freshAddr h))) k'
              = some (.vmap b)
            by_cases hk : k' = k
            · subst hk
              exact absurd hesx (hne b)
            · rw [assocFind_set_other es hk]
              exact hesx
          · have hlx : ∃ esx, lookupH h x = some (.map esx) ∧
                assocFind esx k' = some (.vmap b) := by
              unfold entryAt at hx
              rcases hl : lookupH h x with _ | ndx
              · rw [hl] at hx
                exact absurd hx (by simp)
              · cases ndx with
                | seq vs =>
                  rw [hl] at hx
                  exact absurd hx (by simp)
                | map esx =>
                  rw [hl] at hx
                  exact ⟨esx, rfl, hx⟩
            obtain ⟨esx, hlx, hfind⟩ := hlx
            have hxn : x ≠ freshAddr h := Nat.ne_of_lt (lookupH_lt_fresh hlx)
            unfold entryAt
            rw [ow_lookup_other hn k hxa hxn, hlx]
            exact hfind
        rcases hcur : assocFind es k with _ | v
        · simp only [hcur] at hd
          by_cases hrest : rest = []
          · subst hrest
            simp at hd
            obtain ⟨h1, h2⟩ := hd
            subst h1
            exact hstep (by simp [hcur])
          · simp only [if_neg hrest] at hd
            exact ih hd x k' b (hstep (by simp [hcur]))
        · cases v with
          | vmap b₀ =>
            simp only [hcur] at hd
            by_cases hrest : rest = []
            · subst hrest
              simp at hd
              obtain ⟨h1, h2⟩ := hd
              subst h1
              exact hx
            · simp only [if_neg hrest] at hd
              exact ih hd x k' b hx
          | vnull =>
            simp only [hcur] at hd
            by_cases hrest : rest = []
            · subst hrest
              simp at hd
              obtain ⟨h1, h2⟩ := hd
              subst h1
              exact hstep (by simp [hcur])
            · simp only [if_neg hrest] at hd
              exact ih hd x k' b (hstep (by simp [hcur]))
          | vstr s =>
            simp only [hcur] at hd
            by_cases hrest : rest = []
            · subst hrest
              simp at hd
              obtain ⟨h1, h2⟩ := hd
              subst h1
              exact hstep (by simp [hcur])
            · simp only [if_neg hrest] at hd
              exact ih hd x k' b (hstep (by simp [hcur]))
          | vint n =>
            simp only [hcur] at hd
            by_cases hrest : rest = []
            · subst hrest
              simp at hd
              obtain ⟨h1, h2⟩ := hd
              subst h1
              exact hstep (by simp [hcur])
            · simp only [if_neg hrest] at hd
              exact ih hd x k' b (hstep (by simp [hcur]))
          | vbool b2 =>
            simp only [hcur] at hd
            by_cases hrest : rest = []
            · subst hrest
              simp at hd
              obtain ⟨h1, h2⟩ := hd
              subst h1
              exact hstep (by simp [hcur])
            · simp only [if_neg hrest] at hd
              exact ih hd x k' b (hstep (by simp [hcur]))
          | vseq q =>
            simp only [hcur] at hd
            by_cases hrest : rest = []
            · subst hrest
              simp at hd
              obtain ⟨h1, h2⟩ := hd
              subst h1
              exact hstep (by simp [hcur])
            · simp only [if_neg hrest] at hd
              exact ih hd x k' b (hstep (by simp [hcur]))
          | vptr q =>
            simp only [hcur] at hd
            by_cases hrest : rest = []
            · subst hrest
              simp at hd
              obtain ⟨h1, h2⟩ := hd
              subst h1
              exact hstep (by simp [hcur])
            · simp only [if_neg hrest] at hd
              exact ih hd x k' b (hstep (by simp [hcur]))

theorem entryAt_inv {h : Heap} {x : Addr} {k : String} {v : Value}
    (he : entryAt h x k = some v) :
    ∃ es, lookupH h x = some (.map es) ∧ assocFind es k = some v := by
  unfold entryAt at he
  rcases hl : lookupH h x with _ | nd
  · rw [hl] at he
    exact absurd he (by simp)
  · cases nd with
    | seq vs =>
      rw [hl] at he
      exact absurd he (by simp)
    | map es =>
      rw [hl] at he
      exact ⟨es, rfl, he⟩

/-- The master facts about a successful `DigMapping` call on a readable
receiver: the allocation frontier only grows; the returned container is
reachable from the receiver or fresh, and is never the receiver itself;
it is a live map container of the result heap; a write through the
returned reference is then visible to `Dig` along the same path extended
by the written key; and a second identical call is idempotent — it
returns the same container and the same heap, also after such a write. -/
theorem digMapping_master :
    ∀ (keys : List String) {g : Nat} {h : Heap} {a : Addr} {t : Tree}
      {h₁ : Heap} {r : Addr},
    readN g h a = some t → digMapping h a keys = some (h₁, r) →
    freshAddr h ≤ freshAddr h₁ ∧
    (ReachH h a r ∨ freshAddr h ≤ r) ∧
    r ≠ a ∧
    (∃ es₁, lookupH h₁ r = some (.map es₁)) ∧
    (∀ c v, dig (setKey h₁ r c v) a (keys ++ [c]) = v) ∧
    digMapping h₁ a keys = some (h₁, r) ∧
    (∀ c v, digMapping (setKey h₁ r c v) a keys
      = some (setKey h₁ r c v, r)) := by
  intro keys
  induction keys with
  | nil => intro g h a t h₁ r hr hd; simp [digMapping] at hd
  | cons k rest ih =>
    intro g h a t h₁ r hr hd
    obtain ⟨g₁, es, ts, rfl, hninv, hes, rfl⟩ := readV_map_inv hr
    have hreads : ReadsAddr (g₁ + 1) h a := Or.inl ⟨_, hr⟩
    have ha_lt : a < freshAddr h := lookupH_lt_fresh hninv
    simp only [digMapping, hninv] at hd
    by_cases hmap : ∃ b₀, assocFind es k = some (.vmap b₀)
    · -- the current value at (a, k) is already a Mapping
      obtain ⟨b₀, hcur⟩ := hmap
      simp only [hcur] at hd
      have hentry : entryAt h a k = some (.vmap b₀) := by
        unfold entryAt
        rw [hninv]
        exact hcur
      have hedge : EdgeH h a b₀ := edge_of_map_entry hentry
      obtain ⟨tb, htb⟩ : ∃ tb, readV g₁ h (.vmap b₀) = some tb := by
        have := readEntries_mem hes (assocFind_mem_pair hcur)
        exact this
      obtain ⟨gb, esb, tsb, hgb, hlookb, _, _⟩ := readV_map_inv htb
      by_cases hrest : rest = []
      · subst hrest
        simp at hd
        obtain ⟨h1, h2⟩ := hd
        subst h1
        subst h2
        have hne : b₀ ≠ a := by
          intro heq
          exact readable_no_cycle _ a hreads
            (Relation.TransGen.single (heq ▸ hedge))
        refine ⟨le_refl _, Or.inl (Relation.ReflTransGen.single hedge), hne,
          ⟨esb, hlookb⟩, ?_, ?_, ?_⟩
        · intro c v
          have hpres : entryAt (setKey h b₀ c v) a k = some (.vmap b₀) := by
            rw [entryAt_setKey_other v (Or.inl (Ne.symm hne))]
            exact hentry
          rw [List.singleton_append, dig_cons_map hpres (by simp)]
          exact dig_entry_single (entryAt_setKey_self hlookb c v)
        · simp [digMapping, hninv, hcur]
        · intro c v
          have hl' : lookupH (setKey h b₀ c v) a = some (.map es) := by
            rw [lookupH_setKey_other _ c v (Ne.symm hne)]
            exact hninv
          simp [digMapping, hl', hcur]
      · have hd' : digMapping h b₀ rest = some (h₁, r) := by
          simpa [hrest] using hd
        obtain ⟨ih1, ih2, ih3, ih4, ih5, ih6, ih7⟩ := ih htb hd'
        have hne : r ≠ a := by
          rcases ih2 with hrch | hfr
          · intro heq
            exact readable_no_cycle _ a hreads
              (Relation.TransGen.head' hedge (heq ▸ hrch))
          · intro heq
            rw [heq] at hfr
            exact absurd hfr (not_le.mpr ha_lt)
        have hpres1 : entryAt h₁ a k = some (.vmap b₀) :=
          digMapping_preserves_map_entry rest hd' a k b₀ hentry
        refine ⟨ih1, ?_, hne, ih4, ?_, ?_, ?_⟩
        · rcases ih2 with hrch | hfr
          · exact Or.inl (Relation.ReflTransGen.head hedge hrch)
          · exact Or.inr hfr
        · intro c v
          have hpres2 : entryAt (setKey h₁ r c v) a k = some (.vmap b₀) := by
            rw [entryAt_setKey_other v (Or.inl (Ne.symm hne))]
            exact hpres1
          rw [List.cons_append, dig_cons_map hpres2 (by simp [hrest])]
          exact ih5 c v
        · obtain ⟨es₂, hl₂, hf₂⟩ := entryAt_inv hpres1
          simp [digMapping, hl₂, hf₂, hrest, ih6]
        · intro c v
          have hpres2 : entryAt (setKey h₁ r c v) a k = some (.vmap b₀) := by
            rw [entryAt_setKey_other v (Or.inl (Ne.symm hne))]
            exact hpres1
          obtain ⟨es₂, hl₂, hf₂⟩ := entryAt_inv hpres2
          simp [digMapping, hl₂, hf₂, hrest, ih7 c v]
    · -- the current value is absent or not a Mapping: create-or-replace
      have hd2 : (if rest = [] then
          some (updateH ((freshAddr h, Node.map []) :: h) a
            (.map (assocSet es k (.vmap (freshAddr h)))), freshAddr h)
        else digMapping (updateH ((freshAddr h, Node.map []) :: h) a
            (.map (assocSet es k (.vmap (freshAddr h))))) (freshAddr h) rest)
          = some (h₁, r) := by
        rcases hcur : assocFind es k with _ | v
        · simpa only [hcur] using hd
        · cases v with
          | vmap b₀ => exact absurd ⟨b₀, hcur⟩ hmap
          | vnull => simpa only [hcur] using hd
          | vstr s => simpa only [hcur] using hd
          | vint n => simpa only [hcur] using hd
          | vbool b2 => simpa only [hcur] using hd
          | vseq q => simpa only [hcur] using hd
          | vptr q => simpa only [hcur] using hd
      clear hd
      have hlook_a := ow_lookup_a hninv k
      have hlook_n := ow_lookup_n hninv k
      have hfresh := ow_fresh hninv k
      have hentry := ow_entry hninv k
      have hna : freshAddr h ≠ a := Ne.symm (Nat.ne_of_lt ha_lt)
      have hn2read : readN 2 (updateH ((freshAddr h, Node.map []) :: h) a
          (.map (assocSet es k (.vmap (freshAddr h))))) (freshAddr h)
          = some (.tmap []) :=
        readV_map_mk hlook_n (by rfl)
      by_cases hrest : rest = []
      · subst hrest
        rw [if_pos rfl] at hd2
        injection hd2 with hpair
        injection hpair with h1 h2
        subst h1
        subst h2
        refine ⟨by rw [hfresh]; exact Nat.le_succ _, Or.inr (le_refl _),
          Ne.symm (Nat.ne_of_lt ha_lt), ⟨[], hlook_n⟩, ?_, ?_, ?_⟩
        · intro c v
          have hpres : entryAt (setKey
              (updateH ((freshAddr h, Node.map []) :: h) a
                (.map (assocSet es k (.vmap (freshAddr h)))))
              (freshAddr h) c v) a k = some (.vmap (freshAddr h)) := by
            rw [entryAt_setKey_other v (Or.inl (Nat.ne_of_lt ha_lt))]
            exact hentry
          rw [List.singleton_append, dig_cons_map hpres (by simp)]
          exact dig_entry_single (entryAt_setKey_self hlook_n c v)
        · simp [digMapping, hlook_a, assocFind_set_self]
        · intro c v
          have hl' : lookupH (setKey
              (updateH ((freshAddr h, Node.map []) :: h) a
                (.map (assocSet es k (.vmap (freshAddr h)))))
              (freshAddr h) c v) a
              = some (.map (assocSet es k (.vmap (freshAddr h)))) := by
            rw [lookupH_setKey_other _ c v (Nat.ne_of_lt ha_lt)]
            exact hlook_a
          simp [digMapping, hl', assocFind_set_self]
      · rw [if_neg hrest] at hd2
        obtain ⟨ih1, ih2, ih3, ih4, ih5, ih6, ih7⟩ := ih hn2read hd2
        have hfr_r : freshAddr h ≤ r := by
          rcases ih2 with hrch | hfr
          · rw [reach_from_empty hlook_n hrch]
          · rw [hfresh] at hfr
            exact le_trans (Nat.le_succ _) hfr
        have hne : r ≠ a := Nat.ne_of_gt (lt_of_lt_of_le ha_lt hfr_r)
        have hpres1 : entryAt h₁ a k = some (.vmap (freshAddr h)) :=
          digMapping_preserves_map_entry rest hd2 a k _ hentry
        refine ⟨le_trans (by rw [hfresh]; exact Nat.le_succ _) ih1,
          Or.inr hfr_r, hne, ih4, ?_, ?_, ?_⟩
        · intro c v
          have hpres2 : entryAt (setKey h₁ r c v) a k
              = some (.vmap (freshAddr h)) := by
            rw [entryAt_setKey_other v (Or.inl (Ne.symm hne))]
            exact hpres1
          rw [List.cons_append, dig_cons_map hpres2 (by simp [hrest])]
          exact ih5 c v
        · obtain ⟨es₂, hl₂, hf₂⟩ := entryAt_inv hpres1
          simp [digMapping, hl₂, hf₂, hrest, ih6]
        · intro c v
          have hpres2 : entryAt (setKey h₁ r c v) a k
              = some (.vmap (freshAddr h)) := by
            rw [entryAt_setKey_other v (Or.inl (Ne.symm hne))]
            exact hpres1
          obtain ⟨es₂, hl₂, hf₂⟩ := entryAt_inv hpres2
          simp [digMapping, hl₂, hf₂, hrest, ih7 c v]

/-- `Dup` produces a fresh root spelling the same tree, with every
container reachable from it freshly allocated. -/
theorem dupRoot_correct {f g : Nat} {h : Heap} {a : Addr} {t : Tree}
    {h₁ : Heap} {a' : Addr} (hr : readN g h a = some t)
    (hd : dupRoot f h a = some (h₁, a')) :
    readN g h₁ a' = some t ∧ ∀ b, ReachH h₁ a' b → freshAddr h ≤ b := by
  obtain ⟨g₁, es, ts, rfl, hn, hes, rfl⟩ := readV_map_inv hr
  unfold dupRoot at hd
  simp only [hn] at hd
  rcases hce : copyEntries f h es with _ | ⟨h₂, es'⟩
  · simp [hce] at hd
  · simp only [hce, allocH, Option.some.injEq, Prod.mk.injEq] at hd
    obtain ⟨h1, h2⟩ := hd
    subst h1; subst h2
    have hEs2 := (copy_correct_all f).2.1 g₁ h es ts h₂ es' hes hce
    have hAll : HExt h₂ ((freshAddr h₂, Node.map es') :: h₂) :=
      HExt.alloc h₂ (.map es')
    refine ⟨readV_map_mk (by rw [lookupH_cons, if_pos rfl])
      (readEntries_hext hEs2.1 hAll), ?_⟩
    intro b hreach
    rcases Relation.ReflTransGen.cases_head hreach with heq | ⟨c, hedge, hcb⟩
    · rw [← heq]
      exact (copyEntries_ext hce).1
    · obtain ⟨nd, hnd, w, hw, hvw⟩ := hedge
      rw [lookupH_cons, if_pos rfl] at hnd
      obtain rfl := Option.some.inj hnd
      simp only [nodeValues, List.mem_map] at hw
      obtain ⟨p, hp, rfl⟩ := hw
      exact hEs2.2 b (reachEs_hext_down hEs2.1 hAll ⟨p, hp, ⟨c, hvw, hcb⟩⟩)

/-! ## The copy frame -/

theorem entryAt_none_of_fresh {h : Heap} {x : Addr} (hx : freshAddr h ≤ x)
    (k : String) : entryAt h x k = none := by
  unfold entryAt
  rcases hl : lookupH h x with _ | nd
  · rfl
  · exact absurd (lookupH_lt_fresh hl) (not_lt.mpr hx)

theorem CopyFrame.frame_rfl (h : Heap) : CopyFrame h h :=
  ⟨fun _ _ => Eq.refl _,
   fun x k b hx he => by rw [entryAt_none_of_fresh hx k] at he; exact Option.noConfusion he,
   le_refl _⟩

theorem CopyFrame.frame_trans {h h₂ h₃ : Heap} (A : CopyFrame h h₂)
    (B : CopyFrame h₂ h₃) : CopyFrame h h₃ := by
  refine ⟨?_, ?_, le_trans A.2.2 B.2.2⟩
  · intro x hx
    rw [B.1 x (lt_of_lt_of_le hx A.2.2), A.1 x hx]
  · intro x k b hx he
    by_cases hx2 : x < freshAddr h₂
    · have hl : lookupH h₃ x = lookupH h₂ x := B.1 x hx2
      rw [entryAt, hl] at he
      exact A.2.1 x k b hx he
    · exact le_trans A.2.2 (B.2.1 x k b (not_lt.1 hx2) he)

theorem CopyFrame.alloc_map_of {h h₂ : Heap} (A : CopyFrame h h₂)
    {es' : List (String × Value)}
    (hes : ∀ k b, assocFind es' k = some (.vmap b) → freshAddr h ≤ b) :
    CopyFrame h ((freshAddr h₂, Node.map es') :: h₂) := by
  refine ⟨?_, ?_, le_trans A.2.2 (freshAddr_alloc_mono h₂ _)⟩
  · intro x hx
    rw [lookupH_cons,
      if_neg (Nat.ne_of_gt (lt_of_lt_of_le (lt_of_lt_of_le hx A.2.2) (le_refl _)))]
    exact A.1 x hx
  · intro x k b hx he
    by_cases hxf : freshAddr h₂ = x
    · rw [entryAt, lookupH_cons, if_pos hxf] at he
      exact hes k b he
    · rw [entryAt, lookupH_cons, if_neg hxf] at he
      exact A.2.1 x k b hx he

theorem CopyFrame.alloc_seq_of {h h₂ : Heap} (A : CopyFrame h h₂)
    (vs'' : List Value) :
    CopyFrame h ((freshAddr h₂, Node.seq vs'') :: h₂) := by
  refine ⟨?_, ?_, le_trans A.2.2 (freshAddr_alloc_mono h₂ _)⟩
  · intro x hx
    rw [lookupH_cons,
      if_neg (Nat.ne_of_gt (lt_of_lt_of_le hx A.2.2))]
    exact A.1 x hx
  · intro x k b hx he
    by_cases hxf : freshAddr h₂ = x
    · rw [entryAt, lookupH_cons, if_pos hxf] at he
      exact absurd he (by simp)
    · rw [entryAt, lookupH_cons, if_neg hxf] at he
      exact A.2.1 x k b hx he

/-- Every copy satisfies the copy frame, and every `Mapping` reference a
copy returns (directly, or as an entry value of a copied map) is fresh. -/
theorem copy_frame_all : ∀ f : Nat,
    (∀ h v h₁ v', deepCopy f h v = some (h₁, v') →
      CopyFrame h h₁ ∧ ∀ b, v' = .vmap b → freshAddr h ≤ b) ∧
    (∀ h es h₁ es', copyEntries f h es = some (h₁, es') →
      CopyFrame h h₁ ∧
        ∀ k b, assocFind es' k = some (.vmap b) → freshAddr h ≤ b) ∧
    (∀ h vs h₁ vs', copyElems f h vs = some (h₁, vs') → CopyFrame h h₁) ∧
    (∀ h v h₁ v', cleanUpValueH f h v = some (h₁, v') → CopyFrame h h₁) ∧
    (∀ h vs h₁ vs', cleanUpArrH f h vs = some (h₁, vs') → CopyFrame h h₁) := by
  intro f
  induction f with
  | zero =>
    refine ⟨?_, ?_, ?_, ?_, ?_⟩ <;> intro h x h₁ x' hc <;>
      simp [deepCopy, copyEntries, copyElems, cleanUpValueH, cleanUpArrH] at hc
  | succ f ih =>
    obtain ⟨ihV, ihE, ihL, ihC, ihA⟩ := ih
    refine ⟨?_, ?_, ?_, ?_, ?_⟩
    · intro h v h₁ v' hc
      match v with
      | .vnull =>
        simp only [deepCopy, Option.some.injEq, Prod.mk.injEq] at hc
        obtain ⟨h1, h2⟩ := hc
        subst h1; subst h2
        exact ⟨CopyFrame.frame_rfl h, fun b hb => Value.noConfusion hb⟩
      | .vstr s =>
        simp only [deepCopy, Option.some.injEq, Prod.mk.injEq] at hc
        obtain ⟨h1, h2⟩ := hc
        subst h1; subst h2
        exact ⟨CopyFrame.frame_rfl h, fun b hb => Value.noConfusion hb⟩
      | .vint n =>
        simp only [deepCopy, Option.some.injEq, Prod.mk.injEq] at hc
        obtain ⟨h1, h2⟩ := hc
        subst h1; subst h2
        exact ⟨CopyFrame.frame_rfl h, fun b hb => Value.noConfusion hb⟩
      | .vbool b0 =>
        simp only [deepCopy, Option.some.injEq, Prod.mk.injEq] at hc
        obtain ⟨h1, h2⟩ := hc
        subst h1; subst h2
        exact ⟨CopyFrame.frame_rfl h, fun b hb => Value.noConfusion hb⟩
      | .vptr p =>
        simp only [deepCopy, Option.some.injEq, Prod.mk.injEq] at hc
        obtain ⟨h1, h2⟩ := hc
        subst h1; subst h2
        exact ⟨CopyFrame.frame_rfl h, fun b hb => Value.noConfusion hb⟩
      | .vmap a =>
        simp only [deepCopy] at hc
        rcases hn : lookupH h a with _ | nd
        · simp [hn] at hc
        · cases nd with
          | seq vs => simp [hn] at hc
          | map es =>
            simp only [hn] at hc
            rcases hce : copyEntries f h es with _ | ⟨h₂, es'⟩
            · simp [hce] at hc
            · simp only [hce, allocH, Option.some.injEq, Prod.mk.injEq] at hc
              obtain ⟨h1, h2⟩ := hc
              subst h1; subst h2
              obtain ⟨hcf, hesp⟩ := ihE h es h₂ es' hce
              refine ⟨hcf.alloc_map_of hesp, fun b hb => ?_⟩
              obtain rfl : freshAddr h₂ = b := by injection hb
              exact hcf.2.2
      | .vseq a =>
        simp only [deepCopy] at hc
        rcases hn : lookupH h a with _ | nd
        · simp [hn] at hc
        · cases nd with
          | map es => simp [hn] at hc
          | seq vs =>
            simp only [hn] at hc
            rcases hcl : copyElems f h vs with _ | ⟨h₂, vs'⟩
            · simp [hcl] at hc
            · rcases hca : cleanUpArrH f h₂ vs' with _ | ⟨h₃, vs''⟩
              · simp [hcl, hca] at hc
              · simp only [hcl, hca, allocH, Option.some.injEq, Prod.mk.injEq] at hc
                obtain ⟨h1, h2⟩ := hc
                subst h1; subst h2
                refine ⟨CopyFrame.alloc_seq_of
                  ((ihL h vs h₂ vs' hcl).frame_trans (ihA h₂ vs' h₃ vs'' hca)) vs'',
                  fun b hb => Value.noConfusion hb⟩
    · intro h es h₁ es' hc
      match es with
      | [] =>
        simp only [copyEntries, Option.some.injEq, Prod.mk.injEq] at hc
        obtain ⟨h1, h2⟩ := hc
        subst h1; subst h2
        exact ⟨CopyFrame.frame_rfl h, fun k b hb => by simp [assocFind] at hb⟩
      | (k, v) :: es =>
        simp only [copyEntries] at hc
        rcases hdv : deepCopy f h v with _ | ⟨h₂, v₂⟩
        · simp [hdv] at hc
        · rcases hce : copyEntries f h₂ es with _ | ⟨h₃, es₃⟩
          · simp [hdv, hce] at hc
          · simp only [hdv, hce, Option.some.injEq, Prod.mk.injEq] at hc
            obtain ⟨h1, h2⟩ := hc
            subst h1; subst h2
            obtain ⟨hcfV, hvp⟩ := ihV h v h₂ v₂ hdv
            obtain ⟨hcfE, hesp⟩ := ihE h₂ es h₃ es₃ hce
            refine ⟨hcfV.frame_trans hcfE, fun k' b hb => ?_⟩
            by_cases hk : k = k'
            · subst hk
              rw [show assocFind ((k, v₂) :: es₃) k = some v₂ from by
                simp [assocFind]] at hb
              exact hvp b (Option.some.inj hb)
            · simp only [assocFind, hk, if_false] at hb
              exact le_trans hcfV.2.2 (hesp k' b hb)
    · intro h vs h₁ vs' hc
      match vs with
      | [] =>
        simp only [copyElems, Option.some.injEq, Prod.mk.injEq] at hc
        obtain ⟨h1, h2⟩ := hc
        subst h1; subst h2
        exact CopyFrame.frame_rfl h
      | v :: vs =>
        simp only [copyElems] at hc
        rcases hdv : deepCopy f h v with _ | ⟨h₂, v₂⟩
        · simp [hdv] at hc
        · rcases hce : copyElems f h₂ vs with _ | ⟨h₃, vs₃⟩
          · simp [hdv, hce] at hc
          · simp only [hdv, hce, Option.some.injEq, Prod.mk.injEq] at hc
            obtain ⟨h1, h2⟩ := hc
            subst h1; subst h2
            exact (ihV h v h₂ v₂ hdv).1.frame_trans (ihL h₂ vs h₃ vs₃ hce)
    · intro h v h₁ v' hc
      match v with
      | .vnull | .vstr _ | .vint _ | .vbool _ | .vmap _ | .vptr _ =>
        simp only [cleanUpValueH, Option.some.injEq, Prod.mk.injEq] at hc
        obtain ⟨h1, h2⟩ := hc
        subst h1; subst h2
        exact CopyFrame.frame_rfl h
      | .vseq a =>
        simp only [cleanUpValueH] at hc
        rcases hn : lookupH h a with _ | nd
        · simp [hn] at hc
        · cases nd with
          | map es => simp [hn] at hc
          | seq vs =>
            simp only [hn] at hc
            rcases hca : cleanUpArrH f h vs with _ | ⟨h₂, vs'⟩
            · simp [hca] at hc
            · simp only [hca, allocH, Option.some.injEq, Prod.mk.injEq] at hc
              obtain ⟨h1, h2⟩ := hc
              subst h1; subst h2
              exact CopyFrame.alloc_seq_of (ihA h vs h₂ vs' hca) vs'
    · intro h vs h₁ vs' hc
      match vs with
      | [] =>
        simp only [cleanUpArrH, Option.some.injEq, Prod.mk.injEq] at hc
        obtain ⟨h1, h2⟩ := hc
        subst h1; subst h2
        exact CopyFrame.frame_rfl h
      | v :: vs =>
        simp only [cleanUpArrH] at hc
        rcases hdv : cleanUpValueH f h v with _ | ⟨h₂, v₂⟩
        · simp [hdv] at hc
        · rcases hce : cleanUpArrH f h₂ vs with _ | ⟨h₃, vs₃⟩
          · simp [hdv, hce] at hc
          · simp only [hdv, hce, Option.some.injEq, Prod.mk.injEq] at hc
            obtain ⟨h1, h2⟩ := hc
            subst h1; subst h2
            exact (ihC h v h₂ v₂ hdv).frame_trans (ihA h₂ vs h₃ vs₃ hce)

theorem deepCopy_frame {f : Nat} {h : Heap} {v : Value} {h₁ : Heap}
    {v' : Value} (hc : deepCopy f h v = some (h₁, v')) :
    CopyFrame h h₁ ∧ ∀ b, v' = .vmap b → freshAddr h ≤ b :=
  (copy_frame_all f).1 h v h₁ v' hc

theorem dupRoot_frame {f : Nat} {h : Heap} {a : Addr} {h₁ : Heap}
    {a' : Addr} (hd : dupRoot f h a = some (h₁, a')) :
    CopyFrame h h₁ ∧ freshAddr h ≤ a' := by
  unfold dupRoot at hd
  rcases hn : lookupH h a with _ | nd
  · simp [hn] at hd
  · cases nd with
    | seq vs => simp [hn] at hd
    | map es =>
      simp only [hn] at hd
      rcases hce : copyEntries f h es with _ | ⟨h₂, es'⟩
      · simp [hce] at hd
      · simp only [hce, allocH, Option.some.injEq, Prod.mk.injEq] at hd
        obtain ⟨h1, h2⟩ := hd
        subst h1; subst h2
        obtain ⟨hcf, hesp⟩ := (copy_frame_all f).2.1 h es h₂ es' hce
        exact ⟨hcf.alloc_map_of hesp, hcf.2.2⟩

/-! ## Merge leaves Mapping references originals-or-fresh -/

theorem VmapExt.vext_rfl (h : Heap) : VmapExt h h :=
  ⟨fun _ _ _ he => Or.inl he, le_refl _⟩

theorem VmapExt.vext_trans {h h₂ h₃ : Heap} (A : VmapExt h h₂) (B : VmapExt h₂ h₃) :
    VmapExt h h₃ := by
  refine ⟨fun x k b he => ?_, le_trans A.2 B.2⟩
  rcases B.1 x k b he with he₂ | hf
  · exact A.1 x k b he₂
  · exact Or.inr (le_trans A.2 hf)

theorem VmapExt.of_copyFrame {h h₁ : Heap} (A : CopyFrame h h₁) :
    VmapExt h h₁ := by
  refine ⟨fun x k b he => ?_, A.2.2⟩
  by_cases hx : x < freshAddr h
  · left
    rw [entryAt, ← A.1 x hx]
    exact he
  · exact Or.inr (A.2.1 x k b (not_lt.1 hx) he)

theorem VmapExt.setKey_of {h h₂ : Heap} (A : VmapExt h h₂) {tA : Addr}
    {k : String} {v : Value}
    (hv : ∀ b', v = .vmap b' → freshAddr h ≤ b') :
    VmapExt h (setKey h₂ tA k v) := by
  refine ⟨fun x k' b he => ?_, by rw [freshAddr_setKey]; exact A.2⟩
  by_cases hxk : x = tA ∧ k' = k
  · obtain ⟨rfl, rfl⟩ := hxk
    unfold setKey at he
    rcases hn : lookupH h₂ x with _ | nd
    · rw [hn] at he
      exact A.1 x k' b he
    · cases nd with
      | seq vs =>
        rw [hn] at he
        exact A.1 x k' b he
      | map es =>
        rw [hn] at he
        rw [entryAt, lookupH_updateH_self _ hn] at he
        have he' : assocFind (assocSet es k' v) k' = some (.vmap b) := he
        rw [assocFind_set_self] at he'
        exact Or.inr (hv b (Option.some.inj he'))
  · rw [entryAt_setKey_other v (by
      rcases not_and_or.1 hxk with hx | hk
      · exact Or.inl hx
      · exact Or.inr hk)] at he
    exact A.1 x k' b he

/-- After a `Merge`, every `Mapping`-valued map entry anywhere in the
heap either already had that value or refers to a freshly allocated
container: `Merge` writes only freshly-duplicated `Mapping` references. -/
theorem merge_vmapext_all : ∀ f : Nat,
    (∀ h tA sA ow ni h', mergeH f h tA sA ow ni = some h' → VmapExt h h') ∧
    (∀ h tA es ow ni h', mergeEntries f h tA es ow ni = some h' →
      VmapExt h h') := by
  intro f
  induction f with
  | zero =>
    constructor <;> intro h tA x ow ni h' hm <;>
      simp [mergeH, mergeEntries] at hm
  | succ f ih =>
    obtain ⟨ihM, ihE⟩ := ih
    constructor
    · intro h tA sA ow ni h' hm
      simp only [mergeH] at hm
      rcases hn : lookupH h sA with _ | nd
      · simp [hn] at hm
      · cases nd with
        | seq vs => simp [hn] at hm
        | map ses =>
          simp only [hn] at hm
          exact ihE h tA ses ow ni h' hm
    · intro h tA es ow ni h' hm
      match es with
      | [] =>
        simp only [mergeEntries, Option.some.injEq] at hm
        exact hm ▸ VmapExt.vext_rfl h
      | (k, v) :: rest =>
        simp only [mergeEntries] at hm
        match v with
        | .vmap aSrc =>
          rcases he : entryAt h tA k with _ | w
          · simp only [he] at hm
            rcases hd : dupRoot f h aSrc with _ | ⟨h₁, b⟩
            · simp [hd] at hm
            · simp only [hd] at hm
              obtain ⟨hcf, hfb⟩ := dupRoot_frame hd
              exact ((VmapExt.of_copyFrame hcf).setKey_of
                (fun b' hb => by obtain rfl := Value.vmap.inj hb; exact hfb)).vext_trans
                (ihE _ tA rest ow ni h' hm)
          · match w with
            | .vmap aDst =>
              simp only [he] at hm
              rcases hr : mergeH f h aDst aSrc ow ni with _ | h₁
              · simp [hr] at hm
              · simp only [hr] at hm
                exact (ihM h aDst aSrc ow ni h₁ hr).vext_trans
                  (ihE h₁ tA rest ow ni h' hm)
            | .vnull | .vstr _ | .vint _ | .vbool _ | .vseq _ | .vptr _ =>
              simp only [he] at hm
              cases ow with
              | true =>
                rw [if_pos rfl] at hm
                rcases hd : dupRoot f h aSrc with _ | ⟨h₁, b⟩
                · simp [hd] at hm
                · simp only [hd] at hm
                  obtain ⟨hcf, hfb⟩ := dupRoot_frame hd
                  exact ((VmapExt.of_copyFrame hcf).setKey_of
                    (fun b' hb => by obtain rfl := Value.vmap.inj hb; exact hfb)).vext_trans
                    (ihE _ tA rest true ni h' hm)
              | false =>
                rw [if_neg (by simp)] at hm
                exact ihE h tA rest false ni h' hm
        | .vnull =>
          cases ni with
          | true =>
            rw [if_pos rfl] at hm
            exact ((VmapExt.vext_rfl h).setKey_of
              (fun b' hb => Value.noConfusion hb)).vext_trans
              (ihE _ tA rest ow true h' hm)
          | false =>
            rw [if_neg (by simp)] at hm
            exact ihE h tA rest ow false h' hm
        | .vstr s =>
          by_cases hck : (!hasKeyH h tA k || ow) = true
          · simp only [hck, if_true] at hm
            rcases hd : deepCopy f h (.vstr s) with _ | ⟨h₁, v'⟩
            · simp [hd] at hm
            · simp only [hd] at hm
              obtain ⟨hcf, hvp⟩ := deepCopy_frame hd
              exact ((VmapExt.of_copyFrame hcf).setKey_of hvp).vext_trans
                (ihE _ tA rest ow ni h' hm)
          · simp only [hck, if_false] at hm
            exact ihE h tA rest ow ni h' hm
        | .vint n =>
          by_cases hck : (!hasKeyH h tA k || ow) = true
          · simp only [hck, if_true] at hm
            rcases hd : deepCopy f h (.vint n) with _ | ⟨h₁, v'⟩
            · simp [hd] at hm
            · simp only [hd] at hm
              obtain ⟨hcf, hvp⟩ := deepCopy_frame hd
              exact ((VmapExt.of_copyFrame hcf).setKey_of hvp).vext_trans
                (ihE _ tA rest ow ni h' hm)
          · simp only [hck, if_false] at hm
            exact ihE h tA rest ow ni h' hm
        | .vbool b2 =>
          by_cases hck : (!hasKeyH h tA k || ow) = true
          · simp only [hck, if_true] at hm
            rcases hd : deepCopy f h (.vbool b2) with _ | ⟨h₁, v'⟩
            · simp [hd] at hm
            · simp only [hd] at hm
              obtain ⟨hcf, hvp⟩ := deepCopy_frame hd
              exact ((VmapExt.of_copyFrame hcf).setKey_of hvp).vext_trans
                (ihE _ tA rest ow ni h' hm)
          · simp only [hck, if_false] at hm
            exact ihE h tA rest ow ni h' hm
        | .vseq q =>
          by_cases hck : (!hasKeyH h tA k || ow) = true
          · simp only [hck, if_true] at hm
            rcases hd : deepCopy f h (.vseq q) with _ | ⟨h₁, v'⟩
            · simp [hd] at hm
            · simp only [hd] at hm
              obtain ⟨hcf, hvp⟩ := deepCopy_frame hd
              exact ((VmapExt.of_copyFrame hcf).setKey_of hvp).vext_trans
                (ihE _ tA rest ow ni h' hm)
          · simp only [hck, if_false] at hm
            exact ihE h tA rest ow ni h' hm
        | .vptr q =>
          by_cases hck : (!hasKeyH h tA k || ow) = true
          · simp only [hck, if_true] at hm
            rcases hd : deepCopy f h (.vptr q) with _ | ⟨h₁, v'⟩
            · simp [hd] at hm
            · simp only [hd] at hm
              obtain ⟨hcf, hvp⟩ := deepCopy_frame hd
              exact ((VmapExt.of_copyFrame hcf).setKey_of hvp).vext_trans
                (ihE _ tA rest ow ni h' hm)
          · simp only [hck, if_false] at hm
            exact ihE h tA rest ow ni h' hm


/-! ## Mapping-entry edges and their transfer across a merge -/

theorem medge_of_entry {h : Heap} {a b : Addr} {k : String}
    (he : entryAt h a k = some (.vmap b)) : MEdgeH h a b := by
  obtain ⟨es, hl, hf⟩ := entryAt_inv he
  exact ⟨es, k, hl, hf⟩

theorem entry_of_medge {h : Heap} {a b : Addr} (he : MEdgeH h a b) :
    ∃ k, entryAt h a k = some (.vmap b) := by
  obtain ⟨es, k, hl, hf⟩ := he
  refine ⟨k, ?_⟩
  unfold entryAt
  rw [hl]
  exact hf

theorem medge_to_edge {h : Heap} {a b : Addr} (he : MEdgeH h a b) :
    EdgeH h a b := by
  obtain ⟨k, hk⟩ := entry_of_medge he
  exact edge_of_map_entry hk

theorem mreach_le_reach {h : Heap} {a b : Addr} (hr : MReachH h a b) :
    ReachH h a b :=
  Relation.ReflTransGen.mono (fun _ _ he => medge_to_edge he) hr

/-- Across a `VmapExt` step, a `Mapping`-entry path is made of original
edges until it enters the fresh region, which it never leaves. -/
theorem mreach_transfer {h h₁ : Heap} (V : VmapExt h h₁) {a z : Addr}
    (hr : MReachH h₁ a z) : MReachH h a z ∨ freshAddr h ≤ z := by
  induction hr with
  | refl => exact Or.inl Relation.ReflTransGen.refl
  | tail hxy hstep ih =>
    obtain ⟨k, hk⟩ := entry_of_medge hstep
    rcases V.1 _ k _ hk with ho | hf
    · rcases ih with ihl | ihf
      · exact Or.inl (ihl.tail (medge_of_entry ho))
      · exact absurd ho (by rw [entryAt_none_of_fresh ihf k]; simp)
    · exact Or.inr hf

theorem mtransgen_transfer {h h₁ : Heap} (V : VmapExt h h₁) {a z : Addr}
    (hr : Relation.TransGen (MEdgeH h₁) a z) :
    Relation.TransGen (MEdgeH h) a z ∨ freshAddr h ≤ z := by
  induction hr with
  | single hstep =>
    obtain ⟨k, hk⟩ := entry_of_medge hstep
    rcases V.1 _ k _ hk with ho | hf
    · exact Or.inl (Relation.TransGen.single (medge_of_entry ho))
    · exact Or.inr hf
  | tail hxy hstep ih =>
    obtain ⟨k, hk⟩ := entry_of_medge hstep
    rcases V.1 _ k _ hk with ho | hf
    · rcases ih with ihl | ihf
      · exact Or.inl (ihl.tail (medge_of_entry ho))
      · exact absurd ho (by rw [entryAt_none_of_fresh ihf k]; simp)
    · exact Or.inr hf

theorem no_mcycle_transfer {h h₁ : Heap} (V : VmapExt h h₁) {tA : Addr}
    (htlt : tA < freshAddr h)
    (hnc : ¬ Relation.TransGen (MEdgeH h) tA tA) :
    ¬ Relation.TransGen (MEdgeH h₁) tA tA := by
  intro hcyc
  rcases mtransgen_transfer V hcyc with hc | hf
  · exact hnc hc
  · exact absurd htlt (not_lt.mpr hf)

theorem not_mreach_transfer {h h₁ : Heap} (V : VmapExt h h₁) {tA z : Addr}
    (hzlt : z < freshAddr h) (hz : ¬ MReachH h tA z) : ¬ MReachH h₁ tA z := by
  intro hr
  rcases mreach_transfer V hr with hc | hf
  · exact hz hc
  · exact absurd hzlt (not_lt.mpr hf)

/-! ## Small bridging lemmas for writes -/

theorem entryAt_eq_of_lookup_eq {h h₁ : Heap} {a : Addr}
    (hl : lookupH h₁ a = lookupH h a) (k : String) :
    entryAt h₁ a k = entryAt h a k := by
  unfold entryAt
  rw [hl]

theorem lookup_setKey_map {h : Heap} {tA : Addr} {es : List (String × Value)}
    (hl : lookupH h tA = some (.map es)) (a : Addr) (k : String) (v : Value) :
    ∃ es₂, lookupH (setKey h a k v) tA = some (.map es₂) := by
  by_cases ha : tA = a
  · subst ha
    unfold setKey
    rcases hn : lookupH h tA with _ | nd
    · rw [hn] at hl
      exact Option.noConfusion hl
    · cases nd with
      | seq vs => rw [hn] at hl; exact absurd hl (by simp)
      | map es₃ => exact ⟨_, lookupH_updateH_self _ hn⟩
  · rw [lookupH_setKey_other h k v ha]
    exact ⟨es, hl⟩

theorem deepCopy_scalar {f : Nat} {h : Heap} {v : Value}
    (hv : isScalar v = true) {h₁ : Heap} {v' : Value}
    (hc : deepCopy f h v = some (h₁, v')) : h₁ = h ∧ v' = v := by
  match f, v, hv with
  | 0, v, hv => simp [deepCopy] at hc
  | f + 1, .vstr s, _ =>
    simp only [deepCopy, Option.some.injEq, Prod.mk.injEq] at hc
    exact ⟨hc.1.symm, hc.2.symm⟩
  | f + 1, .vint n, _ =>
    simp only [deepCopy, Option.some.injEq, Prod.mk.injEq] at hc
    exact ⟨hc.1.symm, hc.2.symm⟩
  | f + 1, .vbool b0, _ =>
    simp only [deepCopy, Option.some.injEq, Prod.mk.injEq] at hc
    exact ⟨hc.1.symm, hc.2.symm⟩

theorem assocSet_values {es : List (String × Value)} {k : String} {v w : Value}
    (hw : w ∈ (assocSet es k v).map Prod.snd) :
    w ∈ es.map Prod.snd ∨ w = v := by
  unfold assocSet at hw
  by_cases hs : (assocFind es k).isSome
  · rw [if_pos hs] at hw
    obtain ⟨q, hq, hqw⟩ := List.mem_map.1 hw
    obtain ⟨p, hp, hpq⟩ := List.mem_map.1 hq
    by_cases hpk : p.1 = k
    · rw [if_pos hpk] at hpq
      right
      rw [← hqw, ← hpq]
    · rw [if_neg hpk] at hpq
      left
      rw [← hqw, ← hpq]
      exact List.mem_map_of_mem Prod.snd hp
  · rw [if_neg hs] at hw
    rw [List.map_append] at hw
    rcases List.mem_append.1 hw with h1 | h2
    · exact Or.inl h1
    · right
      simpa using h2

theorem edge_setKey_inv {h : Heap} {a : Addr} {k : String} {v : Value}
    {x y : Addr} (he : EdgeH (setKey h a k v) x y) :
    EdgeH h x y ∨ (x = a ∧ valAddr v = some y) := by
  unfold setKey at he
  rcases hl : lookupH h a with _ | nd
  · rw [hl] at he; exact Or.inl he
  · cases nd with
    | seq vs => rw [hl] at he; exact Or.inl he
    | map es =>
      rw [hl] at he
      obtain ⟨nd₂, hnd, w, hw, hvw⟩ := he
      by_cases hx : x = a
      · subst hx
        rw [lookupH_updateH_self _ hl] at hnd
        obtain rfl := Option.some.inj hnd
        rcases assocSet_values (show w ∈ (assocSet es k v).map Prod.snd from hw)
            with hold | rfl
        · exact Or.inl ⟨.map es, hl, w, hold, hvw⟩
        · exact Or.inr ⟨rfl, hvw⟩
      · rw [lookupH_updateH_other h _ hx] at hnd
        exact Or.inl ⟨nd₂, hnd, w, hw, hvw⟩

theorem edge_of_lookup_eq {h h₁ : Heap} {x y : Addr}
    (hl : lookupH h₁ x = lookupH h x) (he : EdgeH h₁ x y) : EdgeH h x y := by
  obtain ⟨nd, hnd, w, hw, hvw⟩ := he
  exact ⟨nd, hl ▸ hnd, w, hw, hvw⟩

/-! ## The merge frame: only the target spine and fresh containers change -/

/-- `Merge` writes only to containers on the target's `Mapping`-entry
spine or freshly allocated ones: an old container not `MReach`able from
the target keeps its exact contents. -/
theorem merge_frame_all : ∀ f : Nat,
    (∀ h tA sA ow ni h', mergeH f h tA sA ow ni = some h' →
      ∀ z, ¬ MReachH h tA z → z < freshAddr h → lookupH h' z = lookupH h z) ∧
    (∀ h tA es ow ni h', mergeEntries f h tA es ow ni = some h' →
      ∀ z, ¬ MReachH h tA z → z < freshAddr h → lookupH h' z = lookupH h z) := by
  intro f
  induction f with
  | zero =>
    constructor <;> intro h tA x ow ni h' hm <;>
      simp [mergeH, mergeEntries] at hm
  | succ f ih =>
    obtain ⟨ihM, ihE⟩ := ih
    constructor
    · intro h tA sA ow ni h' hm z hz hzlt
      simp only [mergeH] at hm
      rcases hn : lookupH h sA with _ | nd
      · simp [hn] at hm
      · cases nd with
        | seq vs => simp [hn] at hm
        | map ses =>
          simp only [hn] at hm
          exact ihE h tA ses ow ni h' hm z hz hzlt
    · intro h tA es ow ni h' hm z hz hzlt
      have hztA : z ≠ tA := fun hzeq =>
        hz (by rw [hzeq]; exact Relation.ReflTransGen.refl)
      match es with
      | [] =>
        simp only [mergeEntries, Option.some.injEq] at hm
        rw [hm]
      | (k, v) :: rest =>
        simp only [mergeEntries] at hm
        match v with
        | .vmap aSrc =>
          rcases he : entryAt h tA k with _ | w
          · simp only [he] at hm
            rcases hd : dupRoot f h aSrc with _ | ⟨h₁, b⟩
            · simp [hd] at hm
            · simp only [hd] at hm
              obtain ⟨hcf, hfb⟩ := dupRoot_frame hd
              have V : VmapExt h (setKey h₁ tA k (.vmap b)) :=
                (VmapExt.of_copyFrame hcf).setKey_of
                  (fun b₂ hb => by obtain rfl := Value.vmap.inj hb; exact hfb)
              have l3 := ihE _ tA rest ow ni h' hm z
                (not_mreach_transfer V hzlt hz) (lt_of_lt_of_le hzlt V.2)
              rw [l3, lookupH_setKey_other h₁ k _ hztA, hcf.1 z hzlt]
          · match w with
            | .vmap aDst =>
              simp only [he] at hm
              rcases hr : mergeH f h aDst aSrc ow ni with _ | h₁
              · simp [hr] at hm
              · simp only [hr] at hm
                have hzd : ¬ MReachH h aDst z := fun hreach =>
                  hz (Relation.ReflTransGen.head (medge_of_entry he) hreach)
                have V := (merge_vmapext_all f).1 h aDst aSrc ow ni h₁ hr
                have l2 := ihE h₁ tA rest ow ni h' hm z
                  (not_mreach_transfer V hzlt hz) (lt_of_lt_of_le hzlt V.2)
                rw [l2, ihM h aDst aSrc ow ni h₁ hr z hzd hzlt]
            | .vnull | .vstr _ | .vint _ | .vbool _ | .vseq _ | .vptr _ =>
              simp only [he] at hm
              cases ow with
              | true =>
                rw [if_pos rfl] at hm
                rcases hd : dupRoot f h aSrc with _ | ⟨h₁, b⟩
                · simp [hd] at hm
                · simp only [hd] at hm
                  obtain ⟨hcf, hfb⟩ := dupRoot_frame hd
                  have V : VmapExt h (setKey h₁ tA k (.vmap b)) :=
                    (VmapExt.of_copyFrame hcf).setKey_of
                      (fun b₂ hb => by obtain rfl := Value.vmap.inj hb; exact hfb)
                  have l3 := ihE _ tA rest true ni h' hm z
                    (not_mreach_transfer V hzlt hz) (lt_of_lt_of_le hzlt V.2)
                  rw [l3, lookupH_setKey_other h₁ k _ hztA, hcf.1 z hzlt]
              | false =>
                rw [if_neg (by simp)] at hm
                exact ihE h tA rest false ni h' hm z hz hzlt
        | .vnull =>
          cases ni with
          | true =>
            rw [if_pos rfl] at hm
            have V : VmapExt h (setKey h tA k .vnull) :=
              (VmapExt.vext_rfl h).setKey_of (fun b₂ hb => Value.noConfusion hb)
            have l2 := ihE _ tA rest ow true h' hm z
              (not_mreach_transfer V hzlt hz) (lt_of_lt_of_le hzlt V.2)
            rw [l2, lookupH_setKey_other h k _ hztA]
          | false =>
            rw [if_neg (by simp)] at hm
            exact ihE h tA rest ow false h' hm z hz hzlt
        | .vstr s =>
          by_cases hck : (!hasKeyH h tA k || ow) = true
          · simp only [hck, if_true] at hm
            rcases hd : deepCopy f h (.vstr s) with _ | ⟨h₁, v₂⟩
            · simp [hd] at hm
            · simp only [hd] at hm
              obtain ⟨hcf, hvp⟩ := deepCopy_frame hd
              have V : VmapExt h (setKey h₁ tA k v₂) :=
                (VmapExt.of_copyFrame hcf).setKey_of hvp
              have l3 := ihE _ tA rest ow ni h' hm z
                (not_mreach_transfer V hzlt hz) (lt_of_lt_of_le hzlt V.2)
              rw [l3, lookupH_setKey_other h₁ k _ hztA, hcf.1 z hzlt]
          · simp only [hck, if_false] at hm
            exact ihE h tA rest ow ni h' hm z hz hzlt
        | .vint n =>
          by_cases hck : (!hasKeyH h tA k || ow) = true
          · simp only [hck, if_true] at hm
            rcases hd : deepCopy f h (.vint n) with _ | ⟨h₁, v₂⟩
            · simp [hd] at hm
            · simp only [hd] at hm
              obtain ⟨hcf, hvp⟩ := deepCopy_frame hd
              have V : VmapExt h (setKey h₁ tA k v₂) :=
                (VmapExt.of_copyFrame hcf).setKey_of hvp
              have l3 := ihE _ tA rest ow ni h' hm z
                (not_mreach_transfer V hzlt hz) (lt_of_lt_of_le hzlt V.2)
              rw [l3, lookupH_setKey_other h₁ k _ hztA, hcf.1 z hzlt]
          · simp only [hck, if_false] at hm
            exact ihE h tA rest ow ni h' hm z hz hzlt
        | .vbool b2 =>
          by_cases hck : (!hasKeyH h tA k || ow) = true
          · simp only [hck, if_true] at hm
            rcases hd : deepCopy f h (.vbool b2) with _ | ⟨h₁, v₂⟩
            · simp [hd] at hm
            · simp only [hd] at hm
              obtain ⟨hcf, hvp⟩ := deepCopy_frame hd
              have V : VmapExt h (setKey h₁ tA k v₂) :=
                (VmapExt.of_copyFrame hcf).setKey_of hvp
              have l3 := ihE _ tA rest ow ni h' hm z
                (not_mreach_transfer V hzlt hz) (lt_of_lt_of_le hzlt V.2)
              rw [l3, lookupH_setKey_other h₁ k _ hztA, hcf.1 z hzlt]
          · simp only [hck, if_false] at hm
            exact ihE h tA rest ow ni h' hm z hz hzlt
        | .vseq q =>
          by_cases hck : (!hasKeyH h tA k || ow) = true
          · simp only [hck, if_true] at hm
            rcases hd : deepCopy f h (.vseq q) with _ | ⟨h₁, v₂⟩
            · simp [hd] at hm
            · simp only [hd] at hm
              obtain ⟨hcf, hvp⟩ := deepCopy_frame hd
              have V : VmapExt h (setKey h₁ tA k v₂) :=
                (VmapExt.of_copyFrame hcf).setKey_of hvp
              have l3 := ihE _ tA rest ow ni h' hm z
                (not_mreach_transfer V hzlt hz) (lt_of_lt_of_le hzlt V.2)
              rw [l3, lookupH_setKey_other h₁ k _ hztA, hcf.1 z hzlt]
          · simp only [hck, if_false] at hm
            exact ihE h tA rest ow ni h' hm z hz hzlt
        | .vptr q =>
          by_cases hck : (!hasKeyH h tA k || ow) = true
          · simp only [hck, if_true] at hm
            rcases hd : deepCopy f h (.vptr q) with _ | ⟨h₁, v₂⟩
            · simp [hd] at hm
            · simp only [hd] at hm
              obtain ⟨hcf, hvp⟩ := deepCopy_frame hd
              have V : VmapExt h (setKey h₁ tA k v₂) :=
                (VmapExt.of_copyFrame hcf).setKey_of hvp
              have l3 := ihE _ tA rest ow ni h' hm z
                (not_mreach_transfer V hzlt hz) (lt_of_lt_of_le hzlt V.2)
              rw [l3, lookupH_setKey_other h₁ k _ hztA, hcf.1 z hzlt]
          · simp only [hck, if_false] at hm
            exact ihE h tA rest ow ni h' hm z hz hzlt


/-! ## Entry at a key not named by the processed source entries -/

/-- Processing source entries whose keys all differ from `k` never
changes the target's entry at `k` (on a cycle-free target). -/
theorem mergeEntries_other_keys : ∀ f : Nat,
    ∀ h tA es ow ni h' k, mergeEntries f h tA es ow ni = some h' →
    ¬ Relation.TransGen (MEdgeH h) tA tA → tA < freshAddr h →
    (∀ p ∈ es, p.1 ≠ k) →
    entryAt h' tA k = entryAt h tA k := by
  intro f
  induction f with
  | zero =>
    intro h tA es ow ni h' k hm
    simp [mergeEntries] at hm
  | succ f ih =>
    intro h tA es ow ni h' k hm hnc htlt hko
    match es with
    | [] =>
      simp only [mergeEntries, Option.some.injEq] at hm
      rw [hm]
    | (k₁, v) :: rest =>
      have hk1 : k₁ ≠ k := hko (k₁, v) (List.mem_cons_self _ _)
      have hko2 : ∀ p ∈ rest, p.1 ≠ k := fun p hp =>
        hko p (List.mem_cons_of_mem _ hp)
      simp only [mergeEntries] at hm
      match v with
      | .vmap aSrc =>
        rcases he : entryAt h tA k₁ with _ | w
        · simp only [he] at hm
          rcases hd : dupRoot f h aSrc with _ | ⟨h₁, b⟩
          · simp [hd] at hm
          · simp only [hd] at hm
            obtain ⟨hcf, hfb⟩ := dupRoot_frame hd
            have V : VmapExt h (setKey h₁ tA k₁ (.vmap b)) :=
              (VmapExt.of_copyFrame hcf).setKey_of
                (fun b₂ hb => by obtain rfl := Value.vmap.inj hb; exact hfb)
            have rec := ih _ tA rest ow ni h' k hm
              (no_mcycle_transfer V htlt hnc) (lt_of_lt_of_le htlt V.2) hko2
            rw [rec, entryAt_setKey_other _ (Or.inr (Ne.symm hk1)),
              entryAt_eq_of_lookup_eq (hcf.1 tA htlt) k]
        · match w with
          | .vmap aDst =>
            simp only [he] at hm
            rcases hr : mergeH f h aDst aSrc ow ni with _ | h₁
            · simp [hr] at hm
            · simp only [hr] at hm
              have hnd : ¬ MReachH h aDst tA := fun hreach =>
                hnc (Relation.TransGen.head'_iff.2
                  ⟨aDst, medge_of_entry he, hreach⟩)
              have l1 : lookupH h₁ tA = lookupH h tA :=
                (merge_frame_all f).1 h aDst aSrc ow ni h₁ hr tA hnd htlt
              have V := (merge_vmapext_all f).1 h aDst aSrc ow ni h₁ hr
              have rec := ih h₁ tA rest ow ni h' k hm
                (no_mcycle_transfer V htlt hnc) (lt_of_lt_of_le htlt V.2) hko2
              rw [rec, entryAt_eq_of_lookup_eq l1 k]
          | .vnull | .vstr _ | .vint _ | .vbool _ | .vseq _ | .vptr _ =>
            simp only [he] at hm
            cases ow with
            | true =>
              rw [if_pos rfl] at hm
              rcases hd : dupRoot f h aSrc with _ | ⟨h₁, b⟩
              · simp [hd] at hm
              · simp only [hd] at hm
                obtain ⟨hcf, hfb⟩ := dupRoot_frame hd
                have V : VmapExt h (setKey h₁ tA k₁ (.vmap b)) :=
                  (VmapExt.of_copyFrame hcf).setKey_of
                    (fun b₂ hb => by obtain rfl := Value.vmap.inj hb; exact hfb)
                have rec := ih _ tA rest true ni h' k hm
                  (no_mcycle_transfer V htlt hnc) (lt_of_lt_of_le htlt V.2) hko2
                rw [rec, entryAt_setKey_other _ (Or.inr (Ne.symm hk1)),
                  entryAt_eq_of_lookup_eq (hcf.1 tA htlt) k]
            | false =>
              rw [if_neg (by simp)] at hm
              exact ih h tA rest false ni h' k hm hnc htlt hko2
      | .vnull =>
        cases ni with
        | true =>
          rw [if_pos rfl] at hm
          have V : VmapExt h (setKey h tA k₁ Value.vnull) :=
            (VmapExt.vext_rfl h).setKey_of (fun b₂ hb => Value.noConfusion hb)
          have rec := ih _ tA rest ow true h' k hm
            (no_mcycle_transfer V htlt hnc) (lt_of_lt_of_le htlt V.2) hko2
          rw [rec, entryAt_setKey_other _ (Or.inr (Ne.symm hk1))]
        | false =>
          rw [if_neg (by simp)] at hm
          exact ih h tA rest ow false h' k hm hnc htlt hko2
      | .vstr s =>
        by_cases hck : (!hasKeyH h tA k₁ || ow) = true
        · simp only [hck, if_true] at hm
          rcases hd : deepCopy f h (.vstr s) with _ | ⟨h₁, v₂⟩
          · simp [hd] at hm
          · simp only [hd] at hm
            obtain ⟨hcf, hvp⟩ := deepCopy_frame hd
            have V : VmapExt h (setKey h₁ tA k₁ v₂) :=
              (VmapExt.of_copyFrame hcf).setKey_of hvp
            have rec := ih _ tA rest ow ni h' k hm
              (no_mcycle_transfer V htlt hnc) (lt_of_lt_of_le htlt V.2) hko2
            rw [rec, entryAt_setKey_other _ (Or.inr (Ne.symm hk1)),
              entryAt_eq_of_lookup_eq (hcf.1 tA htlt) k]
        · simp only [hck, if_false] at hm
          exact ih h tA rest ow ni h' k hm hnc htlt hko2
      | .vint n =>
        by_cases hck : (!hasKeyH h tA k₁ || ow) = true
        · simp only [hck, if_true] at hm
          rcases hd : deepCopy f h (.vint n) with _ | ⟨h₁, v₂⟩
          · simp [hd] at hm
          · simp only [hd] at hm
            obtain ⟨hcf, hvp⟩ := deepCopy_frame hd
            have V : VmapExt h (setKey h₁ tA k₁ v₂) :=
              (VmapExt.of_copyFrame hcf).setKey_of hvp
            have rec := ih _ tA rest ow ni h' k hm
              (no_mcycle_transfer V htlt hnc) (lt_of_lt_of_le htlt V.2) hko2
            rw [rec, entryAt_setKey_other _ (Or.inr (Ne.symm hk1)),
              entryAt_eq_of_lookup_eq (hcf.1 tA htlt) k]
        · simp only [hck, if_false] at hm
          exact ih h tA rest ow ni h' k hm hnc htlt hko2
      | .vbool b2 =>
        by_cases hck : (!hasKeyH h tA k₁ || ow) = true
        · simp only [hck, if_true] at hm
          rcases hd : deepCopy f h (.vbool b2) with _ | ⟨h₁, v₂⟩
          · simp [hd] at hm
          · simp only [hd] at hm
            obtain ⟨hcf, hvp⟩ := deepCopy_frame hd
            have V : VmapExt h (setKey h₁ tA k₁ v₂) :=
              (VmapExt.of_copyFrame hcf).setKey_of hvp
            have rec := ih _ tA rest ow ni h' k hm
              (no_mcycle_transfer V htlt hnc) (lt_of_lt_of_le htlt V.2) hko2
            rw [rec, entryAt_setKey_other _ (Or.inr (Ne.symm hk1)),
              entryAt_eq_of_lookup_eq (hcf.1 tA htlt) k]
        · simp only [hck, if_false] at hm
          exact ih h tA rest ow ni h' k hm hnc htlt hko2
      | .vseq q =>
        by_cases hck : (!hasKeyH h tA k₁ || ow) = true
        · simp only [hck, if_true] at hm
          rcases hd : deepCopy f h (.vseq q) with _ | ⟨h₁, v₂⟩
          · simp [hd] at hm
          · simp only [hd] at hm
            obtain ⟨hcf, hvp⟩ := deepCopy_frame hd
            have V : VmapExt h (setKey h₁ tA k₁ v₂) :=
              (VmapExt.of_copyFrame hcf).setKey_of hvp
            have rec := ih _ tA rest ow ni h' k hm
              (no_mcycle_transfer V htlt hnc) (lt_of_lt_of_le htlt V.2) hko2
            rw [rec, entryAt_setKey_other _ (Or.inr (Ne.symm hk1)),
              entryAt_eq_of_lookup_eq (hcf.1 tA htlt) k]
        · simp only [hck, if_false] at hm
          exact ih h tA rest ow ni h' k hm hnc htlt hko2
      | .vptr q =>
        by_cases hck : (!hasKeyH h tA k₁ || ow) = true
        · simp only [hck, if_true] at hm
          rcases hd : deepCopy f h (.vptr q) with _ | ⟨h₁, v₂⟩
          · simp [hd] at hm
          · simp only [hd] at hm
            obtain ⟨hcf, hvp⟩ := deepCopy_frame hd
            have V : VmapExt h (setKey h₁ tA k₁ v₂) :=
              (VmapExt.of_copyFrame hcf).setKey_of hvp
            have rec := ih _ tA rest ow ni h' k hm
              (no_mcycle_transfer V htlt hnc) (lt_of_lt_of_le htlt V.2) hko2
            rw [rec, entryAt_setKey_other _ (Or.inr (Ne.symm hk1)),
              entryAt_eq_of_lookup_eq (hcf.1 tA htlt) k]
        · simp only [hck, if_false] at hm
          exact ih h tA rest ow ni h' k hm hnc htlt hko2

/-- The outcome at key `k` of merging a source entry list that binds `k`
first-match to `sv` (keys distinct, cycle-free map target): a scalar `sv`
replaces a held value only under the overwrite option, and a null `sv`
nullifies the entry exactly under the nillify option. -/
theorem mergeEntries_key_outcome : ∀ f : Nat,
    ∀ h tA es ow ni h' k sv, mergeEntries f h tA es ow ni = some h' →
    ¬ Relation.TransGen (MEdgeH h) tA tA → tA < freshAddr h →
    (∃ tes, lookupH h tA = some (.map tes)) →
    (es.map Prod.fst).Nodup → assocFind es k = some sv →
    ((isScalar sv = true → ∀ w, entryAt h tA k = some w → isScalar w = true →
        entryAt h' tA k = some (if ow then sv else w)) ∧
     (sv = .vnull →
        entryAt h' tA k = if ni then some Value.vnull else entryAt h tA k)) := by
  intro f
  induction f with
  | zero =>
    intro h tA es ow ni h' k sv hm
    simp [mergeEntries] at hm
  | succ f ih =>
    intro h tA es ow ni h' k sv hm hnc htlt htm hnodup hfind
    match es with
    | [] => simp [assocFind] at hfind
    | (k₁, v) :: rest =>
      rw [List.map_cons, List.nodup_cons] at hnodup
      simp only [mergeEntries] at hm
      by_cases hk1 : k₁ = k
      · -- the first occurrence of `k` is this entry
        have hvs : v = sv := by
          simp only [assocFind] at hfind
          rw [if_pos hk1] at hfind
          exact Option.some.inj hfind
        have hrest : ∀ p ∈ rest, p.1 ≠ k := by
          intro p hp hpk
          refine hnodup.1 ?_
          have hmem := List.mem_map_of_mem Prod.fst hp
          rw [hpk, ← hk1] at hmem
          exact hmem
        refine ⟨?_, ?_⟩
        · intro hsv w hw hwsc
          rw [← hvs] at hsv ⊢
          have hhk : hasKeyH h tA k = true := by
            unfold hasKeyH
            rw [hw]
            rfl
          cases v with
          | vnull => simp [isScalar] at hsv
          | vmap a2 => simp [isScalar] at hsv
          | vseq a2 => simp [isScalar] at hsv
          | vptr a2 => simp [isScalar] at hsv
          | vstr s =>
            rw [hk1] at hm
            cases ow with
            | true =>
              have hck : (!hasKeyH h tA k || true) = true := by
                rw [hhk]
                rfl
              simp only [hck, if_true] at hm
              rcases hd : deepCopy f h (.vstr s) with _ | ⟨h₁, v₂⟩
              · simp [hd] at hm
              · simp only [hd] at hm
                obtain ⟨heq, veq⟩ := deepCopy_scalar (by rfl) hd
                rw [heq, veq] at hm
                obtain ⟨tes, htes⟩ := htm
                have V : VmapExt h (setKey h tA k (.vstr s)) :=
                  (VmapExt.vext_rfl h).setKey_of (fun b₂ hb => Value.noConfusion hb)
                have hpres := mergeEntries_other_keys f (setKey h tA k (.vstr s))
                  tA rest true ni h' k hm (no_mcycle_transfer V htlt hnc)
                  (lt_of_lt_of_le htlt V.2) hrest
                show entryAt h' tA k = some (Value.vstr s)
                rw [hpres, entryAt_setKey_self htes k (.vstr s)]
            | false =>
              have hck : ¬ ((!hasKeyH h tA k || false) = true) := by
                rw [hhk]
                simp
              simp only [hck, if_false] at hm
              have hpres := mergeEntries_other_keys f h tA rest false ni h' k hm
                hnc htlt hrest
              show entryAt h' tA k = some w
              rw [hpres]
              exact hw
          | vint n =>
            rw [hk1] at hm
            cases ow with
            | true =>
              have hck : (!hasKeyH h tA k || true) = true := by
                rw [hhk]
                rfl
              simp only [hck, if_true] at hm
              rcases hd : deepCopy f h (.vint n) with _ | ⟨h₁, v₂⟩
              · simp [hd] at hm
              · simp only [hd] at hm
                obtain ⟨heq, veq⟩ := deepCopy_scalar (by rfl) hd
                rw [heq, veq] at hm
                obtain ⟨tes, htes⟩ := htm
                have V : VmapExt h (setKey h tA k (.vint n)) :=
                  (VmapExt.vext_rfl h).setKey_of (fun b₂ hb => Value.noConfusion hb)
                have hpres := mergeEntries_other_keys f (setKey h tA k (.vint n))
                  tA rest true ni h' k hm (no_mcycle_transfer V htlt hnc)
                  (lt_of_lt_of_le htlt V.2) hrest
                show entryAt h' tA k = some (Value.vint n)
                rw [hpres, entryAt_setKey_self htes k (.vint n)]
            | false =>
              have hck : ¬ ((!hasKeyH h tA k || false) = true) := by
                rw [hhk]
                simp
              simp only [hck, if_false] at hm
              have hpres := mergeEntries_other_keys f h tA rest false ni h' k hm
                hnc htlt hrest
              show entryAt h' tA k = some w
              rw [hpres]
              exact hw
          | vbool b2 =>
            rw [hk1] at hm
            cases ow with
            | true =>
              have hck : (!hasKeyH h tA k || true) = true := by
                rw [hhk]
                rfl
              simp only [hck, if_true] at hm
              rcases hd : deepCopy f h (.vbool b2) with _ | ⟨h₁, v₂⟩
              · simp [hd] at hm
              · simp only [hd] at hm
                obtain ⟨heq, veq⟩ := deepCopy_scalar (by rfl) hd
                rw [heq, veq] at hm
                obtain ⟨tes, htes⟩ := htm
                have V : VmapExt h (setKey h tA k (.vbool b2)) :=
                  (VmapExt.vext_rfl h).setKey_of (fun b₂ hb => Value.noConfusion hb)
                have hpres := mergeEntries_other_keys f (setKey h tA k (.vbool b2))
                  tA rest true ni h' k hm (no_mcycle_transfer V htlt hnc)
                  (lt_of_lt_of_le htlt V.2) hrest
                show entryAt h' tA k = some (Value.vbool b2)
                rw [hpres, entryAt_setKey_self htes k (.vbool b2)]
            | false =>
              have hck : ¬ ((!hasKeyH h tA k || false) = true) := by
                rw [hhk]
                simp
              simp only [hck, if_false] at hm
              have hpres := mergeEntries_other_keys f h tA rest false ni h' k hm
                hnc htlt hrest
              show entryAt h' tA k = some w
              rw [hpres]
              exact hw
        · intro hnull
          have hvnull : v = Value.vnull := hvs.trans hnull
          subst hvnull
          rw [hk1] at hm
          cases ni with
          | true =>
            rw [if_pos rfl] at hm
            obtain ⟨tes, htes⟩ := htm
            have V : VmapExt h (setKey h tA k Value.vnull) :=
              (VmapExt.vext_rfl h).setKey_of (fun b₂ hb => Value.noConfusion hb)
            have hpres := mergeEntries_other_keys f (setKey h tA k Value.vnull)
              tA rest ow true h' k hm (no_mcycle_transfer V htlt hnc)
              (lt_of_lt_of_le htlt V.2) hrest
            show entryAt h' tA k = some Value.vnull
            rw [hpres, entryAt_setKey_self htes k Value.vnull]
          | false =>
            rw [if_neg (by simp)] at hm
            have hpres := mergeEntries_other_keys f h tA rest ow false h' k hm
              hnc htlt hrest
            show entryAt h' tA k = entryAt h tA k
            exact hpres
      · -- a prefix entry with a different key
        have hfind2 : assocFind rest k = some sv := by
          simp only [assocFind] at hfind
          rw [if_neg hk1] at hfind
          exact hfind
        have hnodup2 : (rest.map Prod.fst).Nodup := hnodup.2
        match v with
        | .vmap aSrc =>
          rcases he : entryAt h tA k₁ with _ | w₂
          · simp only [he] at hm
            rcases hd : dupRoot f h aSrc with _ | ⟨h₁, b⟩
            · simp [hd] at hm
            · simp only [hd] at hm
              obtain ⟨hcf, hfb⟩ := dupRoot_frame hd
              have V : VmapExt h (setKey h₁ tA k₁ (.vmap b)) :=
                (VmapExt.of_copyFrame hcf).setKey_of
                  (fun b₂ hb => by obtain rfl := Value.vmap.inj hb; exact hfb)
              have e : entryAt (setKey h₁ tA k₁ (.vmap b)) tA k = entryAt h tA k := by
                rw [entryAt_setKey_other _ (Or.inr (Ne.symm hk1)),
                  entryAt_eq_of_lookup_eq (hcf.1 tA htlt) k]
              have htm₂ : ∃ tes₂,
                  lookupH (setKey h₁ tA k₁ (.vmap b)) tA = some (.map tes₂) := by
                obtain ⟨tes, htes⟩ := htm
                exact lookup_setKey_map (by rw [hcf.1 tA htlt]; exact htes) tA k₁ (.vmap b)
              have IH := ih _ tA rest ow ni h' k sv hm
                (no_mcycle_transfer V htlt hnc) (lt_of_lt_of_le htlt V.2)
                htm₂ hnodup2 hfind2
              refine ⟨fun hsv w hw hwsc => IH.1 hsv w (by rw [e]; exact hw) hwsc,
                fun hnull => ?_⟩
              rw [IH.2 hnull, e]
          · match w₂ with
            | .vmap aDst =>
              simp only [he] at hm
              rcases hr : mergeH f h aDst aSrc ow ni with _ | h₁
              · simp [hr] at hm
              · simp only [hr] at hm
                have hnd : ¬ MReachH h aDst tA := fun hreach =>
                  hnc (Relation.TransGen.head'_iff.2
                    ⟨aDst, medge_of_entry he, hreach⟩)
                have l1 : lookupH h₁ tA = lookupH h tA :=
                  (merge_frame_all f).1 h aDst aSrc ow ni h₁ hr tA hnd htlt
                have V := (merge_vmapext_all f).1 h aDst aSrc ow ni h₁ hr
                have e : entryAt h₁ tA k = entryAt h tA k :=
                  entryAt_eq_of_lookup_eq l1 k
                have htm₂ : ∃ tes₂, lookupH h₁ tA = some (.map tes₂) := by
                  obtain ⟨tes, htes⟩ := htm
                  exact ⟨tes, by rw [l1]; exact htes⟩
                have IH := ih h₁ tA rest ow ni h' k sv hm
                  (no_mcycle_transfer V htlt hnc) (lt_of_lt_of_le htlt V.2)
                  htm₂ hnodup2 hfind2
                refine ⟨fun hsv w hw hwsc => IH.1 hsv w (by rw [e]; exact hw) hwsc,
                  fun hnull => ?_⟩
                rw [IH.2 hnull, e]
            | .vnull | .vstr _ | .vint _ | .vbool _ | .vseq _ | .vptr _ =>
              simp only [he] at hm
              cases ow with
              | true =>
                rw [if_pos rfl] at hm
                rcases hd : dupRoot f h aSrc with _ | ⟨h₁, b⟩
                · simp [hd] at hm
                · simp only [hd] at hm
                  obtain ⟨hcf, hfb⟩ := dupRoot_frame hd
                  have V : VmapExt h (setKey h₁ tA k₁ (.vmap b)) :=
                    (VmapExt.of_copyFrame hcf).setKey_of
                      (fun b₂ hb => by obtain rfl := Value.vmap.inj hb; exact hfb)
                  have e : entryAt (setKey h₁ tA k₁ (.vmap b)) tA k
                      = entryAt h tA k := by
                    rw [entryAt_setKey_other _ (Or.inr (Ne.symm hk1)),
                      entryAt_eq_of_lookup_eq (hcf.1 tA htlt) k]
                  have htm₂ : ∃ tes₂,
                      lookupH (setKey h₁ tA k₁ (.vmap b)) tA = some (.map tes₂) := by
                    obtain ⟨tes, htes⟩ := htm
                    exact lookup_setKey_map (by rw [hcf.1 tA htlt]; exact htes)
                      tA k₁ (.vmap b)
                  have IH := ih _ tA rest true ni h' k sv hm
                    (no_mcycle_transfer V htlt hnc) (lt_of_lt_of_le htlt V.2)
                    htm₂ hnodup2 hfind2
                  refine ⟨fun hsv w hw hwsc => IH.1 hsv w (by rw [e]; exact hw) hwsc,
                    fun hnull => ?_⟩
                  rw [IH.2 hnull, e]
              | false =>
                rw [if_neg (by simp)] at hm
                exact ih h tA rest false ni h' k sv hm hnc htlt htm hnodup2 hfind2
        | .vnull =>
          cases ni with
          | true =>
            rw [if_pos rfl] at hm
            have V : VmapExt h (setKey h tA k₁ Value.vnull) :=
              (VmapExt.vext_rfl h).setKey_of (fun b₂ hb => Value.noConfusion hb)
            have e : entryAt (setKey h tA k₁ Value.vnull) tA k = entryAt h tA k :=
              entryAt_setKey_other _ (Or.inr (Ne.symm hk1))
            have htm₂ : ∃ tes₂,
                lookupH (setKey h tA k₁ Value.vnull) tA = some (.map tes₂) := by
              obtain ⟨tes, htes⟩ := htm
              exact lookup_setKey_map htes tA k₁ Value.vnull
            have IH := ih _ tA rest ow true h' k sv hm
              (no_mcycle_transfer V htlt hnc) (lt_of_lt_of_le htlt V.2)
              htm₂ hnodup2 hfind2
            refine ⟨fun hsv w hw hwsc => IH.1 hsv w (by rw [e]; exact hw) hwsc,
              fun hnull => ?_⟩
            rw [IH.2 hnull, e]
          | false =>
            rw [if_neg (by simp)] at hm
            exact ih h tA rest ow false h' k sv hm hnc htlt htm hnodup2 hfind2
        | .vstr s =>
          by_cases hck : (!hasKeyH h tA k₁ || ow) = true
          · simp only [hck, if_true] at hm
            rcases hd : deepCopy f h (.vstr s) with _ | ⟨h₁, v₂⟩
            · simp [hd] at hm
            · simp only [hd] at hm
              obtain ⟨hcf, hvp⟩ := deepCopy_frame hd
              have V : VmapExt h (setKey h₁ tA k₁ v₂) :=
                (VmapExt.of_copyFrame hcf).setKey_of hvp
              have e : entryAt (setKey h₁ tA k₁ v₂) tA k = entryAt h tA k := by
                rw [entryAt_setKey_other _ (Or.inr (Ne.symm hk1)),
                  entryAt_eq_of_lookup_eq (hcf.1 tA htlt) k]
              have htm₂ : ∃ tes₂,
                  lookupH (setKey h₁ tA k₁ v₂) tA = some (.map tes₂) := by
                obtain ⟨tes, htes⟩ := htm
                exact lookup_setKey_map (by rw [hcf.1 tA htlt]; exact htes) tA k₁ v₂
              have IH := ih _ tA rest ow ni h' k sv hm
                (no_mcycle_transfer V htlt hnc) (lt_of_lt_of_le htlt V.2)
                htm₂ hnodup2 hfind2
              refine ⟨fun hsv w hw hwsc => IH.1 hsv w (by rw [e]; exact hw) hwsc,
                fun hnull => ?_⟩
              rw [IH.2 hnull, e]
          · simp only [hck, if_false] at hm
            exact ih h tA rest ow ni h' k sv hm hnc htlt htm hnodup2 hfind2
        | .vint n =>
          by_cases hck : (!hasKeyH h tA k₁ || ow) = true
          · simp only [hck, if_true] at hm
            rcases hd : deepCopy f h (.vint n) with _ | ⟨h₁, v₂⟩
            · simp [hd] at hm
            · simp only [hd] at hm
              obtain ⟨hcf, hvp⟩ := deepCopy_frame hd
              have V : VmapExt h (setKey h₁ tA k₁ v₂) :=
                (VmapExt.of_copyFrame hcf).setKey_of hvp
              have e : entryAt (setKey h₁ tA k₁ v₂) tA k = entryAt h tA k := by
                rw [entryAt_setKey_other _ (Or.inr (Ne.symm hk1)),
                  entryAt_eq_of_lookup_eq (hcf.1 tA htlt) k]
              have htm₂ : ∃ tes₂,
                  lookupH (setKey h₁ tA k₁ v₂) tA = some (.map tes₂) := by
                obtain ⟨tes, htes⟩ := htm
                exact lookup_setKey_map (by rw [hcf.1 tA htlt]; exact htes) tA k₁ v₂
              have IH := ih _ tA rest ow ni h' k sv hm
                (no_mcycle_transfer V htlt hnc) (lt_of_lt_of_le htlt V.2)
                htm₂ hnodup2 hfind2
              refine ⟨fun hsv w hw hwsc => IH.1 hsv w (by rw [e]; exact hw) hwsc,
                fun hnull => ?_⟩
              rw [IH.2 hnull, e]
          · simp only [hck, if_false] at hm
            exact ih h tA rest ow ni h' k sv hm hnc htlt htm hnodup2 hfind2
        | .vbool b2 =>
          by_cases hck : (!hasKeyH h tA k₁ || ow) = true
          · simp only [hck, if_true] at hm
            rcases hd : deepCopy f h (.vbool b2) with _ | ⟨h₁, v₂⟩
            · simp [hd] at hm
            · simp only [hd] at hm
              obtain ⟨hcf, hvp⟩ := deepCopy_frame hd
              have V : VmapExt h (setKey h₁ tA k₁ v₂) :=
                (VmapExt.of_copyFrame hcf).setKey_of hvp
              have e : entryAt (setKey h₁ tA k₁ v₂) tA k = entryAt h tA k := by
                rw [entryAt_setKey_other _ (Or.inr (Ne.symm hk1)),
                  entryAt_eq_of_lookup_eq (hcf.1 tA htlt) k]
              have htm₂ : ∃ tes₂,
                  lookupH (setKey h₁ tA k₁ v₂) tA = some (.map tes₂) := by
                obtain ⟨tes, htes⟩ := htm
                exact lookup_setKey_map (by rw [hcf.1 tA htlt]; exact htes) tA k₁ v₂
              have IH := ih _ tA rest ow ni h' k sv hm
                (no_mcycle_transfer V htlt hnc) (lt_of_lt_of_le htlt V.2)
                htm₂ hnodup2 hfind2
              refine ⟨fun hsv w hw hwsc => IH.1 hsv w (by rw [e]; exact hw) hwsc,
                fun hnull => ?_⟩
              rw [IH.2 hnull, e]
          · simp only [hck, if_false] at hm
            exact ih h tA rest ow ni h' k sv hm hnc htlt htm hnodup2 hfind2
        | .vseq q =>
          by_cases hck : (!hasKeyH h tA k₁ || ow) = true
          · simp only [hck, if_true] at hm
            rcases hd : deepCopy f h (.vseq q) with _ | ⟨h₁, v₂⟩
            · simp [hd] at hm
            · simp only [hd] at hm
              obtain ⟨hcf, hvp⟩ := deepCopy_frame hd
              have V : VmapExt h (setKey h₁ tA k₁ v₂) :=
                (VmapExt.of_copyFrame hcf).setKey_of hvp
              have e : entryAt (setKey h₁ tA k₁ v₂) tA k = entryAt h tA k := by
                rw [entryAt_setKey_other _ (Or.inr (Ne.symm hk1)),
                  entryAt_eq_of_lookup_eq (hcf.1 tA htlt) k]
              have htm₂ : ∃ tes₂,
                  lookupH (setKey h₁ tA k₁ v₂) tA = some (.map tes₂) := by
                obtain ⟨tes, htes⟩ := htm
                exact lookup_setKey_map (by rw [hcf.1 tA htlt]; exact htes) tA k₁ v₂
              have IH := ih _ tA rest ow ni h' k sv hm
                (no_mcycle_transfer V htlt hnc) (lt_of_lt_of_le htlt V.2)
                htm₂ hnodup2 hfind2
              refine ⟨fun hsv w hw hwsc => IH.1 hsv w (by rw [e]; exact hw) hwsc,
                fun hnull => ?_⟩
              rw [IH.2 hnull, e]
          · simp only [hck, if_false] at hm
            exact ih h tA rest ow ni h' k sv hm hnc htlt htm hnodup2 hfind2
        | .vptr q =>
          by_cases hck : (!hasKeyH h tA k₁ || ow) = true
          · simp only [hck, if_true] at hm
            rcases hd : deepCopy f h (.vptr q) with _ | ⟨h₁, v₂⟩
            · simp [hd] at hm
            · simp only [hd] at hm
              obtain ⟨hcf, hvp⟩ := deepCopy_frame hd
              have V : VmapExt h (setKey h₁ tA k₁ v₂) :=
                (VmapExt.of_copyFrame hcf).setKey_of hvp
              have e : entryAt (setKey h₁ tA k₁ v₂) tA k = entryAt h tA k := by
                rw [entryAt_setKey_other _ (Or.inr (Ne.symm hk1)),
                  entryAt_eq_of_lookup_eq (hcf.1 tA htlt) k]
              have htm₂ : ∃ tes₂,
                  lookupH (setKey h₁ tA k₁ v₂) tA = some (.map tes₂) := by
                obtain ⟨tes, htes⟩ := htm
                exact lookup_setKey_map (by rw [hcf.1 tA htlt]; exact htes) tA k₁ v₂
              have IH := ih _ tA rest ow ni h' k sv hm
                (no_mcycle_transfer V htlt hnc) (lt_of_lt_of_le htlt V.2)
                htm₂ hnodup2 hfind2
              refine ⟨fun hsv w hw hwsc => IH.1 hsv w (by rw [e]; exact hw) hwsc,
                fun hnull => ?_⟩
              rw [IH.2 hnull, e]
          · simp only [hck, if_false] at hm
            exact ih h tA rest ow ni h' k sv hm hnc htlt htm hnodup2 hfind2


/-! ## Region closure above a frontier -/

theorem regionClosed_fresh (h : Heap) : RegionClosed (freshAddr h) h := by
  intro x nd hx hl
  exact absurd (lookupH_lt_fresh hl) (not_lt.mpr hx)

theorem regionClosed_compose {F : Nat} {h₁ h₂ : Heap}
    (A : RegionClosed F h₁)
    (hpres : ∀ x, x < freshAddr h₁ → lookupH h₂ x = lookupH h₁ x)
    (B : RegionClosed (freshAddr h₁) h₂) (hF : F ≤ freshAddr h₁) :
    RegionClosed F h₂ := by
  intro x nd hx hl w hw b hb
  by_cases hxf : x < freshAddr h₁
  · rw [hpres x hxf] at hl
    exact A x nd hx hl w hw b hb
  · exact le_trans hF (B x nd (not_lt.1 hxf) hl w hw b hb)

theorem regionClosed_alloc {F : Nat} {h : Heap} (A : RegionClosed F h)
    {nd : Node} (hnd : ∀ w ∈ nodeValues nd, ∀ b, valAddr w = some b → F ≤ b) :
    RegionClosed F ((freshAddr h, nd) :: h) := by
  intro x nd₂ hx hl w hw b hb
  rw [lookupH_cons] at hl
  by_cases hxf : freshAddr h = x
  · rw [if_pos hxf] at hl
    obtain rfl := Option.some.inj hl
    exact hnd w hw b hb
  · rw [if_neg hxf] at hl
    exact A x nd₂ hx hl w hw b hb

theorem regionClosed_setKey {F : Nat} {h : Heap} (A : RegionClosed F h)
    {a : Addr} {k : String} {v : Value}
    (hv : ∀ b, valAddr v = some b → F ≤ b) :
    RegionClosed F (setKey h a k v) := by
  intro x nd hx hl w hw b hb
  unfold setKey at hl
  rcases hn : lookupH h a with _ | nd₀
  · rw [hn] at hl
    exact A x nd hx hl w hw b hb
  · cases nd₀ with
    | seq vs =>
      rw [hn] at hl
      exact A x nd hx hl w hw b hb
    | map es =>
      rw [hn] at hl
      by_cases hxa : x = a
      · subst hxa
        rw [lookupH_updateH_self _ hn] at hl
        obtain rfl := Option.some.inj hl
        rcases assocSet_values (show w ∈ (assocSet es k v).map Prod.snd from hw)
            with hold | rfl
        · exact A x (.map es) hx hn w hold b hb
        · exact hv b hb
      · rw [lookupH_updateH_other h _ hxa] at hl
        exact A x nd hx hl w hw b hb

/-! ## Copies keep the fresh region reference-closed -/

/-- On readable input (which excludes shared pointer values), every
container a copy allocates refers only to freshly allocated containers,
and the returned references are fresh.  The cleanup components preserve
any frontier `F` at or below the current one. -/
theorem copy_fresh_all : ∀ f : Nat,
    (∀ g h v t h₁ v', readV g h v = some t → deepCopy f h v = some (h₁, v') →
      RegionClosed (freshAddr h) h₁ ∧
        ∀ b, valAddr v' = some b → freshAddr h ≤ b) ∧
    (∀ g h es ts h₁ es', readEntries g h es = some ts →
      copyEntries f h es = some (h₁, es') →
      RegionClosed (freshAddr h) h₁ ∧
        ∀ p ∈ es', ∀ b, valAddr p.2 = some b → freshAddr h ≤ b) ∧
    (∀ g h vs ts h₁ vs', readElems g h vs = some ts →
      copyElems f h vs = some (h₁, vs') →
      RegionClosed (freshAddr h) h₁ ∧
        ∀ w ∈ vs', ∀ b, valAddr w = some b → freshAddr h ≤ b) ∧
    (∀ F h v h₁ v', cleanUpValueH f h v = some (h₁, v') → F ≤ freshAddr h →
      RegionClosed F h → (∀ b, valAddr v = some b → F ≤ b) →
      RegionClosed F h₁ ∧ ∀ b, valAddr v' = some b → F ≤ b) ∧
    (∀ F h vs h₁ vs', cleanUpArrH f h vs = some (h₁, vs') → F ≤ freshAddr h →
      RegionClosed F h → (∀ w ∈ vs, ∀ b, valAddr w = some b → F ≤ b) →
      RegionClosed F h₁ ∧ ∀ w ∈ vs', ∀ b, valAddr w = some b → F ≤ b) := by
  intro f
  induction f with
  | zero =>
    refine ⟨?_, ?_, ?_, ?_, ?_⟩
    · intro g h v t h₁ v' _ hc
      simp [deepCopy] at hc
    · intro g h es ts h₁ es' _ hc
      simp [copyEntries] at hc
    · intro g h vs ts h₁ vs' _ hc
      simp [copyElems] at hc
    · intro F h v h₁ v' hc
      simp [cleanUpValueH] at hc
    · intro F h vs h₁ vs' hc
      simp [cleanUpArrH] at hc
  | succ f ih =>
    obtain ⟨ihV, ihE, ihL, ihC, ihA⟩ := ih
    refine ⟨?_, ?_, ?_, ?_, ?_⟩
    · intro g h v t h₁ v' hr hc
      match v with
      | .vnull =>
        simp only [deepCopy, Option.some.injEq, Prod.mk.injEq] at hc
        obtain ⟨h1, h2⟩ := hc
        subst h1
        subst h2
        refine ⟨regionClosed_fresh h, fun b hb => ?_⟩
        simp [valAddr] at hb
      | .vstr s =>
        simp only [deepCopy, Option.some.injEq, Prod.mk.injEq] at hc
        obtain ⟨h1, h2⟩ := hc
        subst h1
        subst h2
        refine ⟨regionClosed_fresh h, fun b hb => ?_⟩
        simp [valAddr] at hb
      | .vint n =>
        simp only [deepCopy, Option.some.injEq, Prod.mk.injEq] at hc
        obtain ⟨h1, h2⟩ := hc
        subst h1
        subst h2
        refine ⟨regionClosed_fresh h, fun b hb => ?_⟩
        simp [valAddr] at hb
      | .vbool b0 =>
        simp only [deepCopy, Option.some.injEq, Prod.mk.injEq] at hc
        obtain ⟨h1, h2⟩ := hc
        subst h1
        subst h2
        refine ⟨regionClosed_fresh h, fun b hb => ?_⟩
        simp [valAddr] at hb
      | .vptr p =>
        match g, hr with
        | 0, hr => simp [readV] at hr
        | g + 1, hr => simp [readV] at hr
      | .vmap a =>
        obtain ⟨g₁, es, ts, rfl, hn, hes, rfl⟩ := readV_map_inv hr
        simp only [deepCopy, hn] at hc
        rcases hce : copyEntries f h es with _ | ⟨h₂, es'⟩
        · simp [hce] at hc
        · simp only [hce, allocH, Option.some.injEq, Prod.mk.injEq] at hc
          obtain ⟨h1, h2⟩ := hc
          subst h1
          subst h2
          obtain ⟨hRC, hfr⟩ := ihE g₁ h es ts h₂ es' hes hce
          have hfr2 : freshAddr h ≤ freshAddr h₂ := (copyEntries_ext hce).1
          refine ⟨regionClosed_alloc hRC ?_, fun b hb => ?_⟩
          · intro w hw b hb
            simp only [nodeValues] at hw
            obtain ⟨p, hp, hpw⟩ := List.mem_map.1 hw
            exact hfr p hp b (by rw [hpw]; exact hb)
          · simp only [valAddr, Option.some.injEq] at hb
            rw [← hb]
            exact hfr2
      | .vseq a =>
        obtain ⟨g₁, vs, ts, rfl, hn, hvs, rfl⟩ := readV_seq_inv hr
        simp only [deepCopy, hn] at hc
        rcases hce : copyElems f h vs with _ | ⟨h₂, vs'⟩
        · simp [hce] at hc
        · rcases hca : cleanUpArrH f h₂ vs' with _ | ⟨h₃, vs''⟩
          · simp [hce, hca] at hc
          · simp only [hce, hca, allocH, Option.some.injEq, Prod.mk.injEq] at hc
            obtain ⟨h1, h2⟩ := hc
            subst h1
            subst h2
            obtain ⟨hRC, hfr⟩ := ihL g₁ h vs ts h₂ vs' hvs hce
            have hfr2 : freshAddr h ≤ freshAddr h₂ := (copyElems_ext hce).1
            obtain ⟨hRC₃, hfr₃⟩ := ihA (freshAddr h) h₂ vs' h₃ vs'' hca hfr2 hRC hfr
            have hfr3 : freshAddr h₂ ≤ freshAddr h₃ := (cleanUpArrH_ext hca).1
            refine ⟨regionClosed_alloc hRC₃ ?_, fun b hb => ?_⟩
            · intro w hw b hb
              exact hfr₃ w hw b hb
            · simp only [valAddr, Option.some.injEq] at hb
              rw [← hb]
              exact le_trans hfr2 hfr3
    · intro g h es ts h₁ es' hr hc
      match es with
      | [] =>
        simp only [copyEntries, Option.some.injEq, Prod.mk.injEq] at hc
        obtain ⟨h1, h2⟩ := hc
        subst h1
        subst h2
        exact ⟨regionClosed_fresh h, fun p hp => absurd hp (List.not_mem_nil p)⟩
      | (k, v) :: es =>
        obtain ⟨g₁, tv, ts', rfl, hv, hes, rfl⟩ := readEntries_cons_inv hr
        simp only [copyEntries] at hc
        rcases hdv : deepCopy f h v with _ | ⟨h₂, v₂⟩
        · simp [hdv] at hc
        · rcases hde : copyEntries f h₂ es with _ | ⟨h₃, es₃⟩
          · simp [hdv, hde] at hc
          · simp only [hdv, hde, Option.some.injEq, Prod.mk.injEq] at hc
            obtain ⟨h1, h2⟩ := hc
            subst h1
            subst h2
            obtain ⟨hRC₂, hfrv⟩ := ihV g₁ h v tv h₂ v₂ hv hdv
            have hes₂ : readEntries g₁ h₂ es = some ts' :=
              readEntries_hext hes (deepCopy_ext hdv)
            obtain ⟨hRC₃, hfre⟩ := ihE g₁ h₂ es ts' h₃ es₃ hes₂ hde
            have hf12 : freshAddr h ≤ freshAddr h₂ := (deepCopy_ext hdv).1
            have hCF : CopyFrame h₂ h₃ := ((copy_frame_all f).2.1 h₂ es h₃ es₃ hde).1
            refine ⟨regionClosed_compose hRC₂ (fun x hx => hCF.1 x hx) hRC₃ hf12, ?_⟩
            intro p hp b hb
            rcases List.mem_cons.1 hp with rfl | hp₂
            · exact hfrv b hb
            · exact le_trans hf12 (hfre p hp₂ b hb)
    · intro g h vs ts h₁ vs' hr hc
      match vs with
      | [] =>
        simp only [copyElems, Option.some.injEq, Prod.mk.injEq] at hc
        obtain ⟨h1, h2⟩ := hc
        subst h1
        subst h2
        exact ⟨regionClosed_fresh h, fun w hw => absurd hw (List.not_mem_nil w)⟩
      | v :: vs =>
        obtain ⟨g₁, tv, ts', rfl, hv, hvs, rfl⟩ := readElems_cons_inv hr
        simp only [copyElems] at hc
        rcases hdv : deepCopy f h v with _ | ⟨h₂, v₂⟩
        · simp [hdv] at hc
        · rcases hde : copyElems f h₂ vs with _ | ⟨h₃, vs₃⟩
          · simp [hdv, hde] at hc
          · simp only [hdv, hde, Option.some.injEq, Prod.mk.injEq] at hc
            obtain ⟨h1, h2⟩ := hc
            subst h1
            subst h2
            obtain ⟨hRC₂, hfrv⟩ := ihV g₁ h v tv h₂ v₂ hv hdv
            have hvs₂ : readElems g₁ h₂ vs = some ts' :=
              readElems_hext hvs (deepCopy_ext hdv)
            obtain ⟨hRC₃, hfre⟩ := ihL g₁ h₂ vs ts' h₃ vs₃ hvs₂ hde
            have hf12 : freshAddr h ≤ freshAddr h₂ := (deepCopy_ext hdv).1
            have hCF : CopyFrame h₂ h₃ := (copy_frame_all f).2.2.1 h₂ vs h₃ vs₃ hde
            refine ⟨regionClosed_compose hRC₂ (fun x hx => hCF.1 x hx) hRC₃ hf12, ?_⟩
            intro w hw b hb
            rcases List.mem_cons.1 hw with rfl | hw₂
            · exact hfrv b hb
            · exact le_trans hf12 (hfre w hw₂ b hb)
    · intro F h v h₁ v' hc hF hRC hv
      match v with
      | .vnull | .vstr _ | .vint _ | .vbool _ | .vptr _ | .vmap _ =>
        simp only [cleanUpValueH, Option.some.injEq, Prod.mk.injEq] at hc
        obtain ⟨h1, h2⟩ := hc
        subst h1
        subst h2
        exact ⟨hRC, hv⟩
      | .vseq a =>
        simp only [cleanUpValueH] at hc
        rcases hn : lookupH h a with _ | nd
        · simp [hn] at hc
        · cases nd with
          | map es => simp [hn] at hc
          | seq vs =>
            simp only [hn] at hc
            rcases hca : cleanUpArrH f h vs with _ | ⟨h₂, vs'⟩
            · simp [hca] at hc
            · simp only [hca, allocH, Option.some.injEq, Prod.mk.injEq] at hc
              obtain ⟨h1, h2⟩ := hc
              subst h1
              subst h2
              have hFa : F ≤ a := hv a rfl
              have hvs0 : ∀ w ∈ vs, ∀ b, valAddr w = some b → F ≤ b := by
                intro w hw b hb
                exact hRC a (.seq vs) hFa hn w hw b hb
              obtain ⟨hRC₂, hfr₂⟩ := ihA F h vs h₂ vs' hca hF hRC hvs0
              have hf12 : freshAddr h ≤ freshAddr h₂ := (cleanUpArrH_ext hca).1
              refine ⟨regionClosed_alloc hRC₂ ?_, fun b hb => ?_⟩
              · intro w hw b hb
                exact hfr₂ w hw b hb
              · simp only [valAddr, Option.some.injEq] at hb
                rw [← hb]
                exact le_trans hF hf12
    · intro F h vs h₁ vs' hc hF hRC hvs
      match vs with
      | [] =>
        simp only [cleanUpArrH, Option.some.injEq, Prod.mk.injEq] at hc
        obtain ⟨h1, h2⟩ := hc
        subst h1
        subst h2
        exact ⟨hRC, fun w hw => absurd hw (List.not_mem_nil w)⟩
      | v :: vs =>
        simp only [cleanUpArrH] at hc
        rcases hcv : cleanUpValueH f h v with _ | ⟨h₂, v₂⟩
        · simp [hcv] at hc
        · rcases hca : cleanUpArrH f h₂ vs with _ | ⟨h₃, vs₃⟩
          · simp [hcv, hca] at hc
          · simp only [hcv, hca, Option.some.injEq, Prod.mk.injEq] at hc
            obtain ⟨h1, h2⟩ := hc
            subst h1
            subst h2
            obtain ⟨hRC₂, hfrv⟩ := ihC F h v h₂ v₂ hcv hF hRC
              (fun b hb => hvs v (List.mem_cons_self _ _) b hb)
            have hf12 : freshAddr h ≤ freshAddr h₂ := (cleanUpValueH_ext hcv).1
            obtain ⟨hRC₃, hfre⟩ := ihA F h₂ vs h₃ vs₃ hca (le_trans hF hf12) hRC₂
              (fun w hw b hb => hvs w (List.mem_cons_of_mem _ hw) b hb)
            refine ⟨hRC₃, ?_⟩
            intro w hw b hb
            rcases List.mem_cons.1 hw with rfl | hw₂
            · exact hfrv b hb
            · exact hfre w hw₂ b hb

theorem deepCopy_fresh {f g : Nat} {h : Heap} {v : Value} {t : Tree}
    {h₁ : Heap} {v' : Value} (hr : readV g h v = some t)
    (hc : deepCopy f h v = some (h₁, v')) :
    RegionClosed (freshAddr h) h₁ ∧
      ∀ b, valAddr v' = some b → freshAddr h ≤ b :=
  (copy_fresh_all f).1 g h v t h₁ v' hr hc

theorem dupRoot_fresh {f g : Nat} {h : Heap} {a : Addr} {t : Tree}
    {h₁ : Heap} {b : Addr} (hr : readV g h (.vmap a) = some t)
    (hd : dupRoot f h a = some (h₁, b)) :
    RegionClosed (freshAddr h) h₁ := by
  obtain ⟨g₁, es, ts, rfl, hn, hes, rfl⟩ := readV_map_inv hr
  unfold dupRoot at hd
  simp only [hn] at hd
  rcases hce : copyEntries f h es with _ | ⟨h₂, es'⟩
  · simp [hce] at hd
  · simp only [hce, allocH, Option.some.injEq, Prod.mk.injEq] at hd
    obtain ⟨h1, h2⟩ := hd
    subst h1
    obtain ⟨hRC, hfr⟩ := (copy_fresh_all f).2.1 g₁ h es ts h₂ es' hes hce
    refine regionClosed_alloc hRC ?_
    intro w hw b₂ hb
    simp only [nodeValues] at hw
    obtain ⟨p, hp, hpw⟩ := List.mem_map.1 hw
    exact hfr p hp b₂ (by rw [hpw]; exact hb)


/-! ## Merge leaves the source region untouched and unaliased -/

theorem reach_no_addr {h : Heap} {n r : Addr} {nd : Node}
    (hn : lookupH h n = some nd)
    (hvals : ∀ w ∈ nodeValues nd, valAddr w = none)
    (hr : ReachH h n r) : r = n := by
  rcases Relation.ReflTransGen.cases_head hr with heq | ⟨c, hedge, _⟩
  · exact heq.symm
  · obtain ⟨nd₂, hnd₂, w, hw, hvw⟩ := hedge
    rw [hn] at hnd₂
    obtain rfl := Option.some.inj hnd₂
    rw [hvals w hw] at hvw
    exact Option.noConfusion hvw

/-- The master invariants of a merge against a fixed readable source
region: containers reachable from the source root in the base heap keep
their contents, the region above the base frontier stays
reference-closed, and every reference edge from a container below the
base frontier is an original edge or points above the frontier. -/
theorem merge_source_all : ∀ f : Nat,
    (∀ g h₀ sA₀ t₀, readV g h₀ (.vmap sA₀) = some t₀ →
     ∀ h tA sA ow ni h', mergeH f h tA sA ow ni = some h' →
      (∀ x, ReachH h₀ sA₀ x → lookupH h x = lookupH h₀ x) →
      freshAddr h₀ ≤ freshAddr h →
      RegionClosed (freshAddr h₀) h →
      (∀ x y, x < freshAddr h₀ → EdgeH h x y →
        EdgeH h₀ x y ∨ freshAddr h₀ ≤ y) →
      ReachH h₀ sA₀ sA →
      (∀ x, MReachH h tA x → ¬ ReachH h₀ sA₀ x) →
      (∀ x, ReachH h₀ sA₀ x → lookupH h' x = lookupH h x) ∧
      RegionClosed (freshAddr h₀) h' ∧
      (∀ x y, x < freshAddr h₀ → EdgeH h' x y →
        EdgeH h₀ x y ∨ freshAddr h₀ ≤ y)) ∧
    (∀ g h₀ sA₀ t₀, readV g h₀ (.vmap sA₀) = some t₀ →
     ∀ h tA es ow ni h', mergeEntries f h tA es ow ni = some h' →
      (∀ x, ReachH h₀ sA₀ x → lookupH h x = lookupH h₀ x) →
      freshAddr h₀ ≤ freshAddr h →
      RegionClosed (freshAddr h₀) h →
      (∀ x y, x < freshAddr h₀ → EdgeH h x y →
        EdgeH h₀ x y ∨ freshAddr h₀ ≤ y) →
      (∀ p ∈ es, ∀ b, valAddr p.2 = some b → ReachH h₀ sA₀ b) →
      (∀ p ∈ es, ∃ g₂ t₂, readV g₂ h₀ p.2 = some t₂) →
      (∀ x, MReachH h tA x → ¬ ReachH h₀ sA₀ x) →
      (∀ x, ReachH h₀ sA₀ x → lookupH h' x = lookupH h x) ∧
      RegionClosed (freshAddr h₀) h' ∧
      (∀ x y, x < freshAddr h₀ → EdgeH h' x y →
        EdgeH h₀ x y ∨ freshAddr h₀ ≤ y)) := by
  intro f
  induction f with
  | zero =>
    constructor
    · intro g h₀ sA₀ t₀ _ h tA sA ow ni h' hm
      simp [mergeH] at hm
    · intro g h₀ sA₀ t₀ _ h tA es ow ni h' hm
      simp [mergeEntries] at hm
  | succ f ih =>
    obtain ⟨ihM, ihE⟩ := ih
    constructor
    · intro g h₀ sA₀ t₀ hread₀ h tA sA ow ni h' hm hSP hfr hRC hEB hsA htA
      simp only [mergeH] at hm
      rcases hn : lookupH h sA with _ | nd
      · simp [hn] at hm
      · cases nd with
        | seq vs => simp [hn] at hm
        | map ses =>
          simp only [hn] at hm
          have hs0 : lookupH h₀ sA = some (.map ses) := by
            rw [← hSP sA hsA]
            exact hn
          have hesS : ∀ p ∈ ses, ∀ b, valAddr p.2 = some b →
              ReachH h₀ sA₀ b := by
            intro p hp b hb
            refine Relation.ReflTransGen.tail hsA ⟨.map ses, hs0, p.2, ?_, hb⟩
            simp only [nodeValues]
            exact List.mem_map_of_mem Prod.snd hp
          have hesR : ∀ p ∈ ses, ∃ g₂ t₂, readV g₂ h₀ p.2 = some t₂ := by
            have hra0 : ReadsAddr g h₀ sA₀ := Or.inl ⟨t₀, hread₀⟩
            obtain ⟨g₂, hg₂, hra⟩ := readsAddr_reach hsA g hra0
            rcases hra with ⟨t₂, ht₂⟩ | ⟨t₂, ht₂⟩
            · obtain ⟨g₃, es₂, ts₂, hgeq, hn₂, hes₂, hteq⟩ := readV_map_inv ht₂
              rw [hs0] at hn₂
              obtain rfl := Node.map.inj (Option.some.inj hn₂)
              intro p hp
              obtain ⟨t₃, ht₃⟩ := readEntries_mem hes₂ hp
              exact ⟨g₃, t₃, ht₃⟩
            · obtain ⟨g₃, vs₂, ts₂, hgeq, hn₂, hv₂, hteq⟩ := readV_seq_inv ht₂
              rw [hs0] at hn₂
              exact absurd hn₂ (by simp)
          exact ihE g h₀ sA₀ t₀ hread₀ h tA ses ow ni h' hm hSP hfr hRC hEB
            hesS hesR htA
    · intro g h₀ sA₀ t₀ hread₀ h tA es ow ni h' hm hSP hfr hRC hEB hesS hesR htA
      have hSb : ∀ x, ReachH h₀ sA₀ x → x < freshAddr h₀ := by
        intro x hx
        obtain ⟨nd, hnd⟩ :=
          readsAddr_reach_lookup (Or.inl ⟨t₀, hread₀⟩) hx
        exact lookupH_lt_fresh hnd
      match es with
      | [] =>
        simp only [mergeEntries, Option.some.injEq] at hm
        subst hm
        exact ⟨fun x _ => rfl, hRC, hEB⟩
      | (k, v) :: rest =>
        simp only [mergeEntries] at hm
        have hesS0 : ∀ b, valAddr v = some b → ReachH h₀ sA₀ b :=
          fun b hb => hesS (k, v) (List.mem_cons_self _ _) b hb
        have hesR0 : ∃ g₂ t₂, readV g₂ h₀ v = some t₂ :=
          hesR (k, v) (List.mem_cons_self _ _)
        have hesS2 : ∀ p ∈ rest, ∀ b, valAddr p.2 = some b →
            ReachH h₀ sA₀ b :=
          fun p hp => hesS p (List.mem_cons_of_mem _ hp)
        have hesR2 : ∀ p ∈ rest, ∃ g₂ t₂, readV g₂ h₀ p.2 = some t₂ :=
          fun p hp => hesR p (List.mem_cons_of_mem _ hp)
        have hreadv : ∀ {g₂ : Nat} {t₂ : Tree}, readV g₂ h₀ v = some t₂ →
            readV g₂ h v = some t₂ := by
          intro g₂ t₂ hr0
          refine readV_frame hr0 (fun b hb => ?_)
          obtain ⟨r, hvr, hrb⟩ := hb
          exact hSP b (Relation.ReflTransGen.trans (hesS0 r hvr) hrb)
        match v with
        | .vmap aSrc =>
          have hSaSrc : ReachH h₀ sA₀ aSrc := hesS0 aSrc rfl
          rcases he : entryAt h tA k with _ | w
          · simp only [he] at hm
            rcases hd : dupRoot f h aSrc with _ | ⟨h₁, b⟩
            · simp [hd] at hm
            · simp only [hd] at hm
              obtain ⟨hcf, hfb⟩ := dupRoot_frame hd
              obtain ⟨g₂, t₂, hr0⟩ := hesR0
              have hRCd : RegionClosed (freshAddr h) h₁ :=
                dupRoot_fresh (hreadv hr0) hd
              have hSP1 : ∀ x, ReachH h₀ sA₀ x →
                  lookupH (setKey h₁ tA k (.vmap b)) x = lookupH h x := by
                intro x hx
                have hxtA : x ≠ tA := fun hxeq =>
                  htA tA Relation.ReflTransGen.refl (hxeq ▸ hx)
                rw [lookupH_setKey_other h₁ k _ hxtA,
                  hcf.1 x (lt_of_lt_of_le (hSb x hx) hfr)]
              have hRC1 : RegionClosed (freshAddr h₀)
                  (setKey h₁ tA k (.vmap b)) := by
                refine regionClosed_setKey
                  (regionClosed_compose hRC (fun x hx => hcf.1 x hx) hRCd hfr) ?_
                intro b₂ hb₂
                simp only [valAddr, Option.some.injEq] at hb₂
                rw [← hb₂]
                exact le_trans hfr hfb
              have hEB1 : ∀ x y, x < freshAddr h₀ →
                  EdgeH (setKey h₁ tA k (.vmap b)) x y →
                  EdgeH h₀ x y ∨ freshAddr h₀ ≤ y := by
                intro x y hx hedge
                rcases edge_setKey_inv hedge with h1 | ⟨rfl, hval⟩
                · exact hEB x y hx
                    (edge_of_lookup_eq (hcf.1 x (lt_of_lt_of_le hx hfr)) h1)
                · simp only [valAddr, Option.some.injEq] at hval
                  right
                  rw [← hval]
                  exact le_trans hfr hfb
              have V : VmapExt h (setKey h₁ tA k (.vmap b)) :=
                (VmapExt.of_copyFrame hcf).setKey_of
                  (fun b₂ hb => by obtain rfl := Value.vmap.inj hb; exact hfb)
              have htA1 : ∀ x, MReachH (setKey h₁ tA k (.vmap b)) tA x →
                  ¬ ReachH h₀ sA₀ x := by
                intro x hx hSx
                rcases mreach_transfer V hx with ho | hf
                · exact htA x ho hSx
                · exact absurd (hSb x hSx) (not_lt.mpr (le_trans hfr hf))
              obtain ⟨O1, O7, O6⟩ := ihE g h₀ sA₀ t₀ hread₀
                (setKey h₁ tA k (.vmap b)) tA rest ow ni h' hm
                (fun x hx => by rw [hSP1 x hx]; exact hSP x hx)
                (by rw [freshAddr_setKey]; exact le_trans hfr hcf.2.2)
                hRC1 hEB1 hesS2 hesR2 htA1
              exact ⟨fun x hx => by rw [O1 x hx, hSP1 x hx], O7, O6⟩
          · match w with
            | .vmap aDst =>
              simp only [he] at hm
              rcases hr : mergeH f h aDst aSrc ow ni with _ | h₁
              · simp [hr] at hm
              · simp only [hr] at hm
                have htAd : ∀ x, MReachH h aDst x → ¬ ReachH h₀ sA₀ x :=
                  fun x hx => htA x
                    (Relation.ReflTransGen.head (medge_of_entry he) hx)
                obtain ⟨P1, P7, P6⟩ := ihM g h₀ sA₀ t₀ hread₀ h aDst aSrc
                  ow ni h₁ hr hSP hfr hRC hEB hSaSrc htAd
                have V := (merge_vmapext_all f).1 h aDst aSrc ow ni h₁ hr
                have htA1 : ∀ x, MReachH h₁ tA x → ¬ ReachH h₀ sA₀ x := by
                  intro x hx hSx
                  rcases mreach_transfer V hx with ho | hf
                  · exact htA x ho hSx
                  · exact absurd (hSb x hSx) (not_lt.mpr (le_trans hfr hf))
                obtain ⟨O1, O7, O6⟩ := ihE g h₀ sA₀ t₀ hread₀ h₁ tA rest
                  ow ni h' hm
                  (fun x hx => by rw [P1 x hx]; exact hSP x hx)
                  (le_trans hfr V.2) P7 P6 hesS2 hesR2 htA1
                exact ⟨fun x hx => by rw [O1 x hx, P1 x hx], O7, O6⟩
            | .vnull | .vstr _ | .vint _ | .vbool _ | .vseq _ | .vptr _ =>
              simp only [he] at hm
              cases ow with
              | true =>
                rw [if_pos rfl] at hm
                rcases hd : dupRoot f h aSrc with _ | ⟨h₁, b⟩
                · simp [hd] at hm
                · simp only [hd] at hm
                  obtain ⟨hcf, hfb⟩ := dupRoot_frame hd
                  obtain ⟨g₂, t₂, hr0⟩ := hesR0
                  have hRCd : RegionClosed (freshAddr h) h₁ :=
                    dupRoot_fresh (hreadv hr0) hd
                  have hSP1 : ∀ x, ReachH h₀ sA₀ x →
                      lookupH (setKey h₁ tA k (.vmap b)) x = lookupH h x := by
                    intro x hx
                    have hxtA : x ≠ tA := fun hxeq =>
                      htA tA Relation.ReflTransGen.refl (hxeq ▸ hx)
                    rw [lookupH_setKey_other h₁ k _ hxtA,
                      hcf.1 x (lt_of_lt_of_le (hSb x hx) hfr)]
                  have hRC1 : RegionClosed (freshAddr h₀)
                      (setKey h₁ tA k (.vmap b)) := by
                    refine regionClosed_setKey
                      (regionClosed_compose hRC (fun x hx => hcf.1 x hx)
                        hRCd hfr) ?_
                    intro b₂ hb₂
                    simp only [valAddr, Option.some.injEq] at hb₂
                    rw [← hb₂]
                    exact le_trans hfr hfb
                  have hEB1 : ∀ x y, x < freshAddr h₀ →
                      EdgeH (setKey h₁ tA k (.vmap b)) x y →
                      EdgeH h₀ x y ∨ freshAddr h₀ ≤ y := by
                    intro x y hx hedge
                    rcases edge_setKey_inv hedge with h1 | ⟨rfl, hval⟩
                    · exact hEB x y hx
                        (edge_of_lookup_eq (hcf.1 x (lt_of_lt_of_le hx hfr)) h1)
                    · simp only [valAddr, Option.some.injEq] at hval
                      right
                      rw [← hval]
                      exact le_trans hfr hfb
                  have V : VmapExt h (setKey h₁ tA k (.vmap b)) :=
                    (VmapExt.of_copyFrame hcf).setKey_of
                      (fun b₂ hb => by obtain rfl := Value.vmap.inj hb; exact hfb)
                  have htA1 : ∀ x, MReachH (setKey h₁ tA k (.vmap b)) tA x →
                      ¬ ReachH h₀ sA₀ x := by
                    intro x hx hSx
                    rcases mreach_transfer V hx with ho | hf
                    · exact htA x ho hSx
                    · exact absurd (hSb x hSx) (not_lt.mpr (le_trans hfr hf))
                  obtain ⟨O1, O7, O6⟩ := ihE g h₀ sA₀ t₀ hread₀
                    (setKey h₁ tA k (.vmap b)) tA rest true ni h' hm
                    (fun x hx => by rw [hSP1 x hx]; exact hSP x hx)
                    (by rw [freshAddr_setKey]; exact le_trans hfr hcf.2.2)
                    hRC1 hEB1 hesS2 hesR2 htA1
                  exact ⟨fun x hx => by rw [O1 x hx, hSP1 x hx], O7, O6⟩
              | false =>
                rw [if_neg (by simp)] at hm
                exact ihE g h₀ sA₀ t₀ hread₀ h tA rest false ni h' hm
                  hSP hfr hRC hEB hesS2 hesR2 htA
        | .vnull =>
          cases ni with
          | true =>
            rw [if_pos rfl] at hm
            have hSP1 : ∀ x, ReachH h₀ sA₀ x →
                lookupH (setKey h tA k Value.vnull) x = lookupH h x := by
              intro x hx
              have hxtA : x ≠ tA := fun hxeq =>
                htA tA Relation.ReflTransGen.refl (hxeq ▸ hx)
              rw [lookupH_setKey_other h k _ hxtA]
            have hRC1 : RegionClosed (freshAddr h₀)
                (setKey h tA k Value.vnull) :=
              regionClosed_setKey hRC (fun b hb => by simp [valAddr] at hb)
            have hEB1 : ∀ x y, x < freshAddr h₀ →
                EdgeH (setKey h tA k Value.vnull) x y →
                EdgeH h₀ x y ∨ freshAddr h₀ ≤ y := by
              intro x y hx hedge
              rcases edge_setKey_inv hedge with h1 | ⟨rfl, hval⟩
              · exact hEB x y hx h1
              · simp [valAddr] at hval
            have V : VmapExt h (setKey h tA k Value.vnull) :=
              (VmapExt.vext_rfl h).setKey_of (fun b₂ hb => Value.noConfusion hb)
            have htA1 : ∀ x, MReachH (setKey h tA k Value.vnull) tA x →
                ¬ ReachH h₀ sA₀ x := by
              intro x hx hSx
              rcases mreach_transfer V hx with ho | hf
              · exact htA x ho hSx
              · exact absurd (hSb x hSx) (not_lt.mpr (le_trans hfr hf))
            obtain ⟨O1, O7, O6⟩ := ihE g h₀ sA₀ t₀ hread₀
              (setKey h tA k Value.vnull) tA rest ow true h' hm
              (fun x hx => by rw [hSP1 x hx]; exact hSP x hx)
              (by rw [freshAddr_setKey]; exact hfr)
              hRC1 hEB1 hesS2 hesR2 htA1
            exact ⟨fun x hx => by rw [O1 x hx, hSP1 x hx], O7, O6⟩
          | false =>
            rw [if_neg (by simp)] at hm
            exact ihE g h₀ sA₀ t₀ hread₀ h tA rest ow false h' hm
              hSP hfr hRC hEB hesS2 hesR2 htA
        | .vstr s =>
          by_cases hck : (!hasKeyH h tA k || ow) = true
          · simp only [hck, if_true] at hm
            rcases hd : deepCopy f h (.vstr s) with _ | ⟨h₁, v₂⟩
            · simp [hd] at hm
            · simp only [hd] at hm
              obtain ⟨hcf, hvm⟩ := deepCopy_frame hd
              obtain ⟨g₂, t₂, hr0⟩ := hesR0
              obtain ⟨hRCd, hvfr⟩ := deepCopy_fresh (hreadv hr0) hd
              have hSP1 : ∀ x, ReachH h₀ sA₀ x →
                  lookupH (setKey h₁ tA k v₂) x = lookupH h x := by
                intro x hx
                have hxtA : x ≠ tA := fun hxeq =>
                  htA tA Relation.ReflTransGen.refl (hxeq ▸ hx)
                rw [lookupH_setKey_other h₁ k _ hxtA,
                  hcf.1 x (lt_of_lt_of_le (hSb x hx) hfr)]
              have hRC1 : RegionClosed (freshAddr h₀) (setKey h₁ tA k v₂) :=
                regionClosed_setKey
                  (regionClosed_compose hRC (fun x hx => hcf.1 x hx) hRCd hfr)
                  (fun b₂ hb₂ => le_trans hfr (hvfr b₂ hb₂))
              have hEB1 : ∀ x y, x < freshAddr h₀ →
                  EdgeH (setKey h₁ tA k v₂) x y →
                  EdgeH h₀ x y ∨ freshAddr h₀ ≤ y := by
                intro x y hx hedge
                rcases edge_setKey_inv hedge with h1 | ⟨rfl, hval⟩
                · exact hEB x y hx
                    (edge_of_lookup_eq (hcf.1 x (lt_of_lt_of_le hx hfr)) h1)
                · exact Or.inr (le_trans hfr (hvfr y hval))
              have V : VmapExt h (setKey h₁ tA k v₂) :=
                (VmapExt.of_copyFrame hcf).setKey_of hvm
              have htA1 : ∀ x, MReachH (setKey h₁ tA k v₂) tA x →
                  ¬ ReachH h₀ sA₀ x := by
                intro x hx hSx
                rcases mreach_transfer V hx with ho | hf
                · exact htA x ho hSx
                · exact absurd (hSb x hSx) (not_lt.mpr (le_trans hfr hf))
              obtain ⟨O1, O7, O6⟩ := ihE g h₀ sA₀ t₀ hread₀
                (setKey h₁ tA k v₂) tA rest ow ni h' hm
                (fun x hx => by rw [hSP1 x hx]; exact hSP x hx)
                (by rw [freshAddr_setKey]; exact le_trans hfr hcf.2.2)
                hRC1 hEB1 hesS2 hesR2 htA1
              exact ⟨fun x hx => by rw [O1 x hx, hSP1 x hx], O7, O6⟩
          · simp only [hck, if_false] at hm
            exact ihE g h₀ sA₀ t₀ hread₀ h tA rest ow ni h' hm
              hSP hfr hRC hEB hesS2 hesR2 htA
        | .vint n =>
          by_cases hck : (!hasKeyH h tA k || ow) = true
          · simp only [hck, if_true] at hm
            rcases hd : deepCopy f h (.vint n) with _ | ⟨h₁, v₂⟩
            · simp [hd] at hm
            · simp only [hd] at hm
              obtain ⟨hcf, hvm⟩ := deepCopy_frame hd
              obtain ⟨g₂, t₂, hr0⟩ := hesR0
              obtain ⟨hRCd, hvfr⟩ := deepCopy_fresh (hreadv hr0) hd
              have hSP1 : ∀ x, ReachH h₀ sA₀ x →
                  lookupH (setKey h₁ tA k v₂) x = lookupH h x := by
                intro x hx
                have hxtA : x ≠ tA := fun hxeq =>
                  htA tA Relation.ReflTransGen.refl (hxeq ▸ hx)
                rw [lookupH_setKey_other h₁ k _ hxtA,
                  hcf.1 x (lt_of_lt_of_le (hSb x hx) hfr)]
              have hRC1 : RegionClosed (freshAddr h₀) (setKey h₁ tA k v₂) :=
                regionClosed_setKey
                  (regionClosed_compose hRC (fun x hx => hcf.1 x hx) hRCd hfr)
                  (fun b₂ hb₂ => le_trans hfr (hvfr b₂ hb₂))
              have hEB1 : ∀ x y, x < freshAddr h₀ →
                  EdgeH (setKey h₁ tA k v₂) x y →
                  EdgeH h₀ x y ∨ freshAddr h₀ ≤ y := by
                intro x y hx hedge
                rcases edge_setKey_inv hedge with h1 | ⟨rfl, hval⟩
                · exact hEB x y hx
                    (edge_of_lookup_eq (hcf.1 x (lt_of_lt_of_le hx hfr)) h1)
                · exact Or.inr (le_trans hfr (hvfr y hval))
              have V : VmapExt h (setKey h₁ tA k v₂) :=
                (VmapExt.of_copyFrame hcf).setKey_of hvm
              have htA1 : ∀ x, MReachH (setKey h₁ tA k v₂) tA x →
                  ¬ ReachH h₀ sA₀ x := by
                intro x hx hSx
                rcases mreach_transfer V hx with ho | hf
                · exact htA x ho hSx
                · exact absurd (hSb x hSx) (not_lt.mpr (le_trans hfr hf))
              obtain ⟨O1, O7, O6⟩ := ihE g h₀ sA₀ t₀ hread₀
                (setKey h₁ tA k v₂) tA rest ow ni h' hm
                (fun x hx => by rw [hSP1 x hx]; exact hSP x hx)
                (by rw [freshAddr_setKey]; exact le_trans hfr hcf.2.2)
                hRC1 hEB1 hesS2 hesR2 htA1
              exact ⟨fun x hx => by rw [O1 x hx, hSP1 x hx], O7, O6⟩
          · simp only [hck, if_false] at hm
            exact ihE g h₀ sA₀ t₀ hread₀ h tA rest ow ni h' hm
              hSP hfr hRC hEB hesS2 hesR2 htA
        | .vbool b2 =>
          by_cases hck : (!hasKeyH h tA k || ow) = true
          · simp only [hck, if_true] at hm
            rcases hd : deepCopy f h (.vbool b2) with _ | ⟨h₁, v₂⟩
            · simp [hd] at hm
            · simp only [hd] at hm
              obtain ⟨hcf, hvm⟩ := deepCopy_frame hd
              obtain ⟨g₂, t₂, hr0⟩ := hesR0
              obtain ⟨hRCd, hvfr⟩ := deepCopy_fresh (hreadv hr0) hd
              have hSP1 : ∀ x, ReachH h₀ sA₀ x →
                  lookupH (setKey h₁ tA k v₂) x = lookupH h x := by
                intro x hx
                have hxtA : x ≠ tA := fun hxeq =>
                  htA tA Relation.ReflTransGen.refl (hxeq ▸ hx)
                rw [lookupH_setKey_other h₁ k _ hxtA,
                  hcf.1 x (lt_of_lt_of_le (hSb x hx) hfr)]
              have hRC1 : RegionClosed (freshAddr h₀) (setKey h₁ tA k v₂) :=
                regionClosed_setKey
                  (regionClosed_compose hRC (fun x hx => hcf.1 x hx) hRCd hfr)
                  (fun b₂ hb₂ => le_trans hfr (hvfr b₂ hb₂))
              have hEB1 : ∀ x y, x < freshAddr h₀ →
                  EdgeH (setKey h₁ tA k v₂) x y →
                  EdgeH h₀ x y ∨ freshAddr h₀ ≤ y := by
                intro x y hx hedge
                rcases edge_setKey_inv hedge with h1 | ⟨rfl, hval⟩
                · exact hEB x y hx
                    (edge_of_lookup_eq (hcf.1 x (lt_of_lt_of_le hx hfr)) h1)
                · exact Or.inr (le_trans hfr (hvfr y hval))
              have V : VmapExt h (setKey h₁ tA k v₂) :=
                (VmapExt.of_copyFrame hcf).setKey_of hvm
              have htA1 : ∀ x, MReachH (setKey h₁ tA k v₂) tA x →
                  ¬ ReachH h₀ sA₀ x := by
                intro x hx hSx
                rcases mreach_transfer V hx with ho | hf
                · exact htA x ho hSx
                · exact absurd (hSb x hSx) (not_lt.mpr (le_trans hfr hf))
              obtain ⟨O1, O7, O6⟩ := ihE g h₀ sA₀ t₀ hread₀
                (setKey h₁ tA k v₂) tA rest ow ni h' hm
                (fun x hx => by rw [hSP1 x hx]; exact hSP x hx)
                (by rw [freshAddr_setKey]; exact le_trans hfr hcf.2.2)
                hRC1 hEB1 hesS2 hesR2 htA1
              exact ⟨fun x hx => by rw [O1 x hx, hSP1 x hx], O7, O6⟩
          · simp only [hck, if_false] at hm
            exact ihE g h₀ sA₀ t₀ hread₀ h tA rest ow ni h' hm
              hSP hfr hRC hEB hesS2 hesR2 htA
        | .vseq q =>
          by_cases hck : (!hasKeyH h tA k || ow) = true
          · simp only [hck, if_true] at hm
            rcases hd : deepCopy f h (.vseq q) with _ | ⟨h₁, v₂⟩
            · simp [hd] at hm
            · simp only [hd] at hm
              obtain ⟨hcf, hvm⟩ := deepCopy_frame hd
              obtain ⟨g₂, t₂, hr0⟩ := hesR0
              obtain ⟨hRCd, hvfr⟩ := deepCopy_fresh (hreadv hr0) hd
              have hSP1 : ∀ x, ReachH h₀ sA₀ x →
                  lookupH (setKey h₁ tA k v₂) x = lookupH h x := by
                intro x hx
                have hxtA : x ≠ tA := fun hxeq =>
                  htA tA Relation.ReflTransGen.refl (hxeq ▸ hx)
                rw [lookupH_setKey_other h₁ k _ hxtA,
                  hcf.1 x (lt_of_lt_of_le (hSb x hx) hfr)]
              have hRC1 : RegionClosed (freshAddr h₀) (setKey h₁ tA k v₂) :=
                regionClosed_setKey
                  (regionClosed_compose hRC (fun x hx => hcf.1 x hx) hRCd hfr)
                  (fun b₂ hb₂ => le_trans hfr (hvfr b₂ hb₂))
              have hEB1 : ∀ x y, x < freshAddr h₀ →
                  EdgeH (setKey h₁ tA k v₂) x y →
                  EdgeH h₀ x y ∨ freshAddr h₀ ≤ y := by
                intro x y hx hedge
                rcases edge_setKey_inv hedge with h1 | ⟨rfl, hval⟩
                · exact hEB x y hx
                    (edge_of_lookup_eq (hcf.1 x (lt_of_lt_of_le hx hfr)) h1)
                · exact Or.inr (le_trans hfr (hvfr y hval))
              have V : VmapExt h (setKey h₁ tA k v₂) :=
                (VmapExt.of_copyFrame hcf).setKey_of hvm
              have htA1 : ∀ x, MReachH (setKey h₁ tA k v₂) tA x →
                  ¬ ReachH h₀ sA₀ x := by
                intro x hx hSx
                rcases mreach_transfer V hx with ho | hf
                · exact htA x ho hSx
                · exact absurd (hSb x hSx) (not_lt.mpr (le_trans hfr hf))
              obtain ⟨O1, O7, O6⟩ := ihE g h₀ sA₀ t₀ hread₀
                (setKey h₁ tA k v₂) tA rest ow ni h' hm
                (fun x hx => by rw [hSP1 x hx]; exact hSP x hx)
                (by rw [freshAddr_setKey]; exact le_trans hfr hcf.2.2)
                hRC1 hEB1 hesS2 hesR2 htA1
              exact ⟨fun x hx => by rw [O1 x hx, hSP1 x hx], O7, O6⟩
          · simp only [hck, if_false] at hm
            exact ihE g h₀ sA₀ t₀ hread₀ h tA rest ow ni h' hm
              hSP hfr hRC hEB hesS2 hesR2 htA
        | .vptr q =>
          by_cases hck : (!hasKeyH h tA k || ow) = true
          · simp only [hck, if_true] at hm
            obtain ⟨g₂, t₂, hr0⟩ := hesR0
            exact absurd hr0 (by cases g₂ <;> simp [readV])
          · simp only [hck, if_false] at hm
            exact ihE g h₀ sA₀ t₀ hread₀ h tA rest ow ni h' hm
              hSP hfr hRC hEB hesS2 hesR2 htA

/-! # Claims -/

/-- C1: `Dup(M)` is structurally equal to `M` at the moment of copy (both
sides read the same tree, hence same key sets and recursively equal
values), and afterwards mutating any container reachable from one side
leaves the other side's whole tree unchanged: the two reachable regions
are disjoint, so no mutable container is shared.  The readability
hypothesis `readN g h a = some t` confines `M` to the spec's canonical
data model (nested `Mapping`s, sequences, scalars, null). -/
theorem dup_structural_equality_and_independence {f g : Nat} {h : Heap}
    {a : Addr} {t : Tree} {h₁ : Heap} {a' : Addr}
    (hr : readN g h a = some t) (hd : dupRoot f h a = some (h₁, a')) :
    readN g h₁ a' = some t ∧ readN g h₁ a = some t ∧
    (∀ b, ReachH h₁ a' b → ReachH h₁ a b → False) ∧
    (∀ b nd, ReachH h₁ a' b → readN g (updateH h₁ b nd) a = some t) ∧
    (∀ b nd, ReachH h₁ a b → readN g (updateH h₁ b nd) a' = some t) := by
  have hext : HExt h h₁ := dupRoot_ext hd
  have hA := dupRoot_correct hr hd
  have hB : readN g h₁ a = some t := readV_hext hr hext
  have hdisj : ∀ b, ReachH h₁ a' b → ReachH h₁ a b → False := by
    intro b hb' hb
    have h1 : freshAddr h ≤ b := hA.2 b hb'
    have h2 : ReachVH h (.vmap a) b :=
      (reachVH_hext_iff hr hext b).1 ⟨a, rfl, hb⟩
    obtain ⟨nd, hnd⟩ := readV_reach_lookup hr h2
    have h3 : b < freshAddr h := lookupH_lt_fresh hnd
    exact absurd h1 (not_le.mpr h3)
  refine ⟨hA.1, hB, hdisj, ?_, ?_⟩
  · intro b nd hb'
    refine readV_update_unreachable hB ?_ nd
    rintro ⟨r, hvr, hb⟩
    obtain rfl : a = r := by simpa [valAddr] using hvr
    exact hdisj b hb' hb
  · intro b nd hb
    refine readV_update_unreachable hA.1 ?_ nd
    rintro ⟨r, hvr, hb'⟩
    obtain rfl : a' = r := by simpa [valAddr] using hvr
    exact hdisj b hb' hb

theorem dup_structural_equality_and_independence_witness :
    (readN 3 [(0, Node.map [("x", Value.vint 1)])] 0
        = some (.tmap [("x", .tint 1)]) ∧
     dupRoot 2 [(0, Node.map [("x", Value.vint 1)])] 0
        = some ([(1, Node.map [("x", Value.vint 1)]),
                 (0, Node.map [("x", Value.vint 1)])], 1)) ∧
    readN 3 [(1, Node.map [("x", Value.vint 1)]),
             (0, Node.map [("x", Value.vint 1)])] 1
      = some (.tmap [("x", .tint 1)]) :=
  ⟨⟨by rfl, by rfl⟩,
    (@dup_structural_equality_and_independence 2 3
      [(0, Node.map [("x", Value.vint 1)])] 0 (.tmap [("x", .tint 1)])
      [(1, Node.map [("x", Value.vint 1)]), (0, Node.map [("x", Value.vint 1)])] 1
      (by rfl) (by rfl)).1⟩

/-- C2: on a readable `Mapping` and a non-empty path, `DigMapping`
returns a live map container of the receiver's own tree: assigning `v`
under key `c` through the returned reference is immediately visible to
`Dig` on the receiver along the path extended by `c`.  Instantiated on an
empty `Mapping` with path `["a","b"]` (see the witness), this is exactly
the spec scenario: the intermediate mappings are created and a subsequent
write is visible through `Dig("a","b","c")`. -/
theorem digMapping_returns_live_mapping {keys : List String}
    (hkeys : keys ≠ []) {g : Nat} {h : Heap} {a : Addr} {t : Tree}
    {h₁ : Heap} {r : Addr} (hr : readN g h a = some t)
    (hd : digMapping h a keys = some (h₁, r)) :
    (∃ es₁, lookupH h₁ r = some (.map es₁)) ∧
    ∀ c v, dig (setKey h₁ r c v) a (keys ++ [c]) = v := by
  obtain ⟨_, _, _, h4, h5, _, _⟩ := digMapping_master keys hr hd
  exact ⟨h4, h5⟩

theorem digMapping_returns_live_mapping_witness :
    ((["a", "b"] : List String) ≠ [] ∧
     readN 2 [(0, Node.map [])] 0 = some (.tmap []) ∧
     digMapping [(0, Node.map [])] 0 ["a", "b"]
       = some ([(2, Node.map []), (1, Node.map [("b", Value.vmap 2)]),
                (0, Node.map [("a", Value.vmap 1)])], 2)) ∧
    dig (setKey [(2, Node.map []), (1, Node.map [("b", Value.vmap 2)]),
          (0, Node.map [("a", Value.vmap 1)])] 2 "c" (.vint 1))
        0 (["a", "b"] ++ ["c"]) = .vint 1 :=
  ⟨⟨by decide, by rfl, by rfl⟩,
    (@digMapping_returns_live_mapping ["a", "b"] (by decide) 2
      [(0, Node.map [])] 0 (.tmap [])
      [(2, Node.map []), (1, Node.map [("b", Value.vmap 2)]),
       (0, Node.map [("a", Value.vmap 1)])] 2
      (by rfl) (by rfl)).2 "c" (.vint 1)⟩

/-- C6: on a readable `Mapping`, `DigMapping` with the same non-empty
path is idempotent: the second call returns a reference to the very same
live container and leaves the heap untouched (so content written through
the first result is still present), and even after writing a key through
the first result the second call still returns the same container without
recreating or clearing anything. -/
theorem digMapping_idempotent {keys : List String} (hkeys : keys ≠ [])
    {g : Nat} {h : Heap} {a : Addr} {t : Tree} {h₁ : Heap} {r : Addr}
    (hr : readN g h a = some t)
    (hd : digMapping h a keys = some (h₁, r)) :
    digMapping h₁ a keys = some (h₁, r) ∧
    ∀ c v, digMapping (setKey h₁ r c v) a keys
      = some (setKey h₁ r c v, r) := by
  obtain ⟨_, _, _, _, _, h6, h7⟩ := digMapping_master keys hr hd
  exact ⟨h6, h7⟩

theorem digMapping_idempotent_witness :
    ((["a", "b"] : List String) ≠ [] ∧
     readN 2 [(0, Node.map [])] 0 = some (.tmap []) ∧
     digMapping [(0, Node.map [])] 0 ["a", "b"]
       = some ([(2, Node.map []), (1, Node.map [("b", Value.vmap 2)]),
                (0, Node.map [("a", Value.vmap 1)])], 2)) ∧
    digMapping [(2, Node.map []), (1, Node.map [("b", Value.vmap 2)]),
        (0, Node.map [("a", Value.vmap 1)])] 0 ["a", "b"]
      = some ([(2, Node.map []), (1, Node.map [("b", Value.vmap 2)]),
               (0, Node.map [("a", Value.vmap 1)])], 2) :=
  ⟨⟨by decide, by rfl, by rfl⟩,
    (@digMapping_idempotent ["a", "b"] (by decide) 2
      [(0, Node.map [])] 0 (.tmap [])
      [(2, Node.map []), (1, Node.map [("b", Value.vmap 2)]),
       (0, Node.map [("a", Value.vmap 1)])] 2
      (by rfl) (by rfl)).1⟩

/-- C8: `DigMapping` with an empty path indexes `keys[0]` of an empty
slice and panics before touching the receiver: the call yields no
`Mapping` and performs no modification (there is no result heap at all),
rather than silently defaulting. -/
theorem digMapping_empty_path_rejected (h : Heap) (a : Addr) :
    digMapping h a [] = none := rfl

/-- C7: normalization establishes the canonical-form invariant.  Every
value in the image of a decoder (raw maps, sequences, scalars — no
`Mapping` yet) normalizes to a value in which every map-shaped node, at
any depth including inside sequences, is of the canonical `Mapping` type;
and decoding `{"foo": [{"bar": "baz"}]}` yields a `Mapping` whose
`Dig("foo")` is a sequence whose first element is a `Mapping` with
`Dig("bar") == "baz"`. -/
theorem normalization_canonical_invariant :
    (∀ v : GoVal, decoderShaped v = true → canonicalV (cleanUpValue v) = true) ∧
    digG (unmarshalJSON jsonFooEntries) ["foo"]
      = .garr [.gmapping [("bar", .gstr "baz")]] ∧
    digG (.gmapping [("bar", .gstr "baz")]) ["bar"] = .gstr "baz" :=
  ⟨cleanUp_canonical, rfl, rfl⟩

theorem normalization_canonical_invariant_witness :
    decoderShaped (.grawS jsonFooEntries) = true ∧
    canonicalV (cleanUpValue (.grawS jsonFooEntries)) = true :=
  ⟨rfl, normalization_canonical_invariant.1 (.grawS jsonFooEntries) rfl⟩

/-- C9: `Merge` never removes a key.  Every write it performs is a map
assignment `m[k] = v` (which inserts or replaces, never deletes) or a
fresh allocation, so every key present in any container of the target
heap — in particular every key of the target `Mapping` itself, including
one nillified to `nil` — is still present afterwards and `HasKey` still
answers `true`. -/
theorem merge_never_removes_keys {f : Nat} {h : Heap} {tA sA : Addr}
    {ow ni : Bool} {h' : Heap} (hm : mergeH f h tA sA ow ni = some h') :
    ∀ x k, hasKeyH h x k = true → hasKeyH h' x k = true := by
  intro x k hk
  exact (merge_grow f).1 h tA sA ow ni h' hm x k hk

theorem merge_never_removes_keys_witness :
    mergeH 10 [(0, Node.map [("a", Value.vint 1)]),
               (1, Node.map [("a", Value.vnull), ("b", Value.vint 2)])] 0 1 false true
      = some [(0, Node.map [("a", Value.vnull), ("b", Value.vint 2)]),
              (1, Node.map [("a", Value.vnull), ("b", Value.vint 2)])] ∧
    hasKeyH [(0, Node.map [("a", Value.vint 1)]),
             (1, Node.map [("a", Value.vnull), ("b", Value.vint 2)])] 0 "a" = true ∧
    hasKeyH [(0, Node.map [("a", Value.vnull), ("b", Value.vint 2)]),
             (1, Node.map [("a", Value.vnull), ("b", Value.vint 2)])] 0 "a" = true :=
  ⟨by decide, by decide,
    @merge_never_removes_keys 10
      [(0, Node.map [("a", Value.vint 1)]),
       (1, Node.map [("a", Value.vnull), ("b", Value.vint 2)])] 0 1 false true
      [(0, Node.map [("a", Value.vnull), ("b", Value.vint 2)]),
       (1, Node.map [("a", Value.vnull), ("b", Value.vint 2)])]
      (by decide) 0 "a" (by decide)⟩

/-- C10: `deepCopy` only recurses into values of `reflect.Kind` `Map` or
`Slice`; any other reference kind — for example a `*Mapping` pointer —
falls into the `default` branch and is returned as-is, so `Dup(M)[k]` is
the identical reference as `M[k]`: both sides point at the very same
container `p` and a mutation of `p` is visible through both. -/
theorem dup_shares_other_reference_kinds {f : Nat} {h : Heap} {a : Addr}
    {k : String} {p : Addr} {h₁ : Heap} {a' : Addr}
    (he : entryAt h a k = some (.vptr p))
    (hd : dupRoot f h a = some (h₁, a')) :
    entryAt h₁ a' k = some (.vptr p) ∧ entryAt h₁ a k = some (.vptr p) ∧
    dig h₁ a' [k] = .vptr p ∧ dig h₁ a [k] = .vptr p := by
  unfold dupRoot at hd
  rcases hn : lookupH h a with _ | nd
  · rw [entryAt, hn] at he; exact absurd he (by simp)
  · cases nd with
    | seq vs => rw [entryAt, hn] at he; exact absurd he (by simp)
    | map es =>
      rw [entryAt, hn] at he
      simp only [hn] at hd
      rcases hc : copyEntries f h es with _ | ⟨h₂, es'⟩
      · simp [hc] at hd
      · simp only [hc, allocH, Option.some.injEq, Prod.mk.injEq] at hd
        obtain ⟨rfl, rfl⟩ := hd
        have hfind := copyEntries_find_ptr hc he
        have h1 : entryAt ((freshAddr h₂, Node.map es') :: h₂) (freshAddr h₂) k
            = some (.vptr p) := by
          rw [entryAt, lookupH_cons, if_pos rfl]
          exact hfind
        have h2 : entryAt ((freshAddr h₂, Node.map es') :: h₂) a k
            = some (.vptr p) := by
          have hold : lookupH h₂ a = some (.map es) := (copyEntries_ext hc).2 a _ hn
          rw [entryAt, lookupH_alloc_old _ hold]
          exact he
        exact ⟨h1, h2, dig_single h1, dig_single h2⟩

theorem dup_shares_other_reference_kinds_witness :
    entryAt [(5, Node.map [("x", Value.vptr 9)])] 5 "x" = some (.vptr 9) ∧
    dupRoot 3 [(5, Node.map [("x", Value.vptr 9)])] 5
      = some ([(6, Node.map [("x", Value.vptr 9)]), (5, Node.map [("x", Value.vptr 9)])], 6) ∧
    (entryAt [(6, Node.map [("x", Value.vptr 9)]), (5, Node.map [("x", Value.vptr 9)])] 6 "x"
        = some (.vptr 9) ∧
     entryAt [(6, Node.map [("x", Value.vptr 9)]), (5, Node.map [("x", Value.vptr 9)])] 5 "x"
        = some (.vptr 9) ∧
     dig [(6, Node.map [("x", Value.vptr 9)]), (5, Node.map [("x", Value.vptr 9)])] 6 ["x"]
        = .vptr 9 ∧
     dig [(6, Node.map [("x", Value.vptr 9)]), (5, Node.map [("x", Value.vptr 9)])] 5 ["x"]
        = .vptr 9) :=
  ⟨by decide, by decide,
    @dup_shares_other_reference_kinds 3 [(5, Node.map [("x", Value.vptr 9)])] 5 "x" 9
      [(6, Node.map [("x", Value.vptr 9)]), (5, Node.map [("x", Value.vptr 9)])] 6
      (by decide) (by decide)⟩


/-- C3: for a target `Mapping` holding a scalar at `k` (target readable,
so reference-cycle-free) and a source `Mapping` holding a scalar `sv` at
`k`, `Merge` without the overwrite option leaves the target's value at
`k` unchanged, and with the overwrite option replaces it by `sv`. -/
theorem merge_scalar_overwrite_policy {f g : Nat} {h : Heap} {tA sA : Addr}
    {t : Tree} {ses : List (String × Value)} {k : String} {sv w : Value}
    {ow ni : Bool} {h' : Heap}
    (hreadT : readN g h tA = some t)
    (hsrc : lookupH h sA = some (.map ses))
    (hnodup : (ses.map Prod.fst).Nodup)
    (hfind : assocFind ses k = some sv) (hsv : isScalar sv = true)
    (htgt : entryAt h tA k = some w) (hw : isScalar w = true)
    (hm : mergeH f h tA sA ow ni = some h') :
    entryAt h' tA k = some (if ow then sv else w) := by
  have hreadT₂ : readV g h (.vmap tA) = some t := hreadT
  have hra : ReadsAddr g h tA := Or.inl ⟨t, hreadT₂⟩
  have hnc : ¬ Relation.TransGen (MEdgeH h) tA tA := fun hcyc =>
    readable_no_cycle g tA hra
      (Relation.TransGen.mono (fun _ _ he => medge_to_edge he) hcyc)
  obtain ⟨nd, hnd⟩ := readsAddr_lookup hra
  have htlt : tA < freshAddr h := lookupH_lt_fresh hnd
  obtain ⟨g₁, tes, ts₂, hgeq, htes, hre, hteq⟩ := readV_map_inv hreadT₂
  match f, hm with
  | 0, hm => simp [mergeH] at hm
  | f₁ + 1, hm =>
    simp only [mergeH, hsrc] at hm
    exact (mergeEntries_key_outcome f₁ h tA ses ow ni h' k sv hm hnc htlt
      ⟨tes, htes⟩ hnodup hfind).1 hsv w htgt hw

theorem merge_scalar_overwrite_policy_witness :
    mergeH 10 [(0, Node.map [("k", Value.vstr "old"), ("u", Value.vint 7)]),
               (1, Node.map [("k", Value.vstr "new")])] 0 1 true false
      = some [(0, Node.map [("k", Value.vstr "new"), ("u", Value.vint 7)]),
              (1, Node.map [("k", Value.vstr "new")])] ∧
    mergeH 10 [(0, Node.map [("k", Value.vstr "old"), ("u", Value.vint 7)]),
               (1, Node.map [("k", Value.vstr "new")])] 0 1 false false
      = some [(0, Node.map [("k", Value.vstr "old"), ("u", Value.vint 7)]),
              (1, Node.map [("k", Value.vstr "new")])] ∧
    entryAt [(0, Node.map [("k", Value.vstr "new"), ("u", Value.vint 7)]),
             (1, Node.map [("k", Value.vstr "new")])] 0 "k"
      = some (Value.vstr "new") ∧
    entryAt [(0, Node.map [("k", Value.vstr "old"), ("u", Value.vint 7)]),
             (1, Node.map [("k", Value.vstr "new")])] 0 "k"
      = some (Value.vstr "old") :=
  ⟨by decide, by decide,
    @merge_scalar_overwrite_policy 10 4
      [(0, Node.map [("k", Value.vstr "old"), ("u", Value.vint 7)]),
       (1, Node.map [("k", Value.vstr "new")])] 0 1
      (.tmap [("k", .tstr "old"), ("u", .tint 7)])
      [("k", Value.vstr "new")] "k" (Value.vstr "new") (Value.vstr "old")
      true false
      [(0, Node.map [("k", Value.vstr "new"), ("u", Value.vint 7)]),
       (1, Node.map [("k", Value.vstr "new")])]
      (by rfl) (by decide) (by decide) (by decide) (by decide) (by decide)
      (by decide) (by decide),
    @merge_scalar_overwrite_policy 10 4
      [(0, Node.map [("k", Value.vstr "old"), ("u", Value.vint 7)]),
       (1, Node.map [("k", Value.vstr "new")])] 0 1
      (.tmap [("k", .tstr "old"), ("u", .tint 7)])
      [("k", Value.vstr "new")] "k" (Value.vstr "new") (Value.vstr "old")
      false false
      [(0, Node.map [("k", Value.vstr "old"), ("u", Value.vint 7)]),
       (1, Node.map [("k", Value.vstr "new")])]
      (by rfl) (by decide) (by decide) (by decide) (by decide) (by decide)
      (by decide) (by decide)⟩

/-- C4: for a readable target `Mapping` and a source `Mapping` whose
value at `k` is null, `Merge` with the nillify option forces the
target's entry at `k` to null (whatever it held before), and without
the option leaves the target's state at `k` exactly as it was. -/
theorem merge_nillify_policy {f g : Nat} {h : Heap} {tA sA : Addr}
    {t : Tree} {ses : List (String × Value)} {k : String}
    {ow ni : Bool} {h' : Heap}
    (hreadT : readN g h tA = some t)
    (hsrc : lookupH h sA = some (.map ses))
    (hnodup : (ses.map Prod.fst).Nodup)
    (hfind : assocFind ses k = some .vnull)
    (hm : mergeH f h tA sA ow ni = some h') :
    entryAt h' tA k = if ni then some Value.vnull else entryAt h tA k := by
  have hreadT₂ : readV g h (.vmap tA) = some t := hreadT
  have hra : ReadsAddr g h tA := Or.inl ⟨t, hreadT₂⟩
  have hnc : ¬ Relation.TransGen (MEdgeH h) tA tA := fun hcyc =>
    readable_no_cycle g tA hra
      (Relation.TransGen.mono (fun _ _ he => medge_to_edge he) hcyc)
  obtain ⟨nd, hnd⟩ := readsAddr_lookup hra
  have htlt : tA < freshAddr h := lookupH_lt_fresh hnd
  obtain ⟨g₁, tes, ts₂, hgeq, htes, hre, hteq⟩ := readV_map_inv hreadT₂
  match f, hm with
  | 0, hm => simp [mergeH] at hm
  | f₁ + 1, hm =>
    simp only [mergeH, hsrc] at hm
    exact (mergeEntries_key_outcome f₁ h tA ses ow ni h' k .vnull hm hnc htlt
      ⟨tes, htes⟩ hnodup hfind).2 rfl

theorem merge_nillify_policy_witness :
    mergeH 10 [(0, Node.map [("k", Value.vstr "x")]),
               (1, Node.map [("k", Value.vnull)])] 0 1 false true
      = some [(0, Node.map [("k", Value.vnull)]),
              (1, Node.map [("k", Value.vnull)])] ∧
    mergeH 10 [(0, Node.map [("k", Value.vstr "x")]),
               (1, Node.map [("k", Value.vnull)])] 0 1 false false
      = some [(0, Node.map [("k", Value.vstr "x")]),
              (1, Node.map [("k", Value.vnull)])] ∧
    entryAt [(0, Node.map [("k", Value.vnull)]),
             (1, Node.map [("k", Value.vnull)])] 0 "k" = some Value.vnull ∧
    entryAt [(0, Node.map [("k", Value.vstr "x")]),
             (1, Node.map [("k", Value.vnull)])] 0 "k"
      = some (Value.vstr "x") :=
  ⟨by decide, by decide,
    @merge_nillify_policy 10 3
      [(0, Node.map [("k", Value.vstr "x")]),
       (1, Node.map [("k", Value.vnull)])] 0 1
      (.tmap [("k", .tstr "x")]) [("k", Value.vnull)] "k" false true
      [(0, Node.map [("k", Value.vnull)]), (1, Node.map [("k", Value.vnull)])]
      (by rfl) (by decide) (by decide) (by decide) (by decide),
    @merge_nillify_policy 10 3
      [(0, Node.map [("k", Value.vstr "x")]),
       (1, Node.map [("k", Value.vnull)])] 0 1
      (.tmap [("k", .tstr "x")]) [("k", Value.vnull)] "k" false false
      [(0, Node.map [("k", Value.vstr "x")]), (1, Node.map [("k", Value.vnull)])]
      (by rfl) (by decide) (by decide) (by decide) (by decide)⟩


/-- C5: `Merge` never mutates its source and aliases nothing from it.
For a readable source disjoint from the (readable) target region: every
container reachable from the source keeps its exact contents, the source
still reads as the same tree, the two regions are still disjoint after
the merge (inserted values are deep copies, not shared references), and
mutating any container reachable from the target leaves every read of
the source unchanged. -/
theorem merge_source_frame {f g gt : Nat} {h : Heap} {tA sA : Addr}
    {ts tt : Tree} {ow ni : Bool} {h' : Heap}
    (hreadS : readN g h sA = some ts)
    (hreadT : readN gt h tA = some tt)
    (hdisj : ∀ x, ReachH h tA x → ReachH h sA x → False)
    (hm : mergeH f h tA sA ow ni = some h') :
    (∀ x, ReachH h sA x → lookupH h' x = lookupH h x) ∧
    readN g h' sA = some ts ∧
    (∀ x, ReachH h' tA x → ReachH h' sA x → False) ∧
    (∀ b nd, ReachH h' tA b → readN g (updateH h' b nd) sA = some ts) := by
  have hreadS₂ : readV g h (.vmap sA) = some ts := hreadS
  have hreadT₂ : readV gt h (.vmap tA) = some tt := hreadT
  have hSb : ∀ x, ReachH h sA x → x < freshAddr h := by
    intro x hx
    obtain ⟨nd, hnd⟩ := readsAddr_reach_lookup (Or.inl ⟨ts, hreadS₂⟩) hx
    exact lookupH_lt_fresh hnd
  have hTb : ∀ x, ReachH h tA x → x < freshAddr h := by
    intro x hx
    obtain ⟨nd, hnd⟩ := readsAddr_reach_lookup (Or.inl ⟨tt, hreadT₂⟩) hx
    exact lookupH_lt_fresh hnd
  have O1 : ∀ x, ReachH h sA x → lookupH h' x = lookupH h x := by
    intro x hx
    refine (merge_frame_all f).1 h tA sA ow ni h' hm x ?_ (hSb x hx)
    intro hmr
    exact hdisj x (mreach_le_reach hmr) hx
  have O2 : readV g h' (.vmap sA) = some ts := by
    refine readV_frame hreadS₂ (fun b hb => ?_)
    obtain ⟨r, hvr, hrb⟩ := hb
    simp only [valAddr, Option.some.injEq] at hvr
    subst hvr
    exact O1 b hrb
  obtain ⟨_, hRC₂, hEB₂⟩ := (merge_source_all f).1 g h sA ts hreadS₂
    h tA sA ow ni h' hm (fun x _ => rfl) (le_refl _) (regionClosed_fresh h)
    (fun x y _ he => Or.inl he) Relation.ReflTransGen.refl
    (fun x hmr hSx => hdisj x (mreach_le_reach hmr) hSx)
  have hreachT : ∀ x, ReachH h' tA x → ReachH h tA x ∨ freshAddr h ≤ x := by
    intro x hx
    induction hx with
    | refl => exact Or.inl Relation.ReflTransGen.refl
    | tail hxy hstep ih =>
      rcases ih with ho | hf
      · rcases hEB₂ _ _ (hTb _ ho) hstep with he0 | hfy
        · exact Or.inl (ho.tail he0)
        · exact Or.inr hfy
      · obtain ⟨nd, hnd, w, hw, hvw⟩ := hstep
        exact Or.inr (hRC₂ _ nd hf hnd w hw _ hvw)
  have O3 : ∀ x, ReachH h' tA x → ReachH h' sA x → False := by
    intro x hTx hSx
    have hSx0 : ReachH h sA x := reach_frame_bwd (fun z hz => O1 z hz) hSx
    rcases hreachT x hTx with ho | hf
    · exact hdisj x ho hSx0
    · exact absurd (hSb x hSx0) (not_lt.mpr hf)
  refine ⟨O1, O2, O3, ?_⟩
  intro b nd hTbx
  refine readV_update_unreachable O2 ?_ nd
  rintro ⟨r, hvr, hrb⟩
  simp only [valAddr, Option.some.injEq] at hvr
  subst hvr
  exact O3 b hTbx hrb

theorem merge_source_frame_witness :
    mergeH 10 [(0, Node.map []), (1, Node.map [("b", Value.vstr "x")])]
        0 1 false false
      = some [(0, Node.map [("b", Value.vstr "x")]),
              (1, Node.map [("b", Value.vstr "x")])] ∧
    ((∀ x, ReachH [(0, Node.map []), (1, Node.map [("b", Value.vstr "x")])] 1 x →
        lookupH [(0, Node.map [("b", Value.vstr "x")]),
                 (1, Node.map [("b", Value.vstr "x")])] x
          = lookupH [(0, Node.map []), (1, Node.map [("b", Value.vstr "x")])] x) ∧
     readN 3 [(0, Node.map [("b", Value.vstr "x")]),
              (1, Node.map [("b", Value.vstr "x")])] 1
        = some (.tmap [("b", .tstr "x")]) ∧
     (∀ x, ReachH [(0, Node.map [("b", Value.vstr "x")]),
                   (1, Node.map [("b", Value.vstr "x")])] 0 x →
        ReachH [(0, Node.map [("b", Value.vstr "x")]),
                (1, Node.map [("b", Value.vstr "x")])] 1 x → False) ∧
     (∀ b nd, ReachH [(0, Node.map [("b", Value.vstr "x")]),
                      (1, Node.map [("b", Value.vstr "x")])] 0 b →
        readN 3 (updateH [(0, Node.map [("b", Value.vstr "x")]),
                          (1, Node.map [("b", Value.vstr "x")])] b nd) 1
          = some (.tmap [("b", .tstr "x")]))) :=
  ⟨by decide,
    @merge_source_frame 10 3 3
      [(0, Node.map []), (1, Node.map [("b", Value.vstr "x")])] 0 1
      (.tmap [("b", .tstr "x")]) (.tmap []) false false
      [(0, Node.map [("b", Value.vstr "x")]), (1, Node.map [("b", Value.vstr "x")])]
      (by rfl) (by rfl)
      (fun x h0 h1 => by
        have hx0 : x = 0 := reach_from_empty (by decide) h0
        have hx1 : x = 1 :=
          @reach_no_addr [(0, Node.map []),
            (1, Node.map [("b", Value.vstr "x")])] 1 x
            (Node.map [("b", Value.vstr "x")]) (by decide) (by decide) h1
        rw [hx0] at hx1
        exact absurd hx1 (by decide))
      (by decide)⟩

end Dig
